import Mathlib

/-!
# dtrack-audit: the Dependency-Track API client (`internal/dtrack/client.go`)

A shallow embedding of the client and of the library behaviour it relies on.

* Go strings and byte slices are sequences of bytes (`GoString`); a Go string need not be
  valid UTF-8, and `encoding/json` treats the two cases differently, so the embedding keeps
  the bytes.
* The file system, URL parsing and the HTTP transport are the environment: they are the
  fields of `World`. The client that `getHttpClient` builds (compression disabled) is the
  transport behind `World.roundTrip`. The polling loop sees one environment per iteration
  and an oracle for the timeout channel.
* A call of one of the client's operations is a `Run`: the trace of the effects it performed
  and the way it ended (normal return, `log.Fatal`, or a run-time panic).
* `encoding/base64` (`StdEncoding`) and the part of `encoding/json` the client reaches
  (marshalling a struct of strings, scanning a JSON text, storing into structs of strings,
  a bool and a slice of structs) are modelled concretely on bytes, after the documented
  behaviour of the Go library: invalid UTF-8 becomes U+FFFD, `<`, `>`, `&`, U+2028 and
  U+2029 are escaped when marshalling, object keys match field names exactly or, failing
  that, up to case, a type mismatch is saved as the error while decoding goes on.
* The polling loop has no bound of its own; `pollLoop` takes the number of iterations to
  follow, and the theorems say that any number large enough gives the result.
* The grammar of JSON texts (RFC 8259) is given on its own (`StrBody`, `NumText`, `JSONText`),
  apart from the scanner; the scanner is proved to read every text of the grammar as the
  value it denotes, and the encoder to write texts of the grammar.
-/

namespace Dtrack

/-! ## Bytes, strings and UTF-8 -/

abbrev Byte := Fin 256

/-- A Go `string` (or `[]byte`): an arbitrary sequence of bytes. -/
abbrev GoString := List Byte

/-- The rune `utf8.RuneError` (U+FFFD). -/
def RuneError : Nat := 0xFFFD

/-- The rune `utf8.MaxRune`. -/
def MaxRune : Nat := 0x10FFFF

/-- Surrogate code points, which are not encodable in UTF-8. -/
def isSurrogate (r : Nat) : Bool := 0xD800 ≤ r && r ≤ 0xDFFF

/-- The bytes of a rune in the 3-byte form. -/
def encode3 (r : Nat) : GoString :=
  [Fin.ofNat (0xE0 + r / 4096), Fin.ofNat (0x80 + r / 64 % 64), Fin.ofNat (0x80 + r % 64)]

/-- Go `utf8.AppendRune`/`utf8.EncodeRune`: the UTF-8 bytes of a rune; a surrogate or a value
above `MaxRune` is written as `RuneError`. -/
def EncodeRune (r : Nat) : GoString :=
  if r < 0x80 then [Fin.ofNat r]
  else if r < 0x800 then [Fin.ofNat (0xC0 + r / 64), Fin.ofNat (0x80 + r % 64)]
  else if MaxRune < r ∨ isSurrogate r then encode3 RuneError
  else if r < 0x10000 then encode3 r
  else
    [Fin.ofNat (0xF0 + r / 262144), Fin.ofNat (0x80 + r / 4096 % 64),
     Fin.ofNat (0x80 + r / 64 % 64), Fin.ofNat (0x80 + r % 64)]

/-- Go `utf8.first` with `utf8.acceptRanges`: for a lead byte of a multi-byte sequence, the
length of the sequence and the accepted range of its second byte. -/
def leadInfo (p0 : Nat) : Option (Nat × Nat × Nat) :=
  if 0xC2 ≤ p0 ∧ p0 ≤ 0xDF then some (2, 0x80, 0xBF)
  else if p0 = 0xE0 then some (3, 0xA0, 0xBF)
  else if 0xE1 ≤ p0 ∧ p0 ≤ 0xEC then some (3, 0x80, 0xBF)
  else if p0 = 0xED then some (3, 0x80, 0x9F)
  else if 0xEE ≤ p0 ∧ p0 ≤ 0xEF then some (3, 0x80, 0xBF)
  else if p0 = 0xF0 then some (4, 0x90, 0xBF)
  else if 0xF1 ≤ p0 ∧ p0 ≤ 0xF3 then some (4, 0x80, 0xBF)
  else if p0 = 0xF4 then some (4, 0x80, 0x8F)
  else none

/-- A continuation byte (`locb ≤ b ≤ hicb`). -/
def isCont (b : Nat) : Bool := 0x80 ≤ b && b ≤ 0xBF

/-- Go `utf8.DecodeRune`: the first rune of `p` and its width in bytes; `(RuneError, 0)` on
empty input and `(RuneError, 1)` on an invalid or truncated encoding. -/
def DecodeRune : GoString → Nat × Nat
  | [] => (RuneError, 0)
  | p0 :: rest =>
    if p0.val < 0x80 then (p0.val, 1)
    else
      match leadInfo p0.val with
      | none => (RuneError, 1)
      | some (sz, lo, hi) =>
        if rest.length + 1 < sz then (RuneError, 1)
        else
          match rest with
          | [] => (RuneError, 1)
          | b1 :: rest1 =>
            if b1.val < lo ∨ hi < b1.val then (RuneError, 1)
            else if sz ≤ 2 then (p0.val % 32 * 64 + b1.val % 64, 2)
            else
              match rest1 with
              | [] => (RuneError, 1)
              | b2 :: rest2 =>
                if !isCont b2.val then (RuneError, 1)
                else if sz ≤ 3 then (p0.val % 16 * 4096 + b1.val % 64 * 64 + b2.val % 64, 3)
                else
                  match rest2 with
                  | [] => (RuneError, 1)
                  | b3 :: _ =>
                    if !isCont b3.val then (RuneError, 1)
                    else
                      (p0.val % 8 * 262144 + b1.val % 64 * 4096 + b2.val % 64 * 64
                        + b3.val % 64, 4)

/-- A Go string constant: the UTF-8 bytes of the text. -/
def lit (s : String) : GoString := s.toList.flatMap (fun c => EncodeRune c.toNat)

/-- Go `utf8.Valid`, by repeated `DecodeRune`; `skip` counts the bytes of the current rune
still to be passed over. -/
def validFrom : Nat → GoString → Bool
  | _, [] => true
  | skip + 1, _ :: rest => validFrom skip rest
  | 0, b :: rest =>
    let d := DecodeRune (b :: rest)
    if d.1 = RuneError ∧ d.2 = 1 then false else validFrom (d.2 - 1) rest

/-- Go `utf8.Valid`/`utf8.ValidString`. -/
def utf8Valid (s : GoString) : Bool := validFrom 0 s

/-! ## Data model (`client.go`) -/

def BOM_UPLOAD_URL : GoString := lit "/api/v1/bom"
def PROJECT_FINDINGS_URL : GoString := lit "/api/v1/finding/project"
def BOM_TOKEN_URL : GoString := lit "/api/v1/bom/token"

/-- The constant `5 * time.Second`, in nanoseconds (the unit of `time.Duration`). -/
def API_POLLING_STEP : Nat := 5 * 1000000000

structure Payload where
  Project : GoString
  Bom : GoString
  deriving DecidableEq, Repr

structure UploadResult where
  Token : GoString := []
  deriving DecidableEq, Repr

structure ProcessState where
  Processing : Bool := false
  deriving DecidableEq, Repr

structure ApiClient where
  ApiKey : GoString
  ApiUrl : GoString
  deriving DecidableEq, Repr

structure Component where
  Uuid : GoString := []
  Name : GoString := []
  Version : GoString := []
  deriving DecidableEq, Repr

structure Vulnerability where
  Uuid : GoString := []
  VulnId : GoString := []
  Source : GoString := []
  Title : GoString := []
  Description : GoString := []
  Severity : GoString := []
  Recommendation : GoString := []
  deriving DecidableEq, Repr

structure Analysis where
  AnalysisState : GoString := []
  deriving DecidableEq, Repr

structure Finding where
  Comp : Component := {}
  Vuln : Vulnerability := {}
  An : Analysis := {}
  Matrix : GoString := []
  deriving DecidableEq, Repr

/-- `ApiClient.GetVulnViewUrl`. -/
def GetVulnViewUrl (c : ApiClient) (v : Vulnerability) : GoString :=
  c.ApiUrl ++ lit "/vulnerability/?source=" ++ v.Source ++ lit "&vulnId=" ++ v.VulnId

/-! ## `encoding/base64`: `StdEncoding` -/

/-- The alphabet `encodeStd` of RFC 4648. -/
def encodeStd : GoString :=
  lit "ABCDEFGHIJKLMNOPQRSTUVWXYZabcdefghijklmnopqrstuvwxyz0123456789+/"

/-- The padding character `StdPadding`, `=`. -/
def StdPadding : Byte := 61

/-- The character of a 6-bit value. -/
def b64Char (v : Nat) : Byte := encodeStd.getD v 0

/-- The 6-bit value of a character of the alphabet (the decode map of the encoding). -/
def b64Val (c : Byte) : Option Nat :=
  let i := encodeStd.indexOf c
  if i < 64 then some i else none

/-- Go `base64.StdEncoding.EncodeToString`: three bytes give four characters; a last group of
one or two bytes is padded with `=`. -/
def EncodeToString : List Byte → GoString
  | b0 :: b1 :: b2 :: rest =>
    b64Char (b0.val / 4) :: b64Char (b0.val % 4 * 16 + b1.val / 16)
      :: b64Char (b1.val % 16 * 4 + b2.val / 64) :: b64Char (b2.val % 64)
      :: EncodeToString rest
  | [b0, b1] =>
    [b64Char (b0.val / 4), b64Char (b0.val % 4 * 16 + b1.val / 16),
     b64Char (b1.val % 16 * 4), StdPadding]
  | [b0] => [b64Char (b0.val / 4), b64Char (b0.val % 4 * 16), StdPadding, StdPadding]
  | [] => []

/-- The quanta of a base64 text without line breaks: four characters give three bytes;
padding is accepted in the last quantum only. -/
def decodeQuanta : GoString → Option (List Byte)
  | [] => some []
  | c0 :: c1 :: c2 :: c3 :: rest =>
    match b64Val c0, b64Val c1 with
    | some v0, some v1 =>
      if c2 = StdPadding then
        if c3 = StdPadding ∧ rest = [] then some [Fin.ofNat (v0 * 4 + v1 / 16)] else none
      else
        match b64Val c2 with
        | none => none
        | some v2 =>
          if c3 = StdPadding then
            if rest = [] then
              some [Fin.ofNat (v0 * 4 + v1 / 16), Fin.ofNat (v1 % 16 * 16 + v2 / 4)]
            else none
          else
            match b64Val c3 with
            | none => none
            | some v3 =>
              (decodeQuanta rest).map fun tl =>
                Fin.ofNat (v0 * 4 + v1 / 16) :: Fin.ofNat (v1 % 16 * 16 + v2 / 4)
                  :: Fin.ofNat (v2 % 4 * 64 + v3) :: tl
    | _, _ => none
  | _ => none

/-- Go `base64.StdEncoding.DecodeString`: line breaks (`\r`, `\n`) are ignored, the rest is
decoded quantum by quantum; `none` stands for a `CorruptInputError`. -/
def DecodeString (s : GoString) : Option (List Byte) :=
  decodeQuanta (s.filter fun c => c ≠ 10 ∧ c ≠ 13)

/-! ## `encoding/json`: marshalling -/

/-- The digits `hex` of the encoder. -/
def hex : GoString := lit "0123456789abcdef"

def hexDigit (v : Nat) : Byte := hex.getD v 0

/-- The table `htmlSafeSet`: the ASCII bytes written as they are in a JSON string when HTML
escaping is on, namely `0x20 ..= 0x7F` except `"`, `\`, `<`, `>` and `&`. -/
def htmlSafeSet (b : Nat) : Bool :=
  0x20 ≤ b && b < 0x80 && b != 0x22 && b != 0x5C && b != 0x3C && b != 0x3E && b != 0x26

/-- The escape the encoder writes for an ASCII byte outside `htmlSafeSet`. -/
def escapeByte (b : Byte) : GoString :=
  if b = 0x5C ∨ b = 0x22 then [0x5C, b]
  else if b = 0x08 then lit "\\b"
  else if b = 0x0C then lit "\\f"
  else if b = 0x0A then lit "\\n"
  else if b = 0x0D then lit "\\r"
  else if b = 0x09 then lit "\\t"
  else lit "\\u00" ++ [hexDigit (b.val / 16), hexDigit (b.val % 16)]

/-- The loop of the encoder's `appendString` (with `escapeHTML` on, as `json.Marshal` has it),
without the surrounding quotes. `skip` is the number of bytes that belong to the rune already
handled; they are copied when `keep` holds and dropped otherwise. Invalid UTF-8 is replaced by
`�`, one byte at a time; U+2028 and U+2029 are escaped. -/
def appendStringFrom : Nat → Bool → GoString → GoString
  | _, _, [] => []
  | skip + 1, keep, b :: rest =>
    (if keep then [b] else []) ++ appendStringFrom skip keep rest
  | 0, _, b :: rest =>
    if b.val < 0x80 then
      (if htmlSafeSet b.val then [b] else escapeByte b) ++ appendStringFrom 0 true rest
    else
      let d := DecodeRune (b :: rest)
      if d.1 = RuneError ∧ d.2 = 1 then lit "\\ufffd" ++ appendStringFrom 0 true rest
      else if d.1 = 0x2028 ∨ d.1 = 0x2029 then
        lit "\\u202" ++ [hexDigit (d.1 % 16)] ++ appendStringFrom (d.2 - 1) false rest
      else b :: appendStringFrom (d.2 - 1) true rest

/-- The encoder's `appendString`: a Go string as a JSON string literal. -/
def appendString (s : GoString) : GoString :=
  [0x22] ++ appendStringFrom 0 true s ++ [0x22]

/-- `json.Marshal(payload)` for a `Payload`: the fields in declaration order under their
`json` tags, compact. It has no failure case. -/
def marshalPayload (payload : Payload) : GoString :=
  lit "\x7b\"project\":" ++ appendString payload.Project ++ lit ",\"bom\":"
    ++ appendString payload.Bom ++ lit "\x7d"

/-! ## `encoding/json`: scanning a JSON text -/

/-- A JSON value, as the decoder sees it after scanning; strings are already unquoted. -/
inductive JSON where
  | null : JSON
  | bool (b : Bool) : JSON
  | num (text : GoString) : JSON
  | str (s : GoString) : JSON
  | arr (items : List JSON) : JSON
  | obj (members : List (GoString × JSON)) : JSON

/-- The result of scanning a prefix of the input. -/
inductive Scan (α : Type) where
  /-- A value was read; `rest` is the input after it. -/
  | ok (value : α) (rest : GoString) : Scan α
  /-- The input is not JSON (`SyntaxError`, `io.EOF`, `io.ErrUnexpectedEOF`). -/
  | bad : Scan α
  /-- The recursion budget of the embedding is used up. -/
  | fuel : Scan α

/-- Apply a function to the value read. -/
def Scan.map {α β : Type} (f : α → β) : Scan α → Scan β
  | .ok v rest => .ok (f v) rest
  | .bad => .bad
  | .fuel => .fuel

/-- The scan stayed within its budget and, if it read a value, left less than `n` bytes. -/
def Scan.within {α : Type} : Scan α → Nat → Prop
  | .ok _ rest, n => rest.length < n
  | .bad, _ => True
  | .fuel, _ => False

/-- The scanner's `isSpace`. -/
def isSpace (c : Byte) : Bool := c = 0x20 || c = 0x09 || c = 0x0D || c = 0x0A

def skipSpace : GoString → GoString
  | [] => []
  | c :: rest => if isSpace c then skipSpace rest else c :: rest

def isDigit (c : Byte) : Bool := 0x30 ≤ c.val && c.val ≤ 0x39

/-- The value of a hexadecimal digit, of either case. -/
def hexVal (c : Byte) : Option Nat :=
  if 0x30 ≤ c.val ∧ c.val ≤ 0x39 then some (c.val - 0x30)
  else if 0x61 ≤ c.val ∧ c.val ≤ 0x66 then some (c.val - 0x61 + 10)
  else if 0x41 ≤ c.val ∧ c.val ≤ 0x46 then some (c.val - 0x41 + 10)
  else none

/-- The decoder's `getu4`: the value of a `\uXXXX` escape at the head of the input. -/
def getu4 : GoString → Option Nat
  | b :: u :: h1 :: h2 :: h3 :: h4 :: _ =>
    if b = 0x5C ∧ u = 0x75 then
      match hexVal h1, hexVal h2, hexVal h3, hexVal h4 with
      | some v1, some v2, some v3, some v4 => some (v1 * 4096 + v2 * 256 + v3 * 16 + v4)
      | _, _, _, _ => none
    else none
  | _ => none

/-- Go `utf16.DecodeRune`: the code point of a surrogate pair, or `RuneError`. -/
def utf16DecodeRune (r1 : Nat) (r2 : Option Nat) : Nat :=
  match r2 with
  | some r2 =>
    if 0xD800 ≤ r1 ∧ r1 < 0xDC00 ∧ 0xDC00 ≤ r2 ∧ r2 < 0xE000 then
      (r1 - 0xD800) * 1024 + (r2 - 0xDC00) + 0x10000
    else RuneError
  | none => RuneError

/-- The byte a one-letter escape stands for. -/
def unescape (e : Byte) : Option Byte :=
  if e = 0x22 ∨ e = 0x5C ∨ e = 0x2F then some e
  else if e = 0x62 then some 0x08
  else if e = 0x66 then some 0x0C
  else if e = 0x6E then some 0x0A
  else if e = 0x72 then some 0x0D
  else if e = 0x74 then some 0x09
  else none

/-- Put bytes in front of the string read. -/
def Scan.prepend (xs : GoString) (r : Scan GoString) : Scan GoString :=
  r.map fun s => xs ++ s

/-- A string literal after its opening quote: the scanner's string states together with the
decoder's `unquote`. Escapes are resolved, an unpaired surrogate escape and every byte that
is not part of a valid UTF-8 encoding become `RuneError`. `skip` is the number of bytes that
belong to the escape or rune already handled. -/
def scanString : Nat → GoString → Scan GoString
  | _, [] => .bad
  | skip + 1, _ :: rest => scanString skip rest
  | 0, c :: rest =>
    if c = 0x22 then .ok [] rest
    else if c = 0x5C then
      match rest with
      | [] => .bad
      | e :: _ =>
        if e = 0x75 then
          match getu4 (c :: rest) with
          | none => .bad
          | some rr =>
            if isSurrogate rr then
              let dec := utf16DecodeRune rr (getu4 (rest.drop 5))
              if dec ≠ RuneError then (scanString 11 rest).prepend (EncodeRune dec)
              else (scanString 5 rest).prepend (EncodeRune RuneError)
            else (scanString 5 rest).prepend (EncodeRune rr)
        else
          match unescape e with
          | none => .bad
          | some b => (scanString 1 rest).prepend [b]
    else if c.val < 0x20 then .bad
    else if c.val < 0x80 then (scanString 0 rest).prepend [c]
    else
      let d := DecodeRune (c :: rest)
      (scanString (d.2 - 1) rest).prepend (EncodeRune d.1)

/-- The longest run of digits at the head of the input, and what follows it. -/
def spanDigits : GoString → GoString × GoString
  | [] => ([], [])
  | c :: rest =>
    if isDigit c then
      let r := spanDigits rest
      (c :: r.1, r.2)
    else ([], c :: rest)

/-- The exponent part of a number, if one starts here. -/
def scanExponent (bs : GoString) : Option (GoString × GoString) :=
  match bs with
  | e :: rest =>
    if e = 0x65 ∨ e = 0x45 then
      match rest with
      | s :: rest1 =>
        if s = 0x2B ∨ s = 0x2D then
          let r := spanDigits rest1
          if r.1 = [] then none else some (e :: s :: r.1, r.2)
        else
          let r := spanDigits rest
          if r.1 = [] then none else some (e :: r.1, r.2)
      | [] => none
    else some ([], bs)
  | [] => some ([], bs)

/-- The fraction part of a number, if one starts here. -/
def scanFraction (bs : GoString) : Option (GoString × GoString) :=
  match bs with
  | d :: rest =>
    if d = 0x2E then
      let r := spanDigits rest
      if r.1 = [] then none else some (d :: r.1, r.2)
    else some ([], bs)
  | [] => some ([], bs)

/-- The digits of the integer part: `0`, or a non-zero digit and more digits. -/
def scanInt (bs : GoString) : Option (GoString × GoString) :=
  match bs with
  | d :: rest =>
    if d = 0x30 then some ([d], rest)
    else if isDigit d then
      let r := spanDigits rest
      some (d :: r.1, r.2)
    else none
  | [] => none

/-- A number literal (the scanner's states `stateNeg` to `stateE0`). -/
def scanNumber (bs : GoString) : Scan GoString :=
  let signed : GoString × GoString :=
    match bs with
    | c :: rest => if c = 0x2D then ([c], rest) else ([], bs)
    | [] => ([], bs)
  match scanInt signed.2 with
  | none => .bad
  | some (i, r1) =>
    match scanFraction r1 with
    | none => .bad
    | some (f, r2) =>
      match scanExponent r2 with
      | none => .bad
      | some (e, r3) => .ok (signed.1 ++ i ++ f ++ e) r3

/-- Read the given word (the rest of `true`, `false` or `null`). -/
def scanWord : GoString → GoString → Option GoString
  | [], bs => some bs
  | _ :: _, [] => none
  | w :: ws, c :: rest => if w = c then scanWord ws rest else none

/-- The scanner's `maxNestingDepth`. -/
def maxNestingDepth : Nat := 10000

mutual
/-- A JSON value at the head of the input, after optional white space. `depth` is the number
of arrays and objects that are open. -/
def scanValue : Nat → Nat → GoString → Scan JSON
  | 0, _, _ => .fuel
  | fuel + 1, depth, bs =>
    match skipSpace bs with
    | [] => .bad
    | c :: rest =>
      if c = 0x22 then (scanString 0 rest).map JSON.str
      else if c = 0x7B then
        if maxNestingDepth ≤ depth then .bad
        else
          match skipSpace rest with
          | [] => .bad
          | c1 :: rest1 =>
            if c1 = 0x7D then .ok (JSON.obj []) rest1
            else (scanMembers fuel (depth + 1) (c1 :: rest1)).map JSON.obj
      else if c = 0x5B then
        if maxNestingDepth ≤ depth then .bad
        else
          match skipSpace rest with
          | [] => .bad
          | c1 :: rest1 =>
            if c1 = 0x5D then .ok (JSON.arr []) rest1
            else (scanElements fuel (depth + 1) (c1 :: rest1)).map JSON.arr
      else if c = 0x74 then
        match scanWord (lit "rue") rest with
        | some r => .ok (JSON.bool true) r
        | none => .bad
      else if c = 0x66 then
        match scanWord (lit "alse") rest with
        | some r => .ok (JSON.bool false) r
        | none => .bad
      else if c = 0x6E then
        match scanWord (lit "ull") rest with
        | some r => .ok JSON.null r
        | none => .bad
      else if c = 0x2D ∨ isDigit c then (scanNumber (c :: rest)).map JSON.num
      else .bad
/-- The elements of an array after `[`, up to and including `]`; there is at least one. -/
def scanElements : Nat → Nat → GoString → Scan (List JSON)
  | 0, _, _ => .fuel
  | fuel + 1, depth, bs =>
    match scanValue fuel depth bs with
    | .bad => .bad
    | .fuel => .fuel
    | .ok v rest =>
      match skipSpace rest with
      | [] => .bad
      | c :: rest1 =>
        if c = 0x5D then .ok [v] rest1
        else if c = 0x2C then (scanElements fuel depth rest1).map fun vs => v :: vs
        else .bad
/-- The members of an object after `{`, up to and including `}`; there is at least one. -/
def scanMembers : Nat → Nat → GoString → Scan (List (GoString × JSON))
  | 0, _, _ => .fuel
  | fuel + 1, depth, bs =>
    match skipSpace bs with
    | [] => .bad
    | q :: rest =>
      if q = 0x22 then
        match scanString 0 rest with
        | .bad => .bad
        | .fuel => .fuel
        | .ok key rest1 =>
          match skipSpace rest1 with
          | [] => .bad
          | colon :: rest2 =>
            if colon = 0x3A then
              match scanValue fuel depth rest2 with
              | .bad => .bad
              | .fuel => .fuel
              | .ok v rest3 =>
                match skipSpace rest3 with
                | [] => .bad
                | c :: rest4 =>
                  if c = 0x7D then .ok [(key, v)] rest4
                  else if c = 0x2C then
                    (scanMembers fuel depth rest4).map fun ms => (key, v) :: ms
                  else .bad
            else .bad
      else .bad
end

/-- The first JSON value of a body, as `Decoder.Decode` reads it: white space, one value, and
whatever follows is left unread. The budget is more than the scan can use: the result is
never `Scan.fuel` (theorem `readValue_ne_fuel`). -/
def readValue (body : GoString) : Scan JSON :=
  scanValue (2 * body.length + 1) 0 body

/-! ## Errors -/

/-- A Go `error` value that is not `nil`. -/
inductive GoError where
  /-- An error made by the environment (`os`, `net/url`, `net/http`), identified by a number. -/
  | external (id : Nat) : GoError
  /-- The body is not a JSON text (`*json.SyntaxError`, `io.EOF`, `io.ErrUnexpectedEOF`). -/
  | syntaxError : GoError
  /-- A JSON value of kind `value` cannot be stored in a Go value of type `type`
  (`*json.UnmarshalTypeError`). -/
  | unmarshalType (value type : GoString) : GoError
  /-- The error `fmt.Errorf(msg)` for a message without verbs. -/
  | errorf (msg : GoString) : GoError
  deriving DecidableEq, Repr

/-! ## `encoding/json`: storing a value into Go data -/

/-- The word the decoder uses for the kind of a JSON value in an `UnmarshalTypeError`. -/
def JSON.kind : JSON → GoString
  | .null => lit "null"
  | .bool _ => lit "bool"
  | .num _ => lit "number"
  | .str _ => lit "string"
  | .arr _ => lit "array"
  | .obj _ => lit "object"

/-- The decoder's `saveError`: the first error is kept, decoding goes on. -/
def saveError (saved : Option GoError) (e : GoError) : Option GoError :=
  match saved with
  | none => some e
  | some s => some s

/-- Storing a JSON value into a Go value of type `α`: the new value and the saved error. -/
abbrev Store (α : Type) := JSON → α → Option GoError → α × Option GoError

/-- Storing into a `string`: a JSON string is taken, `null` changes nothing, anything else is
a type error. -/
def storeString : Store GoString
  | .str s, _, saved => (s, saved)
  | .null, target, saved => (target, saved)
  | v, target, saved => (target, saveError saved (.unmarshalType v.kind (lit "string")))

/-- Storing into a `bool`. -/
def storeBool : Store Bool
  | .bool b, _, saved => (b, saved)
  | .null, target, saved => (target, saved)
  | v, target, saved => (target, saveError saved (.unmarshalType v.kind (lit "bool")))

/-- A field of a struct: its name for JSON (the `json` tag) and how a value is stored in it. -/
structure Field (α : Type) where
  name : GoString
  store : Store α

/-- A field of type `β` of the struct `α`, from its getter, setter and the store of `β`. -/
def Field.of {α β : Type} (name : GoString) (get : α → β) (set : α → β → α)
    (store : Store β) : Field α :=
  { name := name
    store := fun v target saved =>
      let r := store v (get target) saved
      (set target r.1, r.2) }

/-- The loop of `foldName`; `skip` is the number of bytes that belong to the rune already
handled. -/
def foldFrom : Nat → GoString → GoString
  | _, [] => []
  | skip + 1, _ :: rest => foldFrom skip rest
  | 0, c :: rest =>
    if 0x61 ≤ c.val ∧ c.val ≤ 0x7A then Fin.ofNat (c.val - 0x20) :: foldFrom 0 rest
    else if c = 0xC5 ∧ rest.take 1 = [0xBF] then 0x53 :: foldFrom 1 rest
    else if c = 0xE2 ∧ rest.take 2 = [0x84, 0xAA] then 0x4B :: foldFrom 2 rest
    else c :: foldFrom 0 rest

/-- The decoder's `foldName`, as far as it can meet an ASCII field name: ASCII letters are
made upper case, U+017F (long s) becomes `S` and U+212A (Kelvin sign) becomes `K`; all other
bytes stay. -/
def foldName (s : GoString) : GoString := foldFrom 0 s

/-- The field a key of a JSON object is stored in: the field of exactly that name, else the
first field whose name is the key up to case. -/
def findField {α : Type} (fields : List (Field α)) (key : GoString) : Option (Field α) :=
  match fields.find? fun f => f.name = key with
  | some f => some f
  | none => fields.find? fun f => foldName f.name = foldName key

/-- Storing into a struct: the members of a JSON object are stored one after the other into
the fields they name, members that name no field are skipped; `null` changes nothing;
anything else is a type error. -/
def storeStruct {α : Type} (typeName : GoString) (fields : List (Field α)) : Store α
  | .obj members, target, saved =>
    members.foldl
      (fun acc m =>
        match findField fields m.1 with
        | some f => f.store m.2 acc.1 acc.2
        | none => acc)
      (target, saved)
  | .null, target, saved => (target, saved)
  | v, target, saved => (target, saveError saved (.unmarshalType v.kind typeName))

def uploadResultFields : List (Field UploadResult) :=
  [Field.of (lit "token") (·.Token) (fun t x => { t with Token := x }) storeString]

def processStateFields : List (Field ProcessState) :=
  [Field.of (lit "processing") (·.Processing) (fun t x => { t with Processing := x }) storeBool]

def componentFields : List (Field Component) :=
  [Field.of (lit "uuid") (·.Uuid) (fun t x => { t with Uuid := x }) storeString,
   Field.of (lit "name") (·.Name) (fun t x => { t with Name := x }) storeString,
   Field.of (lit "version") (·.Version) (fun t x => { t with Version := x }) storeString]

def vulnerabilityFields : List (Field Vulnerability) :=
  [Field.of (lit "uuid") (·.Uuid) (fun t x => { t with Uuid := x }) storeString,
   Field.of (lit "vulnId") (·.VulnId) (fun t x => { t with VulnId := x }) storeString,
   Field.of (lit "source") (·.Source) (fun t x => { t with Source := x }) storeString,
   Field.of (lit "title") (·.Title) (fun t x => { t with Title := x }) storeString,
   Field.of (lit "description") (·.Description) (fun t x => { t with Description := x })
     storeString,
   Field.of (lit "severity") (·.Severity) (fun t x => { t with Severity := x }) storeString,
   Field.of (lit "recommendation") (·.Recommendation)
     (fun t x => { t with Recommendation := x }) storeString]

def analysisFields : List (Field Analysis) :=
  [Field.of (lit "analysisState") (·.AnalysisState) (fun t x => { t with AnalysisState := x })
     storeString]

def storeUploadResult : Store UploadResult :=
  storeStruct (lit "dtrack.UploadResult") uploadResultFields

def storeProcessState : Store ProcessState :=
  storeStruct (lit "dtrack.ProcessState") processStateFields

def findingFields : List (Field Finding) :=
  [Field.of (lit "component") (·.Comp) (fun t x => { t with Comp := x })
     (storeStruct (lit "dtrack.Component") componentFields),
   Field.of (lit "vulnerability") (·.Vuln) (fun t x => { t with Vuln := x })
     (storeStruct (lit "dtrack.Vulnerability") vulnerabilityFields),
   Field.of (lit "analysis") (·.An) (fun t x => { t with An := x })
     (storeStruct (lit "dtrack.Analysis") analysisFields),
   Field.of (lit "matrix") (·.Matrix) (fun t x => { t with Matrix := x }) storeString]

def storeFinding : Store Finding :=
  storeStruct (lit "dtrack.Finding") findingFields

/-- Storing into a `[]Finding` that is `nil`, as `result` is in `GetFindings`: the elements
of a JSON array are stored, in order, each into a new zero `Finding`; `null` leaves the slice
`nil`; anything else is a type error. -/
def storeFindings : Store (List Finding)
  | .arr items, _, saved =>
    items.foldl
      (fun acc v =>
        let r := storeFinding v {} acc.2
        (acc.1 ++ [r.1], r.2))
      ([], saved)
  | .null, _, saved => ([], saved)
  | v, target, saved => (target, saveError saved (.unmarshalType v.kind (lit "[]dtrack.Finding")))

def payloadFields : List (Field Payload) :=
  [Field.of (lit "project") (·.Project) (fun t x => { t with Project := x }) storeString,
   Field.of (lit "bom") (·.Bom) (fun t x => { t with Bom := x }) storeString]

/-- Storing into a `Payload`: what a Go receiver of the upload does with the same struct. -/
def storePayload : Store Payload :=
  storeStruct (lit "dtrack.Payload") payloadFields

/-- `json.NewDecoder(body).Decode(&target)`: the first JSON value of the body is read and
stored into the target; the result is the target and the error of `Decode`. A body that is
not JSON leaves the target as it is (`readValue` does not give `Scan.fuel`). -/
def Decode {α : Type} (store : Store α) (body : GoString) (target : α) : α × Option GoError :=
  match readValue body with
  | .ok v _ => store v target none
  | .bad => (target, some .syntaxError)
  | .fuel => (target, some .syntaxError)

/-! ## `net/http`: requests, responses and the environment -/

def MethodGet : GoString := lit "GET"
def MethodPut : GoString := lit "PUT"

/-- The bytes allowed in a header field name (`validHeaderFieldByte`): the token characters
of RFC 7230. -/
def validHeaderFieldByte (c : Byte) : Bool :=
  (0x41 ≤ c.val && c.val ≤ 0x5A) || (0x61 ≤ c.val && c.val ≤ 0x7A)
    || (0x30 ≤ c.val && c.val ≤ 0x39) || (lit "!#$%&*+-.^_|~").contains c
    || c = 0x27 || c = 0x60

/-- The loop of `canonicalMIMEHeaderKey`: upper case at the start and after `-`, lower case
elsewhere. -/
def canonicalFrom : Bool → GoString → GoString
  | _, [] => []
  | upper, c :: rest =>
    let c1 : Byte :=
      if upper ∧ 0x61 ≤ c.val ∧ c.val ≤ 0x7A then Fin.ofNat (c.val - 0x20)
      else if ¬upper ∧ 0x41 ≤ c.val ∧ c.val ≤ 0x5A then Fin.ofNat (c.val + 0x20)
      else c
    c1 :: canonicalFrom (c1 = 0x2D) rest

/-- Go `textproto.CanonicalMIMEHeaderKey`: a key made of token characters is put in canonical
case; any other key is returned as it is. -/
def CanonicalMIMEHeaderKey (s : GoString) : GoString :=
  if s.all validHeaderFieldByte then canonicalFrom true s else s

/-- An `http.Header`: the values added, under their canonical keys, in the order of adding. -/
abbrev Header := List (GoString × GoString)

/-- `Header.Add`. -/
def Header.Add (h : Header) (key value : GoString) : Header :=
  h ++ [(CanonicalMIMEHeaderKey key, value)]

/-- `Header.Get`: the first value under the key, or the empty string. -/
def Header.Get (h : Header) (key : GoString) : GoString :=
  match h.lookup (CanonicalMIMEHeaderKey key) with
  | some v => v
  | none => []

/-- The part of an `http.Request` the client sets. -/
structure Request where
  Method : GoString
  URL : GoString
  Header : Header := []
  Body : Option GoString := none
  deriving DecidableEq, Repr

/-- The part of an `http.Response` the client reads; the body is the whole of what the
server sent. -/
structure Response where
  StatusCode : Int
  Body : GoString
  deriving DecidableEq, Repr

/-- The environment of a call. -/
structure World where
  /-- `ioutil.ReadFile`: the bytes of the file, or an error. -/
  readFile : GoString → Except GoError (List Byte)
  /-- `url.Parse`, on which `http.NewRequest` depends: the error for a string that is not a
  URL. -/
  parseURL : GoString → Option GoError
  /-- `http.Client.Do`: the response to a request, or a transport error. -/
  roundTrip : Request → Except GoError Response

/-- `http.NewRequest` for the methods `GET` and `PUT`: the request, or the error of parsing
the URL; in the second case the request returned is `nil`. -/
def NewRequest (w : World) (method url : GoString) (body : Option GoString) :
    Except GoError Request :=
  match w.parseURL url with
  | some err => .error err
  | none => .ok { Method := method, URL := url, Header := [], Body := body }

/-! ## Runs -/

/-- An effect of the client on its environment, or a step of interest. -/
inductive Event where
  /-- `ioutil.ReadFile(name)`. -/
  | readFile (name : GoString) : Event
  /-- `http.NewRequest(method, url, body)`. -/
  | newRequest (method url : GoString) (body : Option GoString) : Event
  /-- `req.Header.Add(key, value)` on a request that exists. -/
  | headerAdd (key value : GoString) : Event
  /-- `client.Do(req)`. -/
  | send (req : Request) : Event
  /-- `json.NewDecoder(resp.Body).Decode(...)`. -/
  | decode (body : GoString) : Event
  /-- `log.Fatal(e)`. -/
  | fatal (e : GoError) : Event
  /-- `time.Sleep(d)`. -/
  | sleep (d : Nat) : Event
  /-- The `select` received from the timeout channel. -/
  | timeout : Event
  /-- A call of `isTokenBeingProcessed(token)` begins. -/
  | statusCheck (token : GoString) : Event
  deriving DecidableEq, Repr

/-- The way a call ends. -/
inductive Outcome (α : Type) where
  /-- The call returns its result and its `error`. -/
  | returned (result : α) (err : Option GoError) : Outcome α
  /-- `log.Fatal`: the message is logged and the process exits with status 1. -/
  | fatal (e : GoError) : Outcome α
  /-- A run-time panic: a nil pointer is dereferenced. -/
  | panicked : Outcome α
  deriving DecidableEq, Repr

/-- A call: the events in order, and the outcome. -/
structure Run (α : Type) where
  trace : List Event
  outcome : Outcome α
  deriving DecidableEq, Repr

/-- Put events in front of a run. -/
def Run.after {α : Type} (events : List Event) (r : Run α) : Run α :=
  { r with trace := events ++ r.trace }

/-! ## The client (`client.go`) -/

/-- The map `errorStatusCodes` of `checkRespStatusCode`. -/
def errorStatusCodes : List (Int × GoString) :=
  [(404, lit "The project could not be found or invalid API URL"),
   (401, lit "Authorization error")]

/-- `ApiClient.checkRespStatusCode`. -/
def checkRespStatusCode (statusCode : Int) : Option GoError :=
  match errorStatusCodes.lookup statusCode with
  | some errorMsg => some (.errorf errorMsg)
  | none => none

/-- `ApiClient.Upload`. The error of `http.NewRequest` is overwritten by that of `client.Do`
without having been looked at; when it is not `nil`, `req` is `nil` and `req.Header.Add`
panics. -/
def Upload (w : World) (apiClient : ApiClient) (inputFileName projectId : GoString) :
    Run UploadResult :=
  let t0 := [Event.readFile inputFileName]
  match w.readFile inputFileName with
  | .error err => ⟨t0, .returned {} (some err)⟩
  | .ok bomDataXml =>
    let bomDataB64 := EncodeToString bomDataXml
    let payload : Payload := { Project := projectId, Bom := bomDataB64 }
    let payloadJson := marshalPayload payload
    let url := apiClient.ApiUrl ++ BOM_UPLOAD_URL
    let t1 := t0 ++ [Event.newRequest MethodPut url (some payloadJson)]
    match NewRequest w MethodPut url (some payloadJson) with
    | .error _ => ⟨t1, .panicked⟩
    | .ok req =>
      let req := { req with Header := req.Header.Add (lit "X-API-Key") apiClient.ApiKey }
      let req :=
        { req with Header := req.Header.Add (lit "Content-Type") (lit "application/json") }
      let t2 := t1 ++ [Event.headerAdd (lit "X-API-Key") apiClient.ApiKey,
        Event.headerAdd (lit "Content-Type") (lit "application/json"), Event.send req]
      match w.roundTrip req with
      | .error err => ⟨t2, .returned {} (some err)⟩
      | .ok resp =>
        match checkRespStatusCode resp.StatusCode with
        | some e => ⟨t2 ++ [Event.fatal e], .fatal e⟩
        | none =>
          let r := Decode storeUploadResult resp.Body {}
          ⟨t2 ++ [Event.decode resp.Body], .returned r.1 r.2⟩

/-- `ApiClient.isTokenBeingProcessed`. -/
def isTokenBeingProcessed (w : World) (apiClient : ApiClient) (token : GoString) : Run Bool :=
  let processState : ProcessState := {}
  let url := apiClient.ApiUrl ++ BOM_TOKEN_URL ++ lit "/" ++ token
  let t1 := [Event.statusCheck token, Event.newRequest MethodGet url none]
  match NewRequest w MethodGet url none with
  | .error _ => ⟨t1, .panicked⟩
  | .ok req =>
    let req := { req with Header := req.Header.Add (lit "X-API-Key") apiClient.ApiKey }
    let req :=
      { req with Header := req.Header.Add (lit "Content-Type") (lit "application/json") }
    let t2 := t1 ++ [Event.headerAdd (lit "X-API-Key") apiClient.ApiKey,
      Event.headerAdd (lit "Content-Type") (lit "application/json"), Event.send req]
    match w.roundTrip req with
    | .error err => ⟨t2, .returned false (some err)⟩
    | .ok resp =>
      match checkRespStatusCode resp.StatusCode with
      | some e => ⟨t2 ++ [Event.fatal e], .fatal e⟩
      | none =>
        let r := Decode storeProcessState resp.Body processState
        match r.2 with
        | some err => ⟨t2 ++ [Event.decode resp.Body], .returned false (some err)⟩
        | none =>
          if r.1.Processing then ⟨t2 ++ [Event.decode resp.Body], .returned true none⟩
          else ⟨t2 ++ [Event.decode resp.Body], .returned false none⟩

/-- `ApiClient.GetFindings`. -/
def GetFindings (w : World) (apiClient : ApiClient) (projectId : GoString) :
    Run (List Finding) :=
  let url := apiClient.ApiUrl ++ PROJECT_FINDINGS_URL ++ lit "/" ++ projectId
  let t1 := [Event.newRequest MethodGet url none]
  match NewRequest w MethodGet url none with
  | .error _ => ⟨t1, .panicked⟩
  | .ok req =>
    let req := { req with Header := req.Header.Add (lit "X-API-Key") apiClient.ApiKey }
    let req :=
      { req with Header := req.Header.Add (lit "Content-Type") (lit "application/json") }
    let t2 := t1 ++ [Event.headerAdd (lit "X-API-Key") apiClient.ApiKey,
      Event.headerAdd (lit "Content-Type") (lit "application/json"), Event.send req]
    match w.roundTrip req with
    | .error err => ⟨t2, .returned [] (some err)⟩
    | .ok resp =>
      match checkRespStatusCode resp.StatusCode with
      | some e => ⟨t2 ++ [Event.fatal e], .fatal e⟩
      | none =>
        let r := Decode storeFindings resp.Body []
        ⟨t2 ++ [Event.decode resp.Body], .returned r.1 r.2⟩

/-- The loop of `ApiClient.PollTokenBeingProcessed`, from its iteration `i` on. `ws i` is the
environment of iteration `i` and `fired i` tells whether the `select` of iteration `i` finds
a value on the timeout channel. The loop has no bound of its own; `fuel` bounds the number
of iterations the embedding follows, and `none` means that the bound was reached. -/
def pollLoop (ws : Nat → World) (fired : Nat → Bool) (apiClient : ApiClient)
    (token : GoString) : Nat → Nat → Option (Run Unit)
  | 0, _ => none
  | fuel + 1, i =>
    if fired i then some ⟨[Event.timeout], .returned () none⟩
    else
      let r := isTokenBeingProcessed (ws i) apiClient token
      match r.outcome with
      | .fatal e => some ⟨r.trace, .fatal e⟩
      | .panicked => some ⟨r.trace, .panicked⟩
      | .returned _ (some err) => some ⟨r.trace, .returned () (some err)⟩
      | .returned state none =>
        if state = false then some ⟨r.trace, .returned () none⟩
        else
          (pollLoop ws fired apiClient token fuel (i + 1)).map
            (Run.after (r.trace ++ [Event.sleep API_POLLING_STEP]))

/-- `ApiClient.PollTokenBeingProcessed`: the result is the `error` returned. -/
def PollTokenBeingProcessed (ws : Nat → World) (fired : Nat → Bool) (apiClient : ApiClient)
    (token : GoString) (fuel : Nat) : Option (Run Unit) :=
  (pollLoop ws fired apiClient token fuel 0).map (Run.after [Event.sleep API_POLLING_STEP])

/-- The number of status checks in a trace. -/
def statusChecks (t : List Event) : Nat :=
  t.countP fun e => match e with
    | .statusCheck _ => true
    | _ => false

/-- The number of sleeps of the polling interval in a trace. -/
def sleeps (t : List Event) : Nat := t.count (Event.sleep API_POLLING_STEP)

/-- The number of JSON decodings in a trace. -/
def decodes (t : List Event) : Nat :=
  t.countP fun e => match e with
    | .decode _ => true
    | _ => false

/-! ## Environments for concrete runs -/

/-- Whether a string holds an ASCII control byte; `url.Parse` rejects such a string
("invalid control character in URL"). -/
def stringContainsCTLByte (s : GoString) : Bool :=
  s.any fun b => b.val < 0x20 || b.val = 0x7F

/-- An environment in which every file holds `file`, a URL is rejected exactly when it holds
a control byte, and every request is answered by `answer`. -/
def stubWorld (file : List Byte) (answer : Except GoError Response) : World :=
  { readFile := fun _ => .ok file
    parseURL := fun u => if stringContainsCTLByte u then some (.external 0) else none
    roundTrip := fun _ => answer }

/-! ## What the specification says of a findings response -/

/-- The string under `key` among the members of a JSON object; the empty string when the key
is absent (or holds no string). -/
def stringAt (members : List (GoString × JSON)) (key : GoString) : GoString :=
  match members.lookup key with
  | some (.str s) => s
  | _ => []

/-- The members of the object under `key` among the members of a JSON object; none when the
key is absent (or holds no object). -/
def membersAt (members : List (GoString × JSON)) (key : GoString) : List (GoString × JSON) :=
  match members.lookup key with
  | some (.obj ms) => ms
  | _ => []

/-- The finding the specification reads off an element of the response: each field is the
string under the corresponding key, `component{uuid,name,version}`,
`vulnerability{uuid,vulnId,source,title,description,severity,recommendation}`,
`analysis{analysisState}` and `matrix`; an absent key leaves the field empty. -/
def specFinding : JSON → Finding
  | .obj ms =>
    { Comp :=
        { Uuid := stringAt (membersAt ms (lit "component")) (lit "uuid")
          Name := stringAt (membersAt ms (lit "component")) (lit "name")
          Version := stringAt (membersAt ms (lit "component")) (lit "version") }
      Vuln :=
        { Uuid := stringAt (membersAt ms (lit "vulnerability")) (lit "uuid")
          VulnId := stringAt (membersAt ms (lit "vulnerability")) (lit "vulnId")
          Source := stringAt (membersAt ms (lit "vulnerability")) (lit "source")
          Title := stringAt (membersAt ms (lit "vulnerability")) (lit "title")
          Description := stringAt (membersAt ms (lit "vulnerability")) (lit "description")
          Severity := stringAt (membersAt ms (lit "vulnerability")) (lit "severity")
          Recommendation :=
            stringAt (membersAt ms (lit "vulnerability")) (lit "recommendation") }
      An := { AnalysisState := stringAt (membersAt ms (lit "analysis")) (lit "analysisState") }
      Matrix := stringAt ms (lit "matrix") }
  | _ => {}

def componentNames : List GoString := [lit "uuid", lit "name", lit "version"]

def vulnerabilityNames : List GoString :=
  [lit "uuid", lit "vulnId", lit "source", lit "title", lit "description", lit "severity",
   lit "recommendation"]

def analysisNames : List GoString := [lit "analysisState"]

def findingNames : List GoString :=
  [lit "component", lit "vulnerability", lit "analysis", lit "matrix"]

/-- The keys of an object are plain with respect to the names of a struct: no key occurs
twice, and a key that is not one of the names is not one of them up to case either. -/
def plainKeys (names : List GoString) (members : List (GoString × JSON)) : Bool :=
  decide (members.map Prod.fst).Nodup
    && members.all fun m => names.contains m.1 || names.all fun n => foldName n != foldName m.1

def isStringOrNull : JSON → Bool
  | .str _ => true
  | .null => true
  | _ => false

/-- An object of plain keys whose named members hold strings (or `null`). -/
def stringMembers (names : List GoString) (members : List (GoString × JSON)) : Bool :=
  plainKeys names members && members.all fun m => !names.contains m.1 || isStringOrNull m.2

/-- The value is `null` or an object whose members satisfy `p`. -/
def objectOrNull (p : List (GoString × JSON) → Bool) : JSON → Bool
  | .obj ms => p ms
  | .null => true
  | _ => false

/-- An element of a findings response as the specification describes it: an object of plain
keys in which `component`, `vulnerability` and `analysis`, when present, are objects of
strings under plain keys, and `matrix`, when present, is a string. -/
def wellFormedFinding : JSON → Bool
  | .obj ms =>
    plainKeys findingNames ms
      && ms.all fun m =>
        if m.1 = lit "component" then objectOrNull (stringMembers componentNames) m.2
        else if m.1 = lit "vulnerability" then
          objectOrNull (stringMembers vulnerabilityNames) m.2
        else if m.1 = lit "analysis" then objectOrNull (stringMembers analysisNames) m.2
        else if m.1 = lit "matrix" then isStringOrNull m.2
        else true
  | _ => false

/-! ## The JSON grammar (RFC 8259) -/

/-- White space between the tokens of a JSON text. -/
def whiteSpace (sp : GoString) : Bool := sp.all fun c => (lit " \t\n\r").contains c

/-- A run of decimal digits. -/
def digits (ds : GoString) : Bool := ds.all fun c => (lit "0123456789").contains c

/-- The one-letter escapes of a JSON string and the bytes they stand for. -/
def escapes : List (Byte × Byte) :=
  [(0x22, 0x22), (0x5C, 0x5C), (0x2F, 0x2F), (0x62, 0x08), (0x66, 0x0C), (0x6E, 0x0A),
   (0x72, 0x0D), (0x74, 0x09)]

/-- The value of a hexadecimal digit, read off the two alphabets. -/
def hexDigitValue (c : Byte) : Option Nat :=
  let i := (lit "0123456789abcdef").indexOf c
  let j := (lit "0123456789ABCDEF").indexOf c
  if i < 16 then some i else if j < 16 then some j else none

/-- The code unit written by the four hexadecimal digits of a `\u` escape. -/
def codeUnit (h1 h2 h3 h4 : Byte) : Option Nat :=
  match hexDigitValue h1, hexDigitValue h2, hexDigitValue h3, hexDigitValue h4 with
  | some v1, some v2, some v3, some v4 => some (((v1 * 16 + v2) * 16 + v3) * 16 + v4)
  | _, _, _, _ => none

/-- The characters between the quotes of a JSON string, and the bytes of the string they
denote: unescaped characters in UTF-8, one-letter escapes, `\u` escapes of a code point of
the basic plane, and pairs of `\u` escapes for the surrogates of a code point above it. -/
inductive StrBody : GoString → GoString → Prop where
  | nil : StrBody [] []
  | ascii (c : Byte) {t s : GoString} : 0x20 ≤ c.val → c.val < 0x80 → c ≠ 0x22 → c ≠ 0x5C →
      StrBody t s → StrBody (c :: t) (c :: s)
  | rune (r : Nat) {t s : GoString} : 0x80 ≤ r → r ≤ MaxRune → isSurrogate r = false →
      StrBody t s → StrBody (EncodeRune r ++ t) (EncodeRune r ++ s)
  | escape (e b : Byte) {t s : GoString} : (e, b) ∈ escapes →
      StrBody t s → StrBody (0x5C :: e :: t) (b :: s)
  | unicode (h1 h2 h3 h4 : Byte) (r : Nat) {t s : GoString} : codeUnit h1 h2 h3 h4 = some r →
      isSurrogate r = false →
      StrBody t s → StrBody (0x5C :: 0x75 :: h1 :: h2 :: h3 :: h4 :: t) (EncodeRune r ++ s)
  | pair (h1 h2 h3 h4 l1 l2 l3 l4 : Byte) (hi lo : Nat) {t s : GoString} :
      codeUnit h1 h2 h3 h4 = some hi → codeUnit l1 l2 l3 l4 = some lo →
      0xD800 ≤ hi → hi < 0xDC00 → 0xDC00 ≤ lo → lo < 0xE000 →
      StrBody t s →
      StrBody (0x5C :: 0x75 :: h1 :: h2 :: h3 :: h4 :: 0x5C :: 0x75 :: l1 :: l2 :: l3 :: l4 :: t)
        (EncodeRune (0x10000 + (hi - 0xD800) * 0x400 + (lo - 0xDC00)) ++ s)

/-- The text of a number: an optional minus sign, an integer part without a leading zero, an
optional fraction and an optional exponent. -/
def NumText (t : GoString) : Prop :=
  ∃ sign int frac exp : GoString, t = sign ++ int ++ frac ++ exp
    ∧ (sign = [] ∨ sign = lit "-")
    ∧ (int = lit "0" ∨ ∃ d ds, int = d :: ds ∧ (lit "123456789").contains d = true
        ∧ digits ds = true)
    ∧ (frac = [] ∨ ∃ ds, frac = 0x2E :: ds ∧ ds ≠ [] ∧ digits ds = true)
    ∧ (exp = [] ∨ ∃ e s ds, exp = e :: (s ++ ds) ∧ (e = 0x65 ∨ e = 0x45)
        ∧ (s = [] ∨ s = lit "+" ∨ s = lit "-") ∧ ds ≠ [] ∧ digits ds = true)

/-- The input does not go on with a character that would continue a number. -/
def endsNumber : GoString → Bool
  | [] => true
  | c :: _ => !(lit "0123456789.eE").contains c

/-- The head of the input, if there is one, is not a digit. -/
def noDigit (X : GoString) : Prop := ∀ c r, X = c :: r → isDigit c = false

/-- The JSON texts whose arrays and objects nest at most `n` deep, and the values they denote.
The text of an array or object is built from the left: `[a v b, rest` from the text `[rest`
of the array of the remaining elements. -/
inductive JSONText : Nat → GoString → JSON → Prop where
  | litNull (n : Nat) : JSONText n (lit "null") JSON.null
  | litTrue (n : Nat) : JSONText n (lit "true") (JSON.bool true)
  | litFalse (n : Nat) : JSONText n (lit "false") (JSON.bool false)
  | num (n : Nat) {t : GoString} : NumText t → JSONText n t (JSON.num t)
  | str (n : Nat) {t s : GoString} : StrBody t s →
      JSONText n (0x22 :: (t ++ [0x22])) (JSON.str s)
  | arrNil (n : Nat) (a : GoString) : whiteSpace a = true →
      JSONText (n + 1) (0x5B :: (a ++ [0x5D])) (JSON.arr [])
  | arrOne (n : Nat) (a b : GoString) {t : GoString} {v : JSON} :
      whiteSpace a = true → whiteSpace b = true → JSONText n t v →
      JSONText (n + 1) (0x5B :: (a ++ (t ++ (b ++ [0x5D])))) (JSON.arr [v])
  | arrCons (n : Nat) (a b : GoString) {t more : GoString} {v w : JSON} {vs : List JSON} :
      whiteSpace a = true → whiteSpace b = true → JSONText n t v →
      JSONText (n + 1) (0x5B :: more) (JSON.arr (w :: vs)) →
      JSONText (n + 1) (0x5B :: (a ++ (t ++ (b ++ 0x2C :: more)))) (JSON.arr (v :: w :: vs))
  | objNil (n : Nat) (a : GoString) : whiteSpace a = true →
      JSONText (n + 1) (0x7B :: (a ++ [0x7D])) (JSON.obj [])
  | objOne (n : Nat) (a b c d : GoString) {kt k t : GoString} {v : JSON} :
      whiteSpace a = true → whiteSpace b = true → whiteSpace c = true → whiteSpace d = true →
      StrBody kt k → JSONText n t v →
      JSONText (n + 1)
        (0x7B :: (a ++ 0x22 :: (kt ++ 0x22 :: (b ++ 0x3A :: (c ++ (t ++ (d ++ [0x7D])))))))
        (JSON.obj [(k, v)])
  | objCons (n : Nat) (a b c d : GoString) {kt k t more : GoString} {v : JSON}
      {m : GoString × JSON} {ms : List (GoString × JSON)} :
      whiteSpace a = true → whiteSpace b = true → whiteSpace c = true → whiteSpace d = true →
      StrBody kt k → JSONText n t v →
      JSONText (n + 1) (0x7B :: more) (JSON.obj (m :: ms)) →
      JSONText (n + 1)
        (0x7B :: (a ++ 0x22 :: (kt ++ 0x22 :: (b ++ 0x3A :: (c ++ (t ++ (d ++ 0x2C :: more)))))))
        (JSON.obj ((k, v) :: m :: ms))


/-! # Theorems -/

/-! ## base64 -/

theorem b64Val_b64Char (i : Nat) (h : i < 64) : b64Val (b64Char i) = some i := by
  have : ∀ i : Fin 64, b64Val (b64Char i.val) = some i.val := by decide
  exact this ⟨i, h⟩

theorem b64Char_ok (i : Nat) (h : i < 64) :
    b64Char i ≠ StdPadding ∧ b64Char i ≠ 10 ∧ b64Char i ≠ 13 := by
  have : ∀ i : Fin 64, b64Char i.val ≠ StdPadding ∧ b64Char i.val ≠ 10 ∧ b64Char i.val ≠ 13 := by
    decide
  exact this ⟨i, h⟩

theorem filter_EncodeToString (b : List Byte) :
    (EncodeToString b).filter (fun c => c ≠ 10 ∧ c ≠ 13) = EncodeToString b := by
  rw [List.filter_eq_self]
  intro c hc
  induction b using EncodeToString.induct with
  | case1 b0 b1 b2 rest ih =>
    simp only [EncodeToString, List.mem_cons] at hc
    rcases hc with h | h | h | h | h
    · subst h; have := b64Char_ok (b0.val / 4) (by omega); simp [this]
    · subst h; have := b64Char_ok (b0.val % 4 * 16 + b1.val / 16) (by omega); simp [this]
    · subst h; have := b64Char_ok (b1.val % 16 * 4 + b2.val / 64) (by omega); simp [this]
    · subst h; have := b64Char_ok (b2.val % 64) (by omega); simp [this]
    · exact ih h
  | case2 b0 b1 =>
    simp only [EncodeToString, List.mem_cons, List.mem_singleton] at hc
    rcases hc with h | h | h | h | h
    · subst h; have := b64Char_ok (b0.val / 4) (by omega); simp [this]
    · subst h; have := b64Char_ok (b0.val % 4 * 16 + b1.val / 16) (by omega); simp [this]
    · subst h; have := b64Char_ok (b1.val % 16 * 4) (by omega); simp [this]
    · subst h; decide
    · simp at h
  | case3 b0 =>
    simp only [EncodeToString, List.mem_cons, List.mem_singleton] at hc
    rcases hc with h | h | h | h | h
    · subst h; have := b64Char_ok (b0.val / 4) (by omega); simp [this]
    · subst h; have := b64Char_ok (b0.val % 4 * 16) (by omega); simp [this]
    · subst h; decide
    · subst h; decide
    · simp at h
  | case4 => simp [EncodeToString] at hc

theorem decodeQuanta_EncodeToString (b : List Byte) :
    decodeQuanta (EncodeToString b) = some b := by
  induction b using EncodeToString.induct with
  | case1 b0 b1 b2 rest ih =>
    have h0 := b64Val_b64Char (b0.val / 4) (by omega)
    have h1 := b64Val_b64Char (b0.val % 4 * 16 + b1.val / 16) (by omega)
    have h2 := b64Val_b64Char (b1.val % 16 * 4 + b2.val / 64) (by omega)
    have h3 := b64Val_b64Char (b2.val % 64) (by omega)
    have k2 := (b64Char_ok (b1.val % 16 * 4 + b2.val / 64) (by omega)).1
    have k3 := (b64Char_ok (b2.val % 64) (by omega)).1
    simp only [EncodeToString, decodeQuanta, h0, h1, h2, h3, k2, k3, if_false, ih, Option.map_some']
    congr 1
    refine List.cons_eq_cons.2 ⟨?_, List.cons_eq_cons.2 ⟨?_, List.cons_eq_cons.2 ⟨?_, rfl⟩⟩⟩ <;>
      (apply Fin.ext; simp only [Fin.ofNat, Fin.val_mk]; omega)
  | case2 b0 b1 =>
    have h0 := b64Val_b64Char (b0.val / 4) (by omega)
    have h1 := b64Val_b64Char (b0.val % 4 * 16 + b1.val / 16) (by omega)
    have h2 := b64Val_b64Char (b1.val % 16 * 4) (by omega)
    have k2 := (b64Char_ok (b1.val % 16 * 4) (by omega)).1
    simp only [EncodeToString, decodeQuanta, h0, h1, h2, k2, if_false, if_true]
    congr 1
    refine List.cons_eq_cons.2 ⟨?_, List.cons_eq_cons.2 ⟨?_, rfl⟩⟩ <;>
      (apply Fin.ext; simp only [Fin.ofNat, Fin.val_mk]; omega)
  | case3 b0 =>
    have h0 := b64Val_b64Char (b0.val / 4) (by omega)
    have h1 := b64Val_b64Char (b0.val % 4 * 16) (by omega)
    simp only [EncodeToString, decodeQuanta, h0, h1, if_true, and_self]
    congr 1
    refine List.cons_eq_cons.2 ⟨?_, rfl⟩
    apply Fin.ext; simp only [Fin.ofNat, Fin.val_mk]; omega
  | case4 => rfl

theorem DecodeString_EncodeToString (b : List Byte) :
    DecodeString (EncodeToString b) = some b := by
  unfold DecodeString
  rw [filter_EncodeToString, decodeQuanta_EncodeToString]

/-! ## The client's calls, step by step -/

theorem checkRespStatusCode_isSome (s : Int) :
    (checkRespStatusCode s).isSome = true ↔ s = 404 ∨ s = 401 := by
  unfold checkRespStatusCode errorStatusCodes
  by_cases h1 : s = 404
  · subst h1; simp [List.lookup]
  · by_cases h2 : s = 401
    · subst h2; simp [List.lookup]
    · have e1 : (s == 404) = false := by simpa using h1
      have e2 : (s == 401) = false := by simpa using h2
      simp [List.lookup, h1, h2, e1, e2]

theorem checkRespStatusCode_eq_none {s : Int} (h : ¬(s = 404 ∨ s = 401)) :
    checkRespStatusCode s = none := by
  have := (checkRespStatusCode_isSome s).not.2 h
  cases hc : checkRespStatusCode s with
  | none => rfl
  | some e => simp [hc] at this

theorem checkRespStatusCode_eq_some {s : Int} (h : s = 404 ∨ s = 401) :
    ∃ e, checkRespStatusCode s = some e := by
  have := (checkRespStatusCode_isSome s).2 h
  cases hc : checkRespStatusCode s with
  | none => simp [hc] at this
  | some e => exact ⟨e, rfl⟩

/-- The request `Upload` sends, when it sends one. -/
theorem Upload_send {w : World} {c : ApiClient} {f p : GoString} {req : Request}
    (h : Event.send req ∈ (Upload w c f p).trace) :
    ∃ b, w.readFile f = .ok b ∧ w.parseURL (c.ApiUrl ++ BOM_UPLOAD_URL) = none ∧
      req = { Method := MethodPut, URL := c.ApiUrl ++ BOM_UPLOAD_URL,
              Header := (Header.Add [] (lit "X-API-Key") c.ApiKey).Add (lit "Content-Type")
                (lit "application/json"),
              Body := some (marshalPayload ⟨p, EncodeToString b⟩) } := by
  unfold Upload NewRequest at h
  cases hb : w.readFile f with
  | error e => simp [hb] at h
  | ok b =>
    cases hu : w.parseURL (c.ApiUrl ++ BOM_UPLOAD_URL) with
    | some e => simp [hb, hu] at h
    | none =>
      refine ⟨b, rfl, rfl, ?_⟩
      simp only [hb, hu] at h
      cases hr : w.roundTrip _ with
      | error e =>
        rw [hr] at h
        simpa using h
      | ok resp =>
        rw [hr] at h
        cases hs : checkRespStatusCode resp.StatusCode <;> simpa [hs] using h

/-- What `Upload` does once the request is sent. -/
theorem Upload_of_send {w : World} {c : ApiClient} {f p : GoString} {req : Request}
    (h : Event.send req ∈ (Upload w c f p).trace) :
    ∃ pre : List Event, decodes pre = 0 ∧
      Upload w c f p =
        match w.roundTrip req with
        | .error err => ⟨pre, .returned {} (some err)⟩
        | .ok resp =>
          match checkRespStatusCode resp.StatusCode with
          | some e => ⟨pre ++ [Event.fatal e], .fatal e⟩
          | none =>
            ⟨pre ++ [Event.decode resp.Body],
              .returned (Decode storeUploadResult resp.Body {}).1
                (Decode storeUploadResult resp.Body {}).2⟩ := by
  obtain ⟨b, hb, hu, hreq⟩ := Upload_send h
  refine ⟨[Event.readFile f,
    Event.newRequest MethodPut (c.ApiUrl ++ BOM_UPLOAD_URL)
      (some (marshalPayload ⟨p, EncodeToString b⟩)),
    Event.headerAdd (lit "X-API-Key") c.ApiKey,
    Event.headerAdd (lit "Content-Type") (lit "application/json"), Event.send req],
    by simp [decodes], ?_⟩
  subst hreq
  unfold Upload NewRequest
  simp only [hb, hu]
  rfl

/-- The request `isTokenBeingProcessed` sends, when it sends one. -/
theorem isTokenBeingProcessed_send {w : World} {c : ApiClient} {t : GoString} {req : Request}
    (h : Event.send req ∈ (isTokenBeingProcessed w c t).trace) :
    w.parseURL (c.ApiUrl ++ BOM_TOKEN_URL ++ lit "/" ++ t) = none ∧
      req = { Method := MethodGet, URL := c.ApiUrl ++ BOM_TOKEN_URL ++ lit "/" ++ t,
              Header := (Header.Add [] (lit "X-API-Key") c.ApiKey).Add (lit "Content-Type")
                (lit "application/json"),
              Body := none } := by
  unfold isTokenBeingProcessed NewRequest at h
  cases hu : w.parseURL (c.ApiUrl ++ BOM_TOKEN_URL ++ lit "/" ++ t) with
  | some e =>
    simp only [hu] at h
    simp at h
  | none =>
    refine ⟨rfl, ?_⟩
    simp only [hu] at h
    cases hr : w.roundTrip _ with
    | error e =>
      rw [hr] at h
      simpa using h
    | ok resp =>
      rw [hr] at h
      cases hs : checkRespStatusCode resp.StatusCode with
      | some e => simpa [hs] using h
      | none =>
        simp only [hs] at h
        split at h
        · simpa using h
        · split at h <;> simpa using h

/-- What `isTokenBeingProcessed` does once the request is sent. -/
theorem isTokenBeingProcessed_of_send {w : World} {c : ApiClient} {t : GoString}
    {req : Request} (h : Event.send req ∈ (isTokenBeingProcessed w c t).trace) :
    ∃ pre : List Event, decodes pre = 0 ∧
      isTokenBeingProcessed w c t =
        match w.roundTrip req with
        | .error err => ⟨pre, .returned false (some err)⟩
        | .ok resp =>
          match checkRespStatusCode resp.StatusCode with
          | some e => ⟨pre ++ [Event.fatal e], .fatal e⟩
          | none =>
            ⟨pre ++ [Event.decode resp.Body],
              .returned
                ((Decode storeProcessState resp.Body {}).2.isNone
                  && (Decode storeProcessState resp.Body {}).1.Processing)
                (Decode storeProcessState resp.Body {}).2⟩ := by
  obtain ⟨hu, hreq⟩ := isTokenBeingProcessed_send h
  refine ⟨[Event.statusCheck t,
    Event.newRequest MethodGet (c.ApiUrl ++ BOM_TOKEN_URL ++ lit "/" ++ t) none,
    Event.headerAdd (lit "X-API-Key") c.ApiKey,
    Event.headerAdd (lit "Content-Type") (lit "application/json"), Event.send req],
    by simp [decodes], ?_⟩
  subst hreq
  unfold isTokenBeingProcessed NewRequest
  simp only [hu]
  generalize w.roundTrip _ = r
  cases r with
  | error e => rfl
  | ok resp =>
    dsimp only
    cases hs : checkRespStatusCode resp.StatusCode with
    | some e => rfl
    | none =>
      dsimp only
      cases hd : (Decode storeProcessState resp.Body {}).2 with
      | some err => simp
      | none =>
        cases hp : (Decode storeProcessState resp.Body {}).1.Processing <;> simp [hp]

/-- The request `GetFindings` sends, when it sends one. -/
theorem GetFindings_send {w : World} {c : ApiClient} {p : GoString} {req : Request}
    (h : Event.send req ∈ (GetFindings w c p).trace) :
    w.parseURL (c.ApiUrl ++ PROJECT_FINDINGS_URL ++ lit "/" ++ p) = none ∧
      req = { Method := MethodGet, URL := c.ApiUrl ++ PROJECT_FINDINGS_URL ++ lit "/" ++ p,
              Header := (Header.Add [] (lit "X-API-Key") c.ApiKey).Add (lit "Content-Type")
                (lit "application/json"),
              Body := none } := by
  unfold GetFindings NewRequest at h
  cases hu : w.parseURL (c.ApiUrl ++ PROJECT_FINDINGS_URL ++ lit "/" ++ p) with
  | some e =>
    simp only [hu] at h
    simp at h
  | none =>
    refine ⟨rfl, ?_⟩
    simp only [hu] at h
    cases hr : w.roundTrip _ with
    | error e =>
      rw [hr] at h
      simpa using h
    | ok resp =>
      rw [hr] at h
      cases hs : checkRespStatusCode resp.StatusCode <;> simpa [hs] using h

/-- What `GetFindings` does once the request is sent. -/
theorem GetFindings_of_send {w : World} {c : ApiClient} {p : GoString} {req : Request}
    (h : Event.send req ∈ (GetFindings w c p).trace) :
    ∃ pre : List Event, decodes pre = 0 ∧
      GetFindings w c p =
        match w.roundTrip req with
        | .error err => ⟨pre, .returned [] (some err)⟩
        | .ok resp =>
          match checkRespStatusCode resp.StatusCode with
          | some e => ⟨pre ++ [Event.fatal e], .fatal e⟩
          | none =>
            ⟨pre ++ [Event.decode resp.Body],
              .returned (Decode storeFindings resp.Body []).1
                (Decode storeFindings resp.Body []).2⟩ := by
  obtain ⟨hu, hreq⟩ := GetFindings_send h
  refine ⟨[Event.newRequest MethodGet (c.ApiUrl ++ PROJECT_FINDINGS_URL ++ lit "/" ++ p) none,
    Event.headerAdd (lit "X-API-Key") c.ApiKey,
    Event.headerAdd (lit "Content-Type") (lit "application/json"), Event.send req],
    by simp [decodes], ?_⟩
  subst hreq
  unfold GetFindings NewRequest
  simp only [hu]
  rfl

/-! ## The polling loop -/

theorem statusChecks_append (a b : List Event) :
    statusChecks (a ++ b) = statusChecks a + statusChecks b := by
  simp [statusChecks]

theorem sleeps_append (a b : List Event) : sleeps (a ++ b) = sleeps a + sleeps b := by
  simp [sleeps]

/-- A status check is one status check and no sleep, however it ends. -/
theorem isTokenBeingProcessed_counts (w : World) (c : ApiClient) (t : GoString) :
    statusChecks (isTokenBeingProcessed w c t).trace = 1
      ∧ sleeps (isTokenBeingProcessed w c t).trace = 0 := by
  unfold isTokenBeingProcessed NewRequest
  cases hu : w.parseURL (c.ApiUrl ++ BOM_TOKEN_URL ++ lit "/" ++ t) with
  | some e =>
    simp only [hu]
    simp [statusChecks, sleeps]
  | none =>
    simp only [hu]
    generalize w.roundTrip _ = r
    cases r with
    | error e => simp [statusChecks, sleeps]
    | ok resp =>
      dsimp only
      cases checkRespStatusCode resp.StatusCode with
      | some e => simp [statusChecks, sleeps]
      | none =>
        dsimp only
        cases (Decode storeProcessState resp.Body {}).2 with
        | some err => simp [statusChecks, sleeps]
        | none =>
          dsimp only
          split <;> simp [statusChecks, sleeps]

/-- While the timeout has not fired and the status checks report processing, the loop goes
on: `n` iterations are `n` status checks and `n` sleeps. -/
theorem pollLoop_steps (ws : Nat → World) (fired : Nat → Bool) (c : ApiClient) (t : GoString)
    (n : Nat) : ∀ (i fuel : Nat),
    (∀ j, j < n → fired (i + j) = false) →
    (∀ j, j < n → (isTokenBeingProcessed (ws (i + j)) c t).outcome = .returned true none) →
    ∃ pre : List Event, statusChecks pre = n ∧ sleeps pre = n ∧
      pollLoop ws fired c t (fuel + n) i
        = (pollLoop ws fired c t fuel (i + n)).map (Run.after pre) := by
  induction n with
  | zero =>
    intro i fuel _ _
    refine ⟨[], rfl, rfl, ?_⟩
    simp only [Nat.add_zero]
    cases pollLoop ws fired c t fuel i with
    | none => rfl
    | some r => rfl
  | succ n ih =>
    intro i fuel hf ht
    have hf0 : fired i = false := by simpa using hf 0 (Nat.succ_pos n)
    have ht0 : (isTokenBeingProcessed (ws i) c t).outcome = .returned true none := by
      simpa using ht 0 (Nat.succ_pos n)
    obtain ⟨pre, hc, hs, hp⟩ := ih (i + 1) fuel
      (fun j hj => by have := hf (j + 1) (by omega); rwa [show i + (j + 1) = i + 1 + j by omega] at this)
      (fun j hj => by have := ht (j + 1) (by omega); rwa [show i + (j + 1) = i + 1 + j by omega] at this)
    refine ⟨(isTokenBeingProcessed (ws i) c t).trace ++ [Event.sleep API_POLLING_STEP] ++ pre,
      ?_, ?_, ?_⟩
    · rw [statusChecks_append, statusChecks_append, (isTokenBeingProcessed_counts _ _ _).1, hc]
      simp [statusChecks]; omega
    · rw [sleeps_append, sleeps_append, (isTokenBeingProcessed_counts _ _ _).2, hs]
      simp [sleeps]; omega
    · rw [show fuel + (n + 1) = (fuel + n) + 1 by omega, pollLoop]
      simp only [hf0, ht0, Bool.false_eq_true, if_false]
      rw [hp, show i + (n + 1) = i + 1 + n by omega]
      cases pollLoop ws fired c t fuel (i + 1 + n) with
      | none => rfl
      | some r => simp [Run.after]

theorem pollLoop_fired (ws : Nat → World) (fired : Nat → Bool) (c : ApiClient) (t : GoString)
    (fuel i : Nat) (h : fired i = true) :
    pollLoop ws fired c t (fuel + 1) i = some ⟨[Event.timeout], .returned () none⟩ := by
  rw [pollLoop]
  simp [h]

theorem pollLoop_done (ws : Nat → World) (fired : Nat → Bool) (c : ApiClient) (t : GoString)
    (fuel i : Nat) (h : fired i = false)
    (hc : (isTokenBeingProcessed (ws i) c t).outcome = .returned false none) :
    pollLoop ws fired c t (fuel + 1) i
      = some ⟨(isTokenBeingProcessed (ws i) c t).trace, .returned () none⟩ := by
  rw [pollLoop]
  simp [h, hc]

theorem pollLoop_error (ws : Nat → World) (fired : Nat → Bool) (c : ApiClient) (t : GoString)
    (fuel i : Nat) (b : Bool) (e : GoError) (h : fired i = false)
    (hc : (isTokenBeingProcessed (ws i) c t).outcome = .returned b (some e)) :
    pollLoop ws fired c t (fuel + 1) i
      = some ⟨(isTokenBeingProcessed (ws i) c t).trace, .returned () (some e)⟩ := by
  rw [pollLoop]
  simp [h, hc]

/-! ## The claims -/

/-- C1: `GetVulnViewUrl` is the plain concatenation of the base URL, `/vulnerability/?source=`,
the source, `&vulnId=` and the vulnerability id: nothing is escaped (the length is the sum of
the lengths), the API key and the other fields of the vulnerability play no part, and for
`http://x`, `NVD`, `CVE-2021-1` the result is
`http://x/vulnerability/?source=NVD&vulnId=CVE-2021-1`. -/
theorem GetVulnViewUrl_concat (c : ApiClient) (v : Vulnerability)
    (k k2 u u2 t t2 d d2 s s2 r r2 : GoString) :
    GetVulnViewUrl c v
        = c.ApiUrl ++ lit "/vulnerability/?source=" ++ v.Source ++ lit "&vulnId=" ++ v.VulnId
      ∧ GetVulnViewUrl ⟨k, c.ApiUrl⟩ ⟨u, v.VulnId, v.Source, t, d, s, r⟩
          = GetVulnViewUrl ⟨k2, c.ApiUrl⟩ ⟨u2, v.VulnId, v.Source, t2, d2, s2, r2⟩
      ∧ (GetVulnViewUrl c v).length
          = c.ApiUrl.length + 23 + v.Source.length + 8 + v.VulnId.length
      ∧ GetVulnViewUrl ⟨k, lit "http://x"⟩ ⟨u, lit "CVE-2021-1", lit "NVD", t, d, s, r⟩
          = lit "http://x/vulnerability/?source=NVD&vulnId=CVE-2021-1" := by
  refine ⟨rfl, rfl, ?_, ?_⟩
  · have h1 : (lit "/vulnerability/?source=").length = 23 := by decide
    have h2 : (lit "&vulnId=").length = 8 := by decide
    simp [GetVulnViewUrl, h1, h2]
    omega
  · simp only [GetVulnViewUrl]
    decide

/-- C2: `checkRespStatusCode` gives an error exactly for 404 and 401. In `Upload`,
`isTokenBeingProcessed` and `GetFindings`, a response with one of these codes ends the call
by `log.Fatal` of that error and no JSON decoding takes place; with any other code the call
decodes the body and returns what the decoding gives. -/
theorem status_code_policy (s : Int) (w : World) (c : ApiClient) (f p t : GoString)
    (req : Request) (resp : Response) :
    ((checkRespStatusCode s).isSome = true ↔ s = 404 ∨ s = 401)
    ∧ (Event.send req ∈ (Upload w c f p).trace → w.roundTrip req = .ok resp →
        (resp.StatusCode = 404 ∨ resp.StatusCode = 401 →
          ∃ e, checkRespStatusCode resp.StatusCode = some e
            ∧ (Upload w c f p).outcome = .fatal e ∧ decodes (Upload w c f p).trace = 0)
        ∧ (¬(resp.StatusCode = 404 ∨ resp.StatusCode = 401) →
          (Upload w c f p).outcome
              = .returned (Decode storeUploadResult resp.Body {}).1
                  (Decode storeUploadResult resp.Body {}).2
            ∧ (Upload w c f p).trace.getLast? = some (Event.decode resp.Body)))
    ∧ (Event.send req ∈ (isTokenBeingProcessed w c t).trace → w.roundTrip req = .ok resp →
        (resp.StatusCode = 404 ∨ resp.StatusCode = 401 →
          ∃ e, checkRespStatusCode resp.StatusCode = some e
            ∧ (isTokenBeingProcessed w c t).outcome = .fatal e
            ∧ decodes (isTokenBeingProcessed w c t).trace = 0)
        ∧ (¬(resp.StatusCode = 404 ∨ resp.StatusCode = 401) →
          (isTokenBeingProcessed w c t).outcome
              = .returned
                  ((Decode storeProcessState resp.Body {}).2.isNone
                    && (Decode storeProcessState resp.Body {}).1.Processing)
                  (Decode storeProcessState resp.Body {}).2
            ∧ (isTokenBeingProcessed w c t).trace.getLast? = some (Event.decode resp.Body)))
    ∧ (Event.send req ∈ (GetFindings w c p).trace → w.roundTrip req = .ok resp →
        (resp.StatusCode = 404 ∨ resp.StatusCode = 401 →
          ∃ e, checkRespStatusCode resp.StatusCode = some e
            ∧ (GetFindings w c p).outcome = .fatal e ∧ decodes (GetFindings w c p).trace = 0)
        ∧ (¬(resp.StatusCode = 404 ∨ resp.StatusCode = 401) →
          (GetFindings w c p).outcome
              = .returned (Decode storeFindings resp.Body []).1
                  (Decode storeFindings resp.Body []).2
            ∧ (GetFindings w c p).trace.getLast? = some (Event.decode resp.Body))) := by
  refine ⟨checkRespStatusCode_isSome s, ?_, ?_, ?_⟩
  · intro hs hr
    obtain ⟨pre, hpre, hrun⟩ := Upload_of_send hs
    rw [hr] at hrun
    constructor
    · intro hcode
      obtain ⟨e, he⟩ := checkRespStatusCode_eq_some hcode
      refine ⟨e, he, ?_, ?_⟩
      · rw [hrun]; simp [he]
      · rw [hrun]; simp only [he]
        simpa [decodes] using hpre
    · intro hcode
      have he := checkRespStatusCode_eq_none hcode
      rw [hrun]; simp [he]
  · intro hs hr
    obtain ⟨pre, hpre, hrun⟩ := isTokenBeingProcessed_of_send hs
    rw [hr] at hrun
    constructor
    · intro hcode
      obtain ⟨e, he⟩ := checkRespStatusCode_eq_some hcode
      refine ⟨e, he, ?_, ?_⟩
      · rw [hrun]; simp [he]
      · rw [hrun]; simp only [he]
        simpa [decodes] using hpre
    · intro hcode
      have he := checkRespStatusCode_eq_none hcode
      rw [hrun]; simp [he]
  · intro hs hr
    obtain ⟨pre, hpre, hrun⟩ := GetFindings_of_send hs
    rw [hr] at hrun
    constructor
    · intro hcode
      obtain ⟨e, he⟩ := checkRespStatusCode_eq_some hcode
      refine ⟨e, he, ?_, ?_⟩
      · rw [hrun]; simp [he]
      · rw [hrun]; simp only [he]
        simpa [decodes] using hpre
    · intro hcode
      have he := checkRespStatusCode_eq_none hcode
      rw [hrun]; simp [he]

theorem status_code_policy_witness :
    (∃ e, checkRespStatusCode 404 = some e
      ∧ (Upload (stubWorld (lit "<bom/>") (.ok ⟨404, lit "not found"⟩)) ⟨lit "k", lit "http://x"⟩
          (lit "bom.xml") (lit "p")).outcome = .fatal e
      ∧ decodes (Upload (stubWorld (lit "<bom/>") (.ok ⟨404, lit "not found"⟩))
          ⟨lit "k", lit "http://x"⟩ (lit "bom.xml") (lit "p")).trace = 0)
    ∧ (GetFindings (stubWorld [] (.ok ⟨500, lit "[]"⟩)) ⟨lit "k", lit "http://x"⟩
          (lit "p")).outcome
        = .returned (Decode storeFindings (lit "[]") []).1 (Decode storeFindings (lit "[]") []).2
    ∧ (∃ e, checkRespStatusCode 401 = some e
      ∧ (isTokenBeingProcessed (stubWorld [] (.ok ⟨401, lit "denied"⟩))
          ⟨lit "k", lit "http://x"⟩ (lit "tok")).outcome = .fatal e
      ∧ decodes (isTokenBeingProcessed (stubWorld [] (.ok ⟨401, lit "denied"⟩))
          ⟨lit "k", lit "http://x"⟩ (lit "tok")).trace = 0) :=
  ⟨((status_code_policy 404 (stubWorld (lit "<bom/>") (.ok ⟨404, lit "not found"⟩))
        ⟨lit "k", lit "http://x"⟩ (lit "bom.xml") (lit "p") (lit "t")
        { Method := lit "PUT", URL := lit "http://x/api/v1/bom",
          Header := [(lit "X-Api-Key", lit "k"), (lit "Content-Type", lit "application/json")],
          Body := some (marshalPayload ⟨lit "p", EncodeToString (lit "<bom/>")⟩) }
        ⟨404, lit "not found"⟩).2.1 (by decide) rfl).1 (Or.inl rfl),
   (((status_code_policy 500 (stubWorld [] (.ok ⟨500, lit "[]"⟩))
        ⟨lit "k", lit "http://x"⟩ (lit "bom.xml") (lit "p") (lit "t")
        { Method := lit "GET", URL := lit "http://x/api/v1/finding/project/p",
          Header := [(lit "X-Api-Key", lit "k"), (lit "Content-Type", lit "application/json")],
          Body := none }
        ⟨500, lit "[]"⟩).2.2.2 (by decide) rfl).2 (by decide)).1,
   ((status_code_policy 401 (stubWorld [] (.ok ⟨401, lit "denied"⟩))
        ⟨lit "k", lit "http://x"⟩ (lit "bom.xml") (lit "p") (lit "tok")
        { Method := lit "GET", URL := lit "http://x/api/v1/bom/token/tok",
          Header := [(lit "X-Api-Key", lit "k"), (lit "Content-Type", lit "application/json")],
          Body := none }
        ⟨401, lit "denied"⟩).2.2.1 (by decide) rfl).1 (Or.inr rfl)⟩

/-- C4: when the timeout is not signalled at the first `k ≥ 1` iterations, the first `k - 1`
status checks report processing and the `k`-th reports that processing is over,
`PollTokenBeingProcessed` returns `nil` after exactly `k` status checks and exactly `k` sleeps
of the polling interval (any bound of at least `k` iterations lets the embedding reach the
return). -/
theorem poll_returns_after_k_checks (ws : Nat → World) (fired : Nat → Bool) (c : ApiClient)
    (t : GoString) (k fuel : Nat) (hk : 1 ≤ k) (hfuel : k ≤ fuel)
    (hfired : ∀ i, i < k → fired i = false)
    (htrue : ∀ i, i < k - 1 →
      (isTokenBeingProcessed (ws i) c t).outcome = .returned true none)
    (hfalse : (isTokenBeingProcessed (ws (k - 1)) c t).outcome = .returned false none) :
    ∃ r, PollTokenBeingProcessed ws fired c t fuel = some r
      ∧ r.outcome = .returned () none ∧ statusChecks r.trace = k ∧ sleeps r.trace = k := by
  obtain ⟨pre, hc, hs, hp⟩ := pollLoop_steps ws fired c t (k - 1) 0 (fuel - k + 1)
    (fun j hj => by rw [Nat.zero_add]; exact hfired j (by omega))
    (fun j hj => by rw [Nat.zero_add]; exact htrue j hj)
  rw [Nat.zero_add, pollLoop_done ws fired c t (fuel - k) (k - 1) (hfired _ (by omega)) hfalse,
    show fuel - k + 1 + (k - 1) = fuel by omega] at hp
  refine ⟨_, by rw [PollTokenBeingProcessed, hp]; rfl, rfl, ?_, ?_⟩
  · simp only [Run.after, statusChecks_append, hc, (isTokenBeingProcessed_counts _ _ _).1]
    simp [statusChecks]; omega
  · simp only [Run.after, sleeps_append, hs, (isTokenBeingProcessed_counts _ _ _).2]
    simp [sleeps]; omega

theorem poll_returns_after_k_checks_witness :
    ∃ r, PollTokenBeingProcessed
        (fun i => stubWorld []
          (.ok ⟨200, if i < 2 then lit "\x7b\"processing\":true\x7d"
            else lit "\x7b\"processing\":false\x7d"⟩))
        (fun _ => false) ⟨lit "k", lit "http://x"⟩ (lit "tok") 5 = some r
      ∧ r.outcome = .returned () none ∧ statusChecks r.trace = 3 ∧ sleeps r.trace = 3 :=
  poll_returns_after_k_checks _ _ _ _ 3 5 (by decide) (by decide) (by decide) (by decide)
    (by decide)

/-- C5: when the timeout is found signalled at iteration `k` of the loop, the earlier
iterations having found it not signalled and their status checks having reported processing,
`PollTokenBeingProcessed` returns `nil`, the value of a normal completion; the last event is
the receive from the timeout channel and no status check is made at that iteration, so the
run has `k` status checks, none when `k = 0`. -/
theorem poll_timeout_returns_nil (ws : Nat → World) (fired : Nat → Bool) (c : ApiClient)
    (t : GoString) (k fuel : Nat) (hfuel : k < fuel)
    (hnot : ∀ i, i < k → fired i = false)
    (htrue : ∀ i, i < k → (isTokenBeingProcessed (ws i) c t).outcome = .returned true none)
    (hfired : fired k = true) :
    ∃ r, PollTokenBeingProcessed ws fired c t fuel = some r
      ∧ r.outcome = .returned () none ∧ statusChecks r.trace = k
      ∧ r.trace.getLast? = some Event.timeout ∧ sleeps r.trace = k + 1 := by
  obtain ⟨pre, hc, hs, hp⟩ := pollLoop_steps ws fired c t k 0 (fuel - k - 1 + 1)
    (fun j hj => by rw [Nat.zero_add]; exact hnot j hj)
    (fun j hj => by rw [Nat.zero_add]; exact htrue j hj)
  rw [Nat.zero_add, pollLoop_fired ws fired c t (fuel - k - 1) k hfired,
    show fuel - k - 1 + 1 + k = fuel by omega] at hp
  refine ⟨_, by rw [PollTokenBeingProcessed, hp]; rfl, rfl, ?_, ?_, ?_⟩
  · simp only [Run.after, statusChecks_append, hc]
    simp [statusChecks]
  · simp only [Run.after, List.singleton_append]
    rw [← List.cons_append, List.getLast?_concat]
  · simp only [Run.after, sleeps_append, hs]
    simp [sleeps]; omega

theorem poll_timeout_returns_nil_witness :
    ∃ r, PollTokenBeingProcessed
        (fun _ => stubWorld [] (.ok ⟨200, lit "\x7b\"processing\":true\x7d"⟩))
        (fun i => decide (2 ≤ i)) ⟨lit "k", lit "http://x"⟩ (lit "tok") 3 = some r
      ∧ r.outcome = .returned () none ∧ statusChecks r.trace = 2
      ∧ r.trace.getLast? = some Event.timeout ∧ sleeps r.trace = 2 + 1 :=
  poll_timeout_returns_nil _ _ _ _ 2 3 (by decide) (by decide) (by decide) (by decide)

theorem Header_Get_key (k : GoString) :
    Header.Get ((Header.Add [] (lit "X-API-Key") k).Add (lit "Content-Type")
        (lit "application/json")) (lit "X-API-Key") = k := by
  have h : CanonicalMIMEHeaderKey (lit "X-API-Key") = lit "X-Api-Key" := by decide
  simp [Header.Get, Header.Add, h, List.lookup]

theorem Header_Get_type (k : GoString) :
    Header.Get ((Header.Add [] (lit "X-API-Key") k).Add (lit "Content-Type")
        (lit "application/json")) (lit "Content-Type") = lit "application/json" := by
  have h : CanonicalMIMEHeaderKey (lit "X-API-Key") = lit "X-Api-Key" := by decide
  have h2 : CanonicalMIMEHeaderKey (lit "Content-Type") = lit "Content-Type" := by decide
  have h3 : (lit "Content-Type" == lit "X-Api-Key") = false := by decide
  simp [Header.Get, Header.Add, h, h2, h3, List.lookup]

/-- C6: every request the three operations send has the method and URL of the API and carries
the key: `Upload` sends `PUT <ApiUrl>/api/v1/bom`, `isTokenBeingProcessed` sends
`GET <ApiUrl>/api/v1/bom/token/<token>`, `GetFindings` sends
`GET <ApiUrl>/api/v1/finding/project/<projectId>`, each with header `X-API-Key` equal to the
API key and `Content-Type` equal to `application/json`; and each operation does send its
request when the URL is one `http.NewRequest` accepts (and, for `Upload`, the file is
readable). -/
theorem requests_built (w : World) (c : ApiClient) (f p t : GoString) (req : Request) :
    (Event.send req ∈ (Upload w c f p).trace →
        req.Method = lit "PUT" ∧ req.URL = c.ApiUrl ++ lit "/api/v1/bom"
          ∧ req.Header.Get (lit "X-API-Key") = c.ApiKey
          ∧ req.Header.Get (lit "Content-Type") = lit "application/json")
    ∧ (Event.send req ∈ (isTokenBeingProcessed w c t).trace →
        req.Method = lit "GET" ∧ req.URL = c.ApiUrl ++ lit "/api/v1/bom/token/" ++ t
          ∧ req.Header.Get (lit "X-API-Key") = c.ApiKey
          ∧ req.Header.Get (lit "Content-Type") = lit "application/json")
    ∧ (Event.send req ∈ (GetFindings w c p).trace →
        req.Method = lit "GET" ∧ req.URL = c.ApiUrl ++ lit "/api/v1/finding/project/" ++ p
          ∧ req.Header.Get (lit "X-API-Key") = c.ApiKey
          ∧ req.Header.Get (lit "Content-Type") = lit "application/json")
    ∧ ((∃ b, w.readFile f = .ok b) → w.parseURL (c.ApiUrl ++ lit "/api/v1/bom") = none →
        ∃ r, Event.send r ∈ (Upload w c f p).trace)
    ∧ (w.parseURL (c.ApiUrl ++ lit "/api/v1/bom/token/" ++ t) = none →
        ∃ r, Event.send r ∈ (isTokenBeingProcessed w c t).trace)
    ∧ (w.parseURL (c.ApiUrl ++ lit "/api/v1/finding/project/" ++ p) = none →
        ∃ r, Event.send r ∈ (GetFindings w c p).trace) := by
  have e1 : lit "/api/v1/bom/token/" = BOM_TOKEN_URL ++ lit "/" := by decide
  have e2 : lit "/api/v1/finding/project/" = PROJECT_FINDINGS_URL ++ lit "/" := by decide
  refine ⟨?_, ?_, ?_, ?_, ?_, ?_⟩
  · intro h
    obtain ⟨b, -, -, hreq⟩ := Upload_send h
    subst hreq
    exact ⟨rfl, rfl, Header_Get_key _, Header_Get_type _⟩
  · intro h
    obtain ⟨-, hreq⟩ := isTokenBeingProcessed_send h
    subst hreq
    exact ⟨rfl, by simp [e1], Header_Get_key _, Header_Get_type _⟩
  · intro h
    obtain ⟨-, hreq⟩ := GetFindings_send h
    subst hreq
    exact ⟨rfl, by simp [e2], Header_Get_key _, Header_Get_type _⟩
  · rintro ⟨b, hb⟩ hu
    have hu2 : w.parseURL (c.ApiUrl ++ BOM_UPLOAD_URL) = none := hu
    unfold Upload NewRequest
    simp only [hb, hu2]
    generalize w.roundTrip _ = r
    cases r with
    | error e => exact ⟨_, by simp; rfl⟩
    | ok resp =>
      dsimp only
      cases checkRespStatusCode resp.StatusCode with
      | some e => exact ⟨_, by simp; rfl⟩
      | none => exact ⟨_, by simp; rfl⟩
  · intro hu
    have hu2 : w.parseURL (c.ApiUrl ++ BOM_TOKEN_URL ++ lit "/" ++ t) = none := by
      rw [e1] at hu; simpa using hu
    have := (isTokenBeingProcessed_counts w c t)
    unfold isTokenBeingProcessed NewRequest
    simp only [hu2]
    generalize w.roundTrip _ = r
    cases r with
    | error e => exact ⟨_, by simp; rfl⟩
    | ok resp =>
      dsimp only
      cases checkRespStatusCode resp.StatusCode with
      | some e => exact ⟨_, by simp; rfl⟩
      | none =>
        dsimp only
        cases (Decode storeProcessState resp.Body {}).2 with
        | some err => exact ⟨_, by simp; rfl⟩
        | none =>
          dsimp only
          split <;> exact ⟨_, by simp; rfl⟩
  · intro hu
    have hu2 : w.parseURL (c.ApiUrl ++ PROJECT_FINDINGS_URL ++ lit "/" ++ p) = none := by
      rw [e2] at hu; simpa using hu
    unfold GetFindings NewRequest
    simp only [hu2]
    generalize w.roundTrip _ = r
    cases r with
    | error e => exact ⟨_, by simp; rfl⟩
    | ok resp =>
      dsimp only
      cases checkRespStatusCode resp.StatusCode with
      | some e => exact ⟨_, by simp; rfl⟩
      | none => exact ⟨_, by simp; rfl⟩

theorem requests_built_witness :
    (lit "PUT" = lit "PUT" ∧ lit "http://x/api/v1/bom" = lit "http://x" ++ lit "/api/v1/bom"
      ∧ Header.Get [(lit "X-Api-Key", lit "k"), (lit "Content-Type", lit "application/json")]
          (lit "X-API-Key") = lit "k"
      ∧ Header.Get [(lit "X-Api-Key", lit "k"), (lit "Content-Type", lit "application/json")]
          (lit "Content-Type") = lit "application/json")
    ∧ ∃ r, Event.send r ∈ (GetFindings (stubWorld [] (.ok ⟨200, lit "[]"⟩))
        ⟨lit "k", lit "http://x"⟩ (lit "p")).trace :=
  ⟨(requests_built (stubWorld (lit "<bom/>") (.ok ⟨200, lit "\x7b\x7d"⟩))
      ⟨lit "k", lit "http://x"⟩ (lit "bom.xml") (lit "p") (lit "t")
      { Method := lit "PUT", URL := lit "http://x/api/v1/bom",
        Header := [(lit "X-Api-Key", lit "k"), (lit "Content-Type", lit "application/json")],
        Body := some (marshalPayload ⟨lit "p", EncodeToString (lit "<bom/>")⟩) }).1 (by decide),
   (requests_built (stubWorld [] (.ok ⟨200, lit "[]"⟩))
      ⟨lit "k", lit "http://x"⟩ (lit "bom.xml") (lit "p") (lit "t")
      { Method := lit "GET", URL := lit "", Header := [], Body := none }).2.2.2.2.2 (by decide)⟩

/-- C9: a transport failure of `client.Do` and a failure of the JSON decoding are returned to
the caller as that error by `Upload`, `GetFindings` and `isTokenBeingProcessed`; and when the
status check of iteration `k` of the polling loop returns an error, the earlier iterations
having gone on, `PollTokenBeingProcessed` returns that error with the failing check as the
end of its trace: `k + 1` status checks and `k + 1` sleeps in all, none after the failure. -/
theorem errors_are_returned (w : World) (ws : Nat → World) (fired : Nat → Bool)
    (c : ApiClient) (f p t : GoString) (req : Request) (resp : Response) (e : GoError)
    (b : Bool) (k fuel : Nat) :
    (Event.send req ∈ (Upload w c f p).trace → w.roundTrip req = .error e →
        (Upload w c f p).outcome = .returned {} (some e))
    ∧ (Event.send req ∈ (GetFindings w c p).trace → w.roundTrip req = .error e →
        (GetFindings w c p).outcome = .returned [] (some e))
    ∧ (Event.send req ∈ (isTokenBeingProcessed w c t).trace → w.roundTrip req = .error e →
        (isTokenBeingProcessed w c t).outcome = .returned false (some e))
    ∧ (Event.send req ∈ (Upload w c f p).trace → w.roundTrip req = .ok resp →
        checkRespStatusCode resp.StatusCode = none →
        (Decode storeUploadResult resp.Body {}).2 = some e →
        ∃ res, (Upload w c f p).outcome = .returned res (some e))
    ∧ (Event.send req ∈ (GetFindings w c p).trace → w.roundTrip req = .ok resp →
        checkRespStatusCode resp.StatusCode = none →
        (Decode storeFindings resp.Body []).2 = some e →
        ∃ res, (GetFindings w c p).outcome = .returned res (some e))
    ∧ (Event.send req ∈ (isTokenBeingProcessed w c t).trace → w.roundTrip req = .ok resp →
        checkRespStatusCode resp.StatusCode = none →
        (Decode storeProcessState resp.Body {}).2 = some e →
        (isTokenBeingProcessed w c t).outcome = .returned false (some e))
    ∧ (k < fuel → (∀ i, i < k → fired i = false) → fired k = false →
        (∀ i, i < k → (isTokenBeingProcessed (ws i) c t).outcome = .returned true none) →
        (isTokenBeingProcessed (ws k) c t).outcome = .returned b (some e) →
        ∃ r pre, PollTokenBeingProcessed ws fired c t fuel = some r
          ∧ r.outcome = .returned () (some e)
          ∧ r.trace = pre ++ (isTokenBeingProcessed (ws k) c t).trace
          ∧ statusChecks r.trace = k + 1 ∧ sleeps r.trace = k + 1) := by
  refine ⟨?_, ?_, ?_, ?_, ?_, ?_, ?_⟩
  · intro hs hr
    obtain ⟨pre, -, hrun⟩ := Upload_of_send hs
    rw [hrun, hr]
  · intro hs hr
    obtain ⟨pre, -, hrun⟩ := GetFindings_of_send hs
    rw [hrun, hr]
  · intro hs hr
    obtain ⟨pre, -, hrun⟩ := isTokenBeingProcessed_of_send hs
    rw [hrun, hr]
  · intro hs hr hc hd
    obtain ⟨pre, -, hrun⟩ := Upload_of_send hs
    rw [hrun, hr]
    simp only [hc, hd]
    exact ⟨_, rfl⟩
  · intro hs hr hc hd
    obtain ⟨pre, -, hrun⟩ := GetFindings_of_send hs
    rw [hrun, hr]
    simp only [hc, hd]
    exact ⟨_, rfl⟩
  · intro hs hr hc hd
    obtain ⟨pre, -, hrun⟩ := isTokenBeingProcessed_of_send hs
    rw [hrun, hr]
    simp [hc, hd]
  · intro hfuel hnot hk htrue herr
    obtain ⟨pre, hc, hs, hp⟩ := pollLoop_steps ws fired c t k 0 (fuel - k - 1 + 1)
      (fun j hj => by rw [Nat.zero_add]; exact hnot j hj)
      (fun j hj => by rw [Nat.zero_add]; exact htrue j hj)
    rw [Nat.zero_add, pollLoop_error ws fired c t (fuel - k - 1) k b e hk herr,
      show fuel - k - 1 + 1 + k = fuel by omega] at hp
    refine ⟨_, [Event.sleep API_POLLING_STEP] ++ pre,
      by rw [PollTokenBeingProcessed, hp]; rfl, rfl, ?_, ?_, ?_⟩
    · simp [Run.after]
    · simp only [Run.after, statusChecks_append, hc, (isTokenBeingProcessed_counts _ _ _).1]
      simp [statusChecks]
    · simp only [Run.after, sleeps_append, hs, (isTokenBeingProcessed_counts _ _ _).2]
      simp [sleeps]; omega

theorem errors_are_returned_witness :
    (Upload (stubWorld (lit "<bom/>") (.error (.external 7))) ⟨lit "k", lit "http://x"⟩
        (lit "bom.xml") (lit "p")).outcome = .returned {} (some (.external 7))
    ∧ (∃ res, (GetFindings (stubWorld [] (.ok ⟨500, lit "oops"⟩)) ⟨lit "k", lit "http://x"⟩
        (lit "p")).outcome = .returned res (some .syntaxError))
    ∧ ∃ r pre, PollTokenBeingProcessed
          (fun i => stubWorld []
            (if i < 1 then .ok ⟨200, lit "\x7b\"processing\":true\x7d"⟩
              else .error (.external 7)))
          (fun _ => false) ⟨lit "k", lit "http://x"⟩ (lit "tok") 2 = some r
        ∧ r.outcome = .returned () (some (.external 7))
        ∧ r.trace = pre ++ (isTokenBeingProcessed (stubWorld [] (.error (.external 7)))
            ⟨lit "k", lit "http://x"⟩ (lit "tok")).trace
        ∧ statusChecks r.trace = 1 + 1 ∧ sleeps r.trace = 1 + 1 :=
  ⟨(errors_are_returned (stubWorld (lit "<bom/>") (.error (.external 7))) (fun _ => stubWorld [] (.error (.external 7)))
      (fun _ => false) ⟨lit "k", lit "http://x"⟩ (lit "bom.xml") (lit "p") (lit "tok")
      { Method := lit "PUT", URL := lit "http://x/api/v1/bom",
        Header := [(lit "X-Api-Key", lit "k"), (lit "Content-Type", lit "application/json")],
        Body := some (marshalPayload ⟨lit "p", EncodeToString (lit "<bom/>")⟩) }
      ⟨500, lit "oops"⟩ (.external 7) false 1 2).1 (by decide) rfl,
   (errors_are_returned (stubWorld [] (.ok ⟨500, lit "oops"⟩)) (fun _ => stubWorld [] (.error (.external 7)))
      (fun _ => false) ⟨lit "k", lit "http://x"⟩ (lit "bom.xml") (lit "p") (lit "tok")
      { Method := lit "GET", URL := lit "http://x/api/v1/finding/project/p",
        Header := [(lit "X-Api-Key", lit "k"), (lit "Content-Type", lit "application/json")],
        Body := none }
      ⟨500, lit "oops"⟩ .syntaxError false 1 2).2.2.2.2.1 (by decide) rfl (by decide) (by decide),
   (errors_are_returned (stubWorld [] (.ok ⟨500, lit "oops"⟩))
      (fun i => stubWorld []
        (if i < 1 then .ok ⟨200, lit "\x7b\"processing\":true\x7d"⟩ else .error (.external 7)))
      (fun _ => false) ⟨lit "k", lit "http://x"⟩ (lit "bom.xml") (lit "p") (lit "tok")
      { Method := lit "GET", URL := lit "", Header := [], Body := none }
      ⟨500, lit "oops"⟩ (.external 7) false 1 2).2.2.2.2.2.2 (by decide) (by decide) (by decide)
        (by decide) (by decide)⟩

/-- C10 (the code does otherwise): with a URL that `http.NewRequest` rejects, here a base URL
holding a line feed, none of the three operations returns the construction error: each goes
on to `req.Header.Add` on the `nil` request and ends in a run-time panic; no error is
returned to the caller. -/
theorem rejected_url_panics :
    (Upload (stubWorld (lit "<bom/>") (.ok ⟨200, lit "\x7b\"token\":\"abc\"\x7d"⟩))
        ⟨lit "k", lit "http://x\n"⟩ (lit "bom.xml") (lit "p")).outcome = .panicked
    ∧ (isTokenBeingProcessed (stubWorld [] (.ok ⟨200, lit "\x7b\"processing\":false\x7d"⟩))
        ⟨lit "k", lit "http://x\n"⟩ (lit "tok")).outcome = .panicked
    ∧ (GetFindings (stubWorld [] (.ok ⟨200, lit "[]"⟩))
        ⟨lit "k", lit "http://x\n"⟩ (lit "p")).outcome = .panicked
    ∧ (GetFindings (stubWorld [] (.ok ⟨200, lit "[]"⟩))
        ⟨lit "k", lit "http://x"⟩ (lit "p\n")).outcome = .panicked := by
  decide

/-! ## UTF-8 -/

theorem leadInfo_cases {p0 sz lo hi : Nat} (h : leadInfo p0 = some (sz, lo, hi)) :
    (sz = 2 ∧ lo = 0x80 ∧ hi = 0xBF ∧ 0xC2 ≤ p0 ∧ p0 ≤ 0xDF)
    ∨ (sz = 3 ∧ ((p0 = 0xE0 ∧ lo = 0xA0 ∧ hi = 0xBF)
        ∨ (0xE1 ≤ p0 ∧ p0 ≤ 0xEC ∧ lo = 0x80 ∧ hi = 0xBF)
        ∨ (p0 = 0xED ∧ lo = 0x80 ∧ hi = 0x9F)
        ∨ (0xEE ≤ p0 ∧ p0 ≤ 0xEF ∧ lo = 0x80 ∧ hi = 0xBF)))
    ∨ (sz = 4 ∧ ((p0 = 0xF0 ∧ lo = 0x90 ∧ hi = 0xBF)
        ∨ (0xF1 ≤ p0 ∧ p0 ≤ 0xF3 ∧ lo = 0x80 ∧ hi = 0xBF)
        ∨ (p0 = 0xF4 ∧ lo = 0x80 ∧ hi = 0x8F))) := by
  unfold leadInfo at h
  split_ifs at h <;> simp at h <;> omega

theorem EncodeRune_two (b b1 : Byte) (h : 0xC2 ≤ b.val ∧ b.val ≤ 0xDF)
    (h1 : 0x80 ≤ b1.val ∧ b1.val ≤ 0xBF) :
    EncodeRune (b.val % 32 * 64 + b1.val % 64) = [b, b1] := by
  unfold EncodeRune
  rw [if_neg (by omega), if_pos (by omega)]
  refine List.cons_eq_cons.2 ⟨?_, List.cons_eq_cons.2 ⟨?_, rfl⟩⟩ <;>
    (apply Fin.ext; simp only [Fin.ofNat, Fin.val_mk]; omega)

theorem EncodeRune_three (b b1 b2 : Byte) (lo hi : Nat)
    (h : (b.val = 0xE0 ∧ lo = 0xA0 ∧ hi = 0xBF)
        ∨ (0xE1 ≤ b.val ∧ b.val ≤ 0xEC ∧ lo = 0x80 ∧ hi = 0xBF)
        ∨ (b.val = 0xED ∧ lo = 0x80 ∧ hi = 0x9F)
        ∨ (0xEE ≤ b.val ∧ b.val ≤ 0xEF ∧ lo = 0x80 ∧ hi = 0xBF))
    (h1 : lo ≤ b1.val ∧ b1.val ≤ hi) (h2 : 0x80 ≤ b2.val ∧ b2.val ≤ 0xBF) :
    EncodeRune (b.val % 16 * 4096 + b1.val % 64 * 64 + b2.val % 64) = [b, b1, b2] := by
  unfold EncodeRune
  rw [if_neg (by omega), if_neg (by omega), if_neg (by simp [MaxRune, isSurrogate]; omega),
    if_pos (by omega)]
  unfold encode3
  refine List.cons_eq_cons.2 ⟨?_, List.cons_eq_cons.2 ⟨?_, List.cons_eq_cons.2 ⟨?_, rfl⟩⟩⟩ <;>
    (apply Fin.ext; simp only [Fin.ofNat, Fin.val_mk]; omega)

theorem EncodeRune_four (b b1 b2 b3 : Byte) (lo hi : Nat)
    (h : (b.val = 0xF0 ∧ lo = 0x90 ∧ hi = 0xBF)
        ∨ (0xF1 ≤ b.val ∧ b.val ≤ 0xF3 ∧ lo = 0x80 ∧ hi = 0xBF)
        ∨ (b.val = 0xF4 ∧ lo = 0x80 ∧ hi = 0x8F))
    (h1 : lo ≤ b1.val ∧ b1.val ≤ hi) (h2 : 0x80 ≤ b2.val ∧ b2.val ≤ 0xBF)
    (h3 : 0x80 ≤ b3.val ∧ b3.val ≤ 0xBF) :
    EncodeRune (b.val % 8 * 262144 + b1.val % 64 * 4096 + b2.val % 64 * 64 + b3.val % 64)
      = [b, b1, b2, b3] := by
  unfold EncodeRune
  rw [if_neg (by omega), if_neg (by omega), if_neg (by simp [MaxRune, isSurrogate]; omega),
    if_neg (by omega)]
  refine List.cons_eq_cons.2 ⟨?_, List.cons_eq_cons.2 ⟨?_, List.cons_eq_cons.2 ⟨?_,
    List.cons_eq_cons.2 ⟨?_, rfl⟩⟩⟩⟩ <;>
    (apply Fin.ext; simp only [Fin.ofNat, Fin.val_mk]; omega)

/-- The four ways `DecodeRune` answers on a byte that is not ASCII. -/
theorem DecodeRune_inv_aux (b : Byte) (tl : GoString) (hb : 0x80 ≤ b.val) (d : Nat × Nat)
    (hd : DecodeRune (b :: tl) = d) :
    d = (RuneError, 1)
    ∨ (∃ lo hi b1 tl1, leadInfo b.val = some (2, lo, hi) ∧ tl = b1 :: tl1
        ∧ lo ≤ b1.val ∧ b1.val ≤ hi
        ∧ d = (b.val % 32 * 64 + b1.val % 64, 2))
    ∨ (∃ lo hi b1 b2 tl2, leadInfo b.val = some (3, lo, hi) ∧ tl = b1 :: b2 :: tl2
        ∧ lo ≤ b1.val ∧ b1.val ≤ hi ∧ 0x80 ≤ b2.val ∧ b2.val ≤ 0xBF
        ∧ d = (b.val % 16 * 4096 + b1.val % 64 * 64 + b2.val % 64, 3))
    ∨ (∃ lo hi b1 b2 b3 tl3, leadInfo b.val = some (4, lo, hi) ∧ tl = b1 :: b2 :: b3 :: tl3
        ∧ lo ≤ b1.val ∧ b1.val ≤ hi ∧ 0x80 ≤ b2.val ∧ b2.val ≤ 0xBF
        ∧ 0x80 ≤ b3.val ∧ b3.val ≤ 0xBF
        ∧ d = (b.val % 8 * 262144 + b1.val % 64 * 4096 + b2.val % 64 * 64 + b3.val % 64, 4)) := by
  unfold DecodeRune at hd
  dsimp only at hd
  rw [if_neg (by omega)] at hd
  cases hl : leadInfo b.val with
  | none => left; rw [hl] at hd; exact hd.symm
  | some info =>
    obtain ⟨sz, lo, hi⟩ := info
    have hc := leadInfo_cases hl
    rw [hl] at hd
    dsimp only at hd
    by_cases hlen : tl.length + 1 < sz
    · left; rw [if_pos hlen] at hd; exact hd.symm
    rw [if_neg hlen] at hd
    cases tl with
    | nil => left; exact hd.symm
    | cons b1 tl1 =>
      dsimp only at hd
      by_cases hr : b1.val < lo ∨ hi < b1.val
      · left; rw [if_pos hr] at hd; exact hd.symm
      rw [if_neg hr] at hd
      by_cases h2 : sz ≤ 2
      · right; left
        rw [if_pos h2] at hd
        have : sz = 2 := by omega
        subst this
        exact ⟨lo, hi, b1, tl1, rfl, rfl, by omega, by omega, hd.symm⟩
      rw [if_neg h2] at hd
      cases tl1 with
      | nil => left; exact hd.symm
      | cons b2 tl2 =>
        dsimp only at hd
        by_cases hc2 : isCont b2.val = true
        swap
        · left; simp [hc2] at hd; exact hd.symm
        have hc2' : 0x80 ≤ b2.val ∧ b2.val ≤ 0xBF := by simpa [isCont] using hc2
        simp only [hc2, Bool.not_true, Bool.false_eq_true, if_false] at hd
        by_cases h3 : sz ≤ 3
        · right; right; left
          rw [if_pos h3] at hd
          have : sz = 3 := by omega
          subst this
          exact ⟨lo, hi, b1, b2, tl2, rfl, rfl, by omega, by omega, hc2'.1, hc2'.2, hd.symm⟩
        rw [if_neg h3] at hd
        cases tl2 with
        | nil => left; exact hd.symm
        | cons b3 tl3 =>
          dsimp only at hd
          by_cases hc3 : isCont b3.val = true
          swap
          · left; simp [hc3] at hd; exact hd.symm
          have hc3' : 0x80 ≤ b3.val ∧ b3.val ≤ 0xBF := by simpa [isCont] using hc3
          simp only [hc3, Bool.not_true, Bool.false_eq_true, if_false] at hd
          right; right; right
          have : sz = 4 := by omega
          subst this
          exact ⟨lo, hi, b1, b2, b3, tl3, rfl, rfl, by omega, by omega, hc2'.1, hc2'.2,
            hc3'.1, hc3'.2, hd.symm⟩

/-- Forward: a well-formed two-byte sequence decodes, whatever follows. -/
theorem DecodeRune_two (b b1 : Byte) (X : GoString) (lo hi : Nat)
    (hl : leadInfo b.val = some (2, lo, hi)) (h1 : lo ≤ b1.val ∧ b1.val ≤ hi) :
    DecodeRune (b :: b1 :: X) = (b.val % 32 * 64 + b1.val % 64, 2) := by
  have hc := leadInfo_cases hl
  unfold DecodeRune
  dsimp only
  rw [if_neg (by omega), hl]
  dsimp only
  rw [if_neg (by simp), if_neg (by omega), if_pos (le_refl 2)]

theorem DecodeRune_three (b b1 b2 : Byte) (X : GoString) (lo hi : Nat)
    (hl : leadInfo b.val = some (3, lo, hi)) (h1 : lo ≤ b1.val ∧ b1.val ≤ hi)
    (h2 : 0x80 ≤ b2.val ∧ b2.val ≤ 0xBF) :
    DecodeRune (b :: b1 :: b2 :: X)
      = (b.val % 16 * 4096 + b1.val % 64 * 64 + b2.val % 64, 3) := by
  have hc := leadInfo_cases hl
  have hc2 : isCont b2.val = true := by simp [isCont]; omega
  unfold DecodeRune
  dsimp only
  rw [if_neg (by omega), hl]
  dsimp only
  rw [if_neg (by simp), if_neg (by omega), if_neg (by omega)]
  simp only [hc2, Bool.not_true, Bool.false_eq_true, if_false]
  rw [if_pos (le_refl 3)]

theorem DecodeRune_four (b b1 b2 b3 : Byte) (X : GoString) (lo hi : Nat)
    (hl : leadInfo b.val = some (4, lo, hi)) (h1 : lo ≤ b1.val ∧ b1.val ≤ hi)
    (h2 : 0x80 ≤ b2.val ∧ b2.val ≤ 0xBF) (h3 : 0x80 ≤ b3.val ∧ b3.val ≤ 0xBF) :
    DecodeRune (b :: b1 :: b2 :: b3 :: X)
      = (b.val % 8 * 262144 + b1.val % 64 * 4096 + b2.val % 64 * 64 + b3.val % 64, 4) := by
  have hc := leadInfo_cases hl
  have hc2 : isCont b2.val = true := by simp [isCont]; omega
  have hc3 : isCont b3.val = true := by simp [isCont]; omega
  unfold DecodeRune
  dsimp only
  rw [if_neg (by omega), hl]
  dsimp only
  rw [if_neg (by simp), if_neg (by omega), if_neg (by omega)]
  simp only [hc2, hc3, Bool.not_true, Bool.false_eq_true, if_false]
  rw [if_neg (by omega)]

/-! ## JSON strings: what the encoder writes, the scanner reads back -/

theorem hexVal_hexDigit (v : Nat) (h : v < 16) : hexVal (hexDigit v) = some v := by
  have : ∀ i : Fin 16, hexVal (hexDigit i.val) = some i.val := by decide
  exact this ⟨v, h⟩

theorem Fin_ofNat_val (b : Byte) : (Fin.ofNat b.val : Byte) = b := by
  apply Fin.ext; simp [Fin.ofNat]

theorem scanString_skip (chunk rest : GoString) :
    scanString chunk.length (chunk ++ rest) = scanString 0 rest := by
  induction chunk with
  | nil => rfl
  | cons c tl ih => simpa [scanString] using ih

theorem validFrom_skip (chunk rest : GoString) :
    validFrom chunk.length (chunk ++ rest) = validFrom 0 rest := by
  induction chunk with
  | nil => rfl
  | cons c tl ih => simpa [validFrom] using ih

theorem appendStringFrom_zero (keep : Bool) (s : GoString) :
    appendStringFrom 0 keep s = appendStringFrom 0 true s := by
  cases s with
  | nil => simp [appendStringFrom]
  | cons b tl => simp [appendStringFrom]

theorem appendStringFrom_copy (chunk rest : GoString) :
    appendStringFrom chunk.length true (chunk ++ rest) = chunk ++ appendStringFrom 0 true rest := by
  induction chunk with
  | nil => rfl
  | cons c tl ih => simpa [appendStringFrom] using ih

theorem appendStringFrom_drop (chunk rest : GoString) :
    appendStringFrom chunk.length false (chunk ++ rest) = appendStringFrom 0 true rest := by
  induction chunk with
  | nil => simpa using appendStringFrom_zero false rest
  | cons c tl ih => simpa [appendStringFrom] using ih

theorem byte_eq_iff (b : Byte) (n : Nat) (h : n < 256) : b = Fin.ofNat n ↔ b.val = n := by
  rw [Fin.ext_iff]; simp [Fin.ofNat, Nat.mod_eq_of_lt h]

/-- An ASCII byte as the encoder writes it is read back as that byte. -/
theorem scanString_ascii (b : Byte) (hb : b.val < 0x80) (more : GoString) :
    scanString 0 ((if htmlSafeSet b.val then [b] else escapeByte b) ++ more)
      = (scanString 0 more).prepend [b] := by
  by_cases hs : htmlSafeSet b.val = true
  · rw [if_pos hs]
    simp only [htmlSafeSet, Bool.and_eq_true, decide_eq_true_eq, bne_iff_ne, ne_eq] at hs
    have h22 : ¬ b = 0x22 := fun e => hs.1.1.1.1.2 (by rw [e]; rfl)
    have h5c : ¬ b = 0x5C := fun e => hs.1.1.1.2 (by rw [e]; rfl)
    simp only [List.singleton_append, scanString, h22, h5c, if_false]
    rw [if_neg (by omega), if_pos hb]
    rfl
  · rw [if_neg hs]
    unfold escapeByte
    by_cases h1 : b = 0x5C ∨ b = 0x22
    · rw [if_pos h1]
      rcases h1 with h1 | h1 <;> subst h1 <;> simp [scanString, unescape, Scan.prepend]
    rw [if_neg h1]
    by_cases h2 : b = 0x08
    · subst h2; rfl
    rw [if_neg h2]
    by_cases h3 : b = 0x0C
    · subst h3; rfl
    rw [if_neg h3]
    by_cases h4 : b = 0x0A
    · subst h4; rfl
    rw [if_neg h4]
    by_cases h5 : b = 0x0D
    · subst h5; rfl
    rw [if_neg h5]
    by_cases h6 : b = 0x09
    · subst h6; rfl
    rw [if_neg h6]
    have hl : lit "\\u00" = [0x5C, 0x75, 0x30, 0x30] := by decide
    have hx1 := hexVal_hexDigit (b.val / 16) (by omega)
    have hx2 := hexVal_hexDigit (b.val % 16) (by omega)
    have hx0 : hexVal 0x30 = some 0 := by decide
    have hg : getu4 (0x5C :: 0x75 :: 0x30 :: 0x30 :: hexDigit (b.val / 16)
        :: hexDigit (b.val % 16) :: more) = some b.val := by
      simp only [getu4, hx0, hx1, hx2, and_self, if_true]
      congr 1; omega
    have hsur : isSurrogate b.val = false := by simp [isSurrogate]; omega
    have henc : EncodeRune b.val = [b] := by
      unfold EncodeRune
      rw [if_pos hb, Fin_ofNat_val]
    rw [hl]
    show scanString 0 (0x5C :: 0x75 :: 0x30 :: 0x30 :: hexDigit (b.val / 16)
        :: hexDigit (b.val % 16) :: more) = _
    rw [scanString]
    simp only [show ¬ ((0x5C : Byte) = 0x22) by decide, if_false, if_true, hg, hsur,
      Bool.false_eq_true, henc]
    rfl

/-- A valid multi-byte rune: its bytes, and what `DecodeRune` and `EncodeRune` make of them. -/
theorem DecodeRune_valid (b : Byte) (tl : GoString) (hb : 0x80 ≤ b.val)
    (hv : ¬((DecodeRune (b :: tl)).1 = RuneError ∧ (DecodeRune (b :: tl)).2 = 1)) :
    ∃ chunk rest, tl = chunk ++ rest
      ∧ (DecodeRune (b :: tl)).2 = chunk.length + 1
      ∧ EncodeRune (DecodeRune (b :: tl)).1 = b :: chunk
      ∧ ∀ X, DecodeRune (b :: (chunk ++ X)) = DecodeRune (b :: tl) := by
  rcases DecodeRune_inv_aux b tl hb _ rfl with h | h | h | h
  · exact absurd (by rw [h]; exact ⟨rfl, rfl⟩) hv
  · obtain ⟨lo, hi, b1, tl1, hl, htl, h1, h2, hd⟩ := h
    have hc := leadInfo_cases hl
    refine ⟨[b1], tl1, htl, by rw [hd]; rfl, ?_, fun X => ?_⟩
    · rw [hd]; exact EncodeRune_two b b1 (by omega) (by omega)
    · rw [hd]; exact DecodeRune_two b b1 X lo hi hl ⟨h1, h2⟩
  · obtain ⟨lo, hi, b1, b2, tl2, hl, htl, h1, h2, h3, h4, hd⟩ := h
    have hc := leadInfo_cases hl
    refine ⟨[b1, b2], tl2, htl, by rw [hd]; rfl, ?_, fun X => ?_⟩
    · rw [hd]; exact EncodeRune_three b b1 b2 lo hi (by omega) ⟨h1, h2⟩ ⟨h3, h4⟩
    · rw [hd]; exact DecodeRune_three b b1 b2 X lo hi hl ⟨h1, h2⟩ ⟨h3, h4⟩
  · obtain ⟨lo, hi, b1, b2, b3, tl3, hl, htl, h1, h2, h3, h4, h5, h6, hd⟩ := h
    have hc := leadInfo_cases hl
    refine ⟨[b1, b2, b3], tl3, htl, by rw [hd]; rfl, ?_, fun X => ?_⟩
    · rw [hd]; exact EncodeRune_four b b1 b2 b3 lo hi (by omega) ⟨h1, h2⟩ ⟨h3, h4⟩ ⟨h5, h6⟩
    · rw [hd]; exact DecodeRune_four b b1 b2 b3 X lo hi hl ⟨h1, h2⟩ ⟨h3, h4⟩ ⟨h5, h6⟩

/-- The scanner reads back a valid UTF-8 string from what the encoder wrote for it. -/
theorem scanString_appendStringFrom (n : Nat) : ∀ (s : GoString), s.length ≤ n →
    validFrom 0 s = true → ∀ rest,
    scanString 0 (appendStringFrom 0 true s ++ 0x22 :: rest) = .ok s rest := by
  induction n with
  | zero =>
    intro s hs _ rest
    have : s = [] := List.length_eq_zero.1 (by omega)
    subst this
    simp [appendStringFrom, scanString]
  | succ n ih =>
    intro s hs hv rest
    cases s with
    | nil => simp [appendStringFrom, scanString]
    | cons b tl =>
      have hlen : tl.length ≤ n := by simpa using hs
      by_cases hb : b.val < 0x80
      · have hd : DecodeRune (b :: tl) = (b.val, 1) := by
          unfold DecodeRune; dsimp only; rw [if_pos hb]
        have hv' : validFrom 0 tl = true := by
          rw [validFrom] at hv
          simp only [hd] at hv
          rw [if_neg (by simp [RuneError]; omega)] at hv
          simpa using hv
        rw [appendStringFrom]
        simp only [hb, if_true]
        rw [List.append_assoc, scanString_ascii b hb, ih tl hlen hv' rest]
        rfl
      · have hb' : 0x80 ≤ b.val := by omega
        rw [validFrom] at hv
        by_cases he : (DecodeRune (b :: tl)).1 = RuneError ∧ (DecodeRune (b :: tl)).2 = 1
        · rw [if_pos he] at hv; exact absurd hv (by simp)
        rw [if_neg he] at hv
        obtain ⟨chunk, rest', htl, hsz, henc, hpre⟩ := DecodeRune_valid b tl hb' he
        subst htl
        have hsz' : (DecodeRune (b :: (chunk ++ rest'))).2 - 1 = chunk.length := by omega
        rw [hsz', validFrom_skip] at hv
        have hlen' : rest'.length ≤ n := by
          simp at hlen; omega
        have ih' := ih rest' hlen' hv rest
        have h22 : ¬ b = 0x22 := fun e => by rw [e] at hb'; exact absurd hb' (by decide)
        have h5c : ¬ b = 0x5C := fun e => by rw [e] at hb'; exact absurd hb' (by decide)
        rw [appendStringFrom]
        simp only [hb, if_false, he]
        generalize hdd : DecodeRune (b :: (chunk ++ rest')) = d at *
        by_cases hls : d.1 = 0x2028 ∨ d.1 = 0x2029
        · rw [if_pos hls, hsz', appendStringFrom_drop]
          have hl : lit "\\u202" = [0x5C, 0x75, 0x32, 0x30, 0x32] := by decide
          have hx : hexVal (hexDigit (d.1 % 16)) = some (d.1 % 16) :=
            hexVal_hexDigit _ (by omega)
          have hx2 : hexVal 0x32 = some 2 := by decide
          have hx0 : hexVal 0x30 = some 0 := by decide
          have hsur : isSurrogate d.1 = false := by
            rcases hls with h | h <;> rw [h] <;> decide
          rw [hl]
          show scanString 0 (0x5C :: 0x75 :: 0x32 :: 0x30 :: 0x32 :: hexDigit (d.1 % 16)
            :: (appendStringFrom 0 true rest' ++ 0x22 :: rest)) = _
          have hg : getu4 (0x5C :: 0x75 :: 0x32 :: 0x30 :: 0x32 :: hexDigit (d.1 % 16)
              :: (appendStringFrom 0 true rest' ++ 0x22 :: rest)) = some d.1 := by
            simp only [getu4, hx0, hx2, hx, and_self, if_true]
            congr 1
            rcases hls with h | h <;> rw [h]
          rw [scanString]
          simp only [show ¬ ((0x5C : Byte) = 0x22) by decide, if_false, if_true, hg, hsur,
            Bool.false_eq_true, henc]
          show (scanString 0 (appendStringFrom 0 true rest' ++ 0x22 :: rest)).prepend
            (b :: chunk) = _
          rw [ih']
          rfl
        · rw [if_neg hls, hsz', appendStringFrom_copy]
          rw [List.cons_append, List.append_assoc]
          simp only [scanString, h22, h5c, if_false]
          rw [if_neg (by omega), if_neg hb, hpre, henc, hsz', scanString_skip, ih']
          rfl

theorem scanString_appendString (s rest : GoString) (hv : utf8Valid s = true) :
    scanString 0 (appendStringFrom 0 true s ++ 0x22 :: rest) = .ok s rest :=
  scanString_appendStringFrom s.length s (le_refl _) hv rest

theorem utf8Valid_of_ascii (s : GoString) (h : ∀ c ∈ s, c.val < 0x80) : utf8Valid s = true := by
  unfold utf8Valid
  induction s with
  | nil => rfl
  | cons b tl ih =>
    have hb : b.val < 0x80 := h b (List.mem_cons_self _ _)
    have hd : DecodeRune (b :: tl) = (b.val, 1) := by
      unfold DecodeRune; dsimp only; rw [if_pos hb]
    rw [validFrom]
    simp only [hd]
    rw [if_neg (by simp [RuneError]; omega)]
    exact ih (fun c hc => h c (List.mem_cons_of_mem _ hc))

theorem skipSpace_cons (c : Byte) (rest : GoString) (h : isSpace c = false) :
    skipSpace (c :: rest) = c :: rest := by
  simp [skipSpace, h]

/-- A string value written by the encoder is read as that string. -/
theorem scanValue_string (fuel depth : Nat) (s rest : GoString) (hv : utf8Valid s = true) :
    scanValue (fuel + 1) depth (appendString s ++ rest) = .ok (.str s) rest := by
  unfold appendString
  rw [scanValue]
  simp only [List.singleton_append, List.cons_append, List.append_assoc]
  rw [skipSpace_cons _ _ (by decide)]
  simp only [if_true, List.nil_append]
  rw [scanString_appendString s rest hv]
  rfl

/-- An object with at least one member: after the opening brace come the members. -/
theorem scanValue_obj (fuel depth : Nat) (k rest : GoString) (hd : depth < maxNestingDepth) :
    scanValue (fuel + 1) depth (0x7B :: (appendString k ++ rest))
      = (scanMembers fuel (depth + 1) (appendString k ++ rest)).map JSON.obj := by
  unfold appendString
  simp only [List.singleton_append, List.cons_append, List.append_assoc, List.nil_append]
  rw [scanValue]
  rw [skipSpace_cons _ _ (by decide)]
  simp only [show ¬ ((0x7B : Byte) = 0x22) by decide, if_false, if_true]
  rw [if_neg (by omega), skipSpace_cons _ _ (by decide)]
  simp only [show ¬ ((0x22 : Byte) = 0x7D) by decide, if_false]

/-- The last member of an object, with a string value. -/
theorem scanMembers_last (fuel depth : Nat) (k s rest : GoString) (hk : utf8Valid k = true)
    (hs : utf8Valid s = true) :
    scanMembers (fuel + 2) depth
        (appendString k ++ 0x3A :: (appendString s ++ 0x7D :: rest))
      = .ok [(k, .str s)] rest := by
  rw [scanMembers]
  conv_lhs => rw [appendString]
  simp only [List.singleton_append, List.cons_append, List.append_assoc, List.nil_append]
  rw [skipSpace_cons _ _ (by decide)]
  simp only [if_true]
  rw [scanString_appendString k _ hk]
  simp only
  rw [skipSpace_cons _ _ (by decide)]
  simp only [if_true]
  rw [scanValue_string fuel depth s _ hs]
  simp only
  rw [skipSpace_cons _ _ (by decide)]
  simp only [if_true]

/-- A member of an object that is followed by another, with a string value. -/
theorem scanMembers_more (fuel depth : Nat) (k s rest : GoString) (hk : utf8Valid k = true)
    (hs : utf8Valid s = true) :
    scanMembers (fuel + 2) depth
        (appendString k ++ 0x3A :: (appendString s ++ 0x2C :: rest))
      = (scanMembers (fuel + 1) depth rest).map fun ms => (k, .str s) :: ms := by
  rw [scanMembers]
  conv_lhs => rw [appendString]
  simp only [List.singleton_append, List.cons_append, List.append_assoc, List.nil_append]
  rw [skipSpace_cons _ _ (by decide)]
  simp only [if_true]
  rw [scanString_appendString k _ hk]
  simp only
  rw [skipSpace_cons _ _ (by decide)]
  simp only [if_true]
  rw [scanValue_string fuel depth s _ hs]
  simp only
  rw [skipSpace_cons _ _ (by decide)]
  simp only [show ¬ ((0x2C : Byte) = 0x7D) by decide, if_false, if_true]

theorem EncodeToString_ascii (b : List Byte) : ∀ c ∈ EncodeToString b, c.val < 0x80 := by
  have hc : ∀ i : Nat, i < 64 → (b64Char i).val < 0x80 := by
    intro i hi
    have : ∀ i : Fin 64, (b64Char i.val).val < 0x80 := by decide
    exact this ⟨i, hi⟩
  have hp : StdPadding.val < 0x80 := by decide
  intro c hc'
  induction b using EncodeToString.induct with
  | case1 b0 b1 b2 rest ih =>
    simp only [EncodeToString, List.mem_cons] at hc'
    rcases hc' with h | h | h | h | h
    · subst h; exact hc _ (by omega)
    · subst h; exact hc _ (by omega)
    · subst h; exact hc _ (by omega)
    · subst h; exact hc _ (by omega)
    · exact ih h
  | case2 b0 b1 =>
    simp only [EncodeToString, List.mem_cons, List.mem_singleton] at hc'
    rcases hc' with h | h | h | h | h
    · subst h; exact hc _ (by omega)
    · subst h; exact hc _ (by omega)
    · subst h; exact hc _ (by omega)
    · subst h; exact hp
    · simp at h
  | case3 b0 =>
    simp only [EncodeToString, List.mem_cons, List.mem_singleton] at hc'
    rcases hc' with h | h | h | h | h
    · subst h; exact hc _ (by omega)
    · subst h; exact hc _ (by omega)
    · subst h; exact hp
    · subst h; exact hp
    · simp at h
  | case4 => simp [EncodeToString] at hc'

/-- The body `json.Marshal` makes of a payload of valid UTF-8 strings is read back as the
object of its two fields. -/
theorem readValue_marshalPayload (p q : GoString) (hp : utf8Valid p = true)
    (hq : utf8Valid q = true) :
    readValue (marshalPayload ⟨p, q⟩)
      = .ok (.obj [(lit "project", .str p), (lit "bom", .str q)]) [] := by
  have h1 : lit "\x7b\"project\":" = 0x7B :: (appendString (lit "project") ++ [0x3A]) := by
    decide
  have h2 : lit ",\"bom\":" = 0x2C :: (appendString (lit "bom") ++ [0x3A]) := by decide
  have h3 : lit "\x7d" = [0x7D] := by decide
  have hk1 : utf8Valid (lit "project") = true := by decide
  have hk2 : utf8Valid (lit "bom") = true := by decide
  have hbody : marshalPayload ⟨p, q⟩
      = 0x7B :: (appendString (lit "project") ++ 0x3A :: (appendString p ++ 0x2C ::
          (appendString (lit "bom") ++ 0x3A :: (appendString q ++ 0x7D :: [])))) := by
    unfold marshalPayload
    rw [h1, h2, h3]
    simp only [List.cons_append, List.append_assoc, List.singleton_append, List.nil_append]
  unfold readValue
  rw [hbody]
  obtain ⟨f, hf⟩ : ∃ f, 2 * (0x7B :: (appendString (lit "project") ++ 0x3A :: (appendString p
      ++ 0x2C :: (appendString (lit "bom") ++ 0x3A :: (appendString q ++ 0x7D :: []))))).length
      + 1 = f + 4 := by
    refine ⟨2 * (0x7B :: (appendString (lit "project") ++ 0x3A :: (appendString p
      ++ 0x2C :: (appendString (lit "bom") ++ 0x3A :: (appendString q ++ 0x7D :: []))))).length
      - 3, ?_⟩
    simp only [List.length_cons, List.length_append, appendString]
    omega
  rw [hf, scanValue_obj (f + 3) 0 _ _ (by decide), scanMembers_more (f + 1) 1 _ _ _ hk1 hp,
    scanMembers_last f 1 _ _ _ hk2 hq]
  rfl

theorem storePayload_obj (p q : GoString) :
    storePayload (.obj [(lit "project", .str p), (lit "bom", .str q)]) ⟨[], []⟩ none
      = (⟨p, q⟩, none) := by
  rfl

/-! ## The scanner reads every text of the JSON grammar -/

theorem indexOf_getD (l : GoString) (c : Byte) (h : l.indexOf c < l.length) :
    l.getD (l.indexOf c) 0 = c := by
  rw [List.getD_eq_getElem l 0 h]
  exact List.indexOf_get h

theorem hexDigitValue_eq {c : Byte} {v : Nat} (h : hexDigitValue c = some v) :
    hexVal c = some v := by
  have lower : ∀ i : Fin 16, hexVal ((lit "0123456789abcdef").getD i.val 0) = some i.val := by
    decide
  have upper : ∀ i : Fin 16, hexVal ((lit "0123456789ABCDEF").getD i.val 0) = some i.val := by
    decide
  unfold hexDigitValue at h
  dsimp only at h
  split_ifs at h with h1 h2
  · have e := indexOf_getD (lit "0123456789abcdef") c (by simpa [lit] using h1)
    have := lower ⟨_, h1⟩
    rw [e] at this
    rw [this, ← h]
  · have e := indexOf_getD (lit "0123456789ABCDEF") c (by simpa [lit] using h2)
    have := upper ⟨_, h2⟩
    rw [e] at this
    rw [this, ← h]

theorem getu4_codeUnit {h1 h2 h3 h4 : Byte} {r : Nat} (h : codeUnit h1 h2 h3 h4 = some r)
    (X : GoString) : getu4 (0x5C :: 0x75 :: h1 :: h2 :: h3 :: h4 :: X) = some r := by
  unfold codeUnit at h
  cases e1 : hexDigitValue h1 <;> cases e2 : hexDigitValue h2 <;>
    cases e3 : hexDigitValue h3 <;> cases e4 : hexDigitValue h4 <;>
    simp [e1, e2, e3, e4] at h
  simp only [getu4, and_self, if_true, hexDigitValue_eq e1, hexDigitValue_eq e2,
    hexDigitValue_eq e3, hexDigitValue_eq e4, Option.some.injEq]
  omega

theorem unescape_escapes {e b : Byte} (h : (e, b) ∈ escapes) : unescape e = some b := by
  simp only [escapes, List.mem_cons, Prod.mk.injEq, List.mem_singleton, List.not_mem_nil,
    or_false] at h
  rcases h with h | h | h | h | h | h | h | h <;> obtain ⟨rfl, rfl⟩ := h <;> rfl

theorem Fin_ofNat_byte (n : Nat) (h : n < 256) : (Fin.ofNat n : Byte).val = n := by
  simp only [Fin.ofNat]; omega

/-- What `EncodeRune` writes for a code point outside ASCII, `DecodeRune` reads back. -/
theorem DecodeRune_EncodeRune (r : Nat) (h1 : 0x80 ≤ r) (h2 : r ≤ MaxRune)
    (h3 : isSurrogate r = false) :
    ∃ b chunk, EncodeRune r = b :: chunk ∧ 0x80 ≤ b.val
      ∧ ∀ X, DecodeRune (b :: (chunk ++ X)) = (r, chunk.length + 1) := by
  have hs : r < 0xD800 ∨ 0xDFFF < r := by
    simp only [isSurrogate, Bool.and_eq_false_iff, decide_eq_false_iff_not] at h3
    omega
  simp only [MaxRune] at h2
  unfold EncodeRune
  rw [if_neg (by omega)]
  by_cases c2 : r < 0x800
  · rw [if_pos c2]
    have v0 := Fin_ofNat_byte (0xC0 + r / 64) (by omega)
    have v1 := Fin_ofNat_byte (0x80 + r % 64) (by omega)
    refine ⟨_, _, rfl, by omega, fun X => ?_⟩
    have hl : leadInfo (Fin.ofNat (0xC0 + r / 64) : Byte).val = some (2, 0x80, 0xBF) := by
      unfold leadInfo; rw [if_pos (by omega)]
    rw [List.singleton_append, DecodeRune_two _ _ X _ _ hl (by omega)]
    simp only [List.length_singleton, Prod.mk.injEq, and_true]
    omega
  rw [if_neg c2, if_neg (by simp only [MaxRune, h3]; simp; omega)]
  by_cases c3 : r < 0x10000
  · rw [if_pos c3]
    unfold encode3
    have v0 := Fin_ofNat_byte (0xE0 + r / 4096) (by omega)
    have v1 := Fin_ofNat_byte (0x80 + r / 64 % 64) (by omega)
    have v2 := Fin_ofNat_byte (0x80 + r % 64) (by omega)
    refine ⟨_, _, rfl, by omega, fun X => ?_⟩
    have hl : ∃ lo hi, leadInfo (Fin.ofNat (0xE0 + r / 4096) : Byte).val = some (3, lo, hi)
        ∧ lo ≤ 0x80 + r / 64 % 64 ∧ 0x80 + r / 64 % 64 ≤ hi := by
      unfold leadInfo
      rw [if_neg (by omega)]
      by_cases e0 : r / 4096 = 0
      · rw [if_pos (by omega)]; exact ⟨_, _, rfl, by omega, by omega⟩
      rw [if_neg (by omega)]
      by_cases e1 : r / 4096 ≤ 12
      · rw [if_pos (by omega)]; exact ⟨_, _, rfl, by omega, by omega⟩
      rw [if_neg (by omega)]
      by_cases e2 : r / 4096 = 13
      · rw [if_pos (by omega)]; exact ⟨_, _, rfl, by omega, by omega⟩
      rw [if_neg (by omega), if_pos (by omega)]; exact ⟨_, _, rfl, by omega, by omega⟩
    obtain ⟨lo, hi, hl, hlo, hhi⟩ := hl
    show DecodeRune (_ :: _ :: _ :: X) = _
    rw [DecodeRune_three _ _ _ X _ _ hl (by omega) (by omega)]
    simp only [List.length_cons, List.length_nil, Prod.mk.injEq, and_true]
    omega
  · rw [if_neg c3]
    have v0 := Fin_ofNat_byte (0xF0 + r / 262144) (by omega)
    have v1 := Fin_ofNat_byte (0x80 + r / 4096 % 64) (by omega)
    have v2 := Fin_ofNat_byte (0x80 + r / 64 % 64) (by omega)
    have v3 := Fin_ofNat_byte (0x80 + r % 64) (by omega)
    refine ⟨_, _, rfl, by omega, fun X => ?_⟩
    have hl : ∃ lo hi, leadInfo (Fin.ofNat (0xF0 + r / 262144) : Byte).val = some (4, lo, hi)
        ∧ lo ≤ 0x80 + r / 4096 % 64 ∧ 0x80 + r / 4096 % 64 ≤ hi := by
      unfold leadInfo
      rw [if_neg (by omega), if_neg (by omega), if_neg (by omega), if_neg (by omega),
        if_neg (by omega)]
      by_cases e0 : r / 262144 = 0
      · rw [if_pos (by omega)]; exact ⟨_, _, rfl, by omega, by omega⟩
      rw [if_neg (by omega)]
      by_cases e1 : r / 262144 ≤ 3
      · rw [if_pos (by omega)]; exact ⟨_, _, rfl, by omega, by omega⟩
      rw [if_neg (by omega), if_pos (by omega)]; exact ⟨_, _, rfl, by omega, by omega⟩
    obtain ⟨lo, hi, hl, hlo, hhi⟩ := hl
    show DecodeRune (_ :: _ :: _ :: _ :: X) = _
    rw [DecodeRune_four _ _ _ _ X _ _ hl (by omega) (by omega) (by omega)]
    simp only [List.length_cons, List.length_nil, Prod.mk.injEq, and_true]
    omega

/-- The scanner reads every string of the grammar as the bytes it denotes. -/
theorem scanString_StrBody {t s : GoString} (h : StrBody t s) (rest : GoString) :
    scanString 0 (t ++ 0x22 :: rest) = .ok s rest := by
  induction h with
  | nil => simp [scanString]
  | ascii c h1 h2 h3 h4 _ ih =>
    rw [List.cons_append]
    simp only [scanString, h3, h4, if_false]
    rw [if_neg (by omega), if_pos h2, ih]
    rfl
  | rune r h1 h2 h3 _ ih =>
    obtain ⟨b, chunk, henc, hb, hdec⟩ := DecodeRune_EncodeRune r h1 h2 h3
    have h22 : ¬ b = 0x22 := fun e => by rw [e] at hb; exact absurd hb (by decide)
    have h5c : ¬ b = 0x5C := fun e => by rw [e] at hb; exact absurd hb (by decide)
    rw [henc, List.cons_append, List.cons_append, List.append_assoc]
    simp only [scanString, h22, h5c, if_false]
    rw [if_neg (by omega), if_neg (by omega), hdec]
    dsimp only
    rw [Nat.add_sub_cancel, scanString_skip, ih, ← henc]
    rfl
  | escape e b hm _ ih =>
    have hu := unescape_escapes hm
    have he : ¬ e = 0x75 := fun h => by
      subst h
      have : unescape (0x75 : Byte) = none := by decide
      rw [this] at hu
      cases hu
    rw [List.cons_append, List.cons_append]
    simp only [scanString, show ¬ ((0x5C : Byte) = 0x22) by decide, if_false, if_true, he, hu]
    rw [ih]
    rfl
  | unicode h1 h2 h3 h4 r hc hs _ ih =>
    have hg := getu4_codeUnit hc
    simp only [List.cons_append]
    rw [scanString]
    simp only [show ¬ ((0x5C : Byte) = 0x22) by decide, if_false, if_true, hg, hs,
      Bool.false_eq_true]
    show (scanString 0 _).prepend _ = _
    rw [ih]
    rfl
  | pair h1 h2 h3 h4 l1 l2 l3 l4 hi lo hh hl a1 a2 a3 a4 _ ih =>
    have hg := getu4_codeUnit hh
    have hg2 := getu4_codeUnit hl
    have hsur : isSurrogate hi = true := by simp [isSurrogate]; omega
    have hd : utf16DecodeRune hi (some lo)
        = 0x10000 + (hi - 0xD800) * 0x400 + (lo - 0xDC00) := by
      unfold utf16DecodeRune
      dsimp only
      rw [if_pos ⟨a1, a2, a3, a4⟩]
      omega
    have hne : ¬ (0x10000 + (hi - 0xD800) * 0x400 + (lo - 0xDC00) = RuneError) := by
      simp only [RuneError]; omega
    simp only [List.cons_append]
    rw [scanString]
    simp only [show ¬ ((0x5C : Byte) = 0x22) by decide, if_false, if_true, hg, hsur,
      List.drop_succ_cons, List.drop_zero, hg2, hd, ne_eq, hne, not_false_eq_true]
    show (scanString 0 _).prepend _ = _
    rw [ih]
    rfl

theorem contains_iff (l : GoString) (c : Byte) : l.contains c = true ↔ c ∈ l := by
  simp [List.contains]

theorem digit_isDigit {c : Byte} (h : (lit "0123456789").contains c = true) :
    isDigit c = true := by
  have e : lit "0123456789" = [0x30, 0x31, 0x32, 0x33, 0x34, 0x35, 0x36, 0x37, 0x38, 0x39] := by
    decide
  rw [e] at h
  simp only [contains_iff, List.mem_cons, List.mem_singleton, List.not_mem_nil,
    or_false, decide_eq_true_eq] at h
  rcases h with h | h | h | h | h | h | h | h | h | h <;> subst h <;> rfl

theorem isDigit_digit {c : Byte} (h : isDigit c = true) :
    (lit "0123456789").contains c = true := by
  have e : lit "0123456789" = [0x30, 0x31, 0x32, 0x33, 0x34, 0x35, 0x36, 0x37, 0x38, 0x39] := by
    decide
  rw [e]
  simp only [isDigit, Bool.and_eq_true, decide_eq_true_eq] at h
  simp only [contains_iff, List.mem_cons, List.mem_singleton, List.not_mem_nil,
    or_false, decide_eq_true_eq, Fin.ext_iff]
  have : c.val = 0x30 ∨ c.val = 0x31 ∨ c.val = 0x32 ∨ c.val = 0x33 ∨ c.val = 0x34
      ∨ c.val = 0x35 ∨ c.val = 0x36 ∨ c.val = 0x37 ∨ c.val = 0x38 ∨ c.val = 0x39 := by omega
  exact this

theorem spanDigits_digits (ds X : GoString) (hd : digits ds = true) (hX : noDigit X) :
    spanDigits (ds ++ X) = (ds, X) := by
  induction ds with
  | nil =>
    cases X with
    | nil => rfl
    | cons c r => simp [spanDigits, hX c r rfl]
  | cons d ds ih =>
    simp only [digits, List.all_cons, Bool.and_eq_true] at hd
    have h1 := digit_isDigit hd.1
    have e := ih hd.2
    rw [List.cons_append, spanDigits]
    simp only [h1, if_true, e]

theorem endsNumber_cons {c : Byte} {r : GoString} (h : endsNumber (c :: r) = true) :
    ¬ (c = 0x30 ∨ c = 0x31 ∨ c = 0x32 ∨ c = 0x33 ∨ c = 0x34 ∨ c = 0x35 ∨ c = 0x36 ∨ c = 0x37
      ∨ c = 0x38 ∨ c = 0x39 ∨ c = 0x2E ∨ c = 0x65 ∨ c = 0x45) := by
  have e : lit "0123456789.eE" = [0x30, 0x31, 0x32, 0x33, 0x34, 0x35, 0x36, 0x37, 0x38,
      0x39, 0x2E, 0x65, 0x45] := by decide
  intro hm
  have hc : (lit "0123456789.eE").contains c = true := by
    rw [contains_iff, e]
    simpa only [List.mem_cons, List.mem_singleton, List.not_mem_nil, or_false] using hm
  simp only [endsNumber, hc] at h
  cases h

theorem endsNumber_noDigit {X : GoString} (h : endsNumber X = true) : noDigit X := by
  intro c r e
  subst e
  cases hc : isDigit c with
  | false => rfl
  | true =>
    have hn := endsNumber_cons h
    have := isDigit_digit hc
    have e2 : lit "0123456789" = [0x30, 0x31, 0x32, 0x33, 0x34, 0x35, 0x36, 0x37, 0x38,
        0x39] := by decide
    rw [e2] at this
    simp only [contains_iff, List.mem_cons, List.mem_singleton, List.not_mem_nil,
      or_false] at this
    exact absurd (by tauto) hn

theorem endsNumber_head {X : GoString} (h : endsNumber X = true) (c : Byte) (r : GoString)
    (e : X = c :: r) : c ≠ 0x2E ∧ c ≠ 0x65 ∧ c ≠ 0x45 := by
  subst e
  have hn := endsNumber_cons h
  simp only [not_or] at hn
  tauto

theorem scanExponent_part (exp X : GoString)
    (h : exp = [] ∨ ∃ e s ds, exp = e :: (s ++ ds) ∧ (e = 0x65 ∨ e = 0x45)
        ∧ (s = [] ∨ s = lit "+" ∨ s = lit "-") ∧ ds ≠ [] ∧ digits ds = true)
    (hX : endsNumber X = true) : scanExponent (exp ++ X) = some (exp, X) := by
  rcases h with h | ⟨e, s, ds, h, he, hs, hne, hd⟩
  · subst h
    cases X with
    | nil => rfl
    | cons c r =>
      have := endsNumber_head hX c r rfl
      simp only [List.nil_append, scanExponent, this.2.1, this.2.2, or_self, if_false]
  · subst h
    have hsp := spanDigits_digits ds X hd (endsNumber_noDigit hX)
    cases ds with
    | nil => exact absurd rfl hne
    | cons d ds' =>
      have hdd : isDigit d = true := by
        simp only [digits, List.all_cons, Bool.and_eq_true] at hd
        exact digit_isDigit hd.1
      rcases hs with hs | hs | hs
      · subst hs
        have h1 : ¬ (d = 0x2B ∨ d = 0x2D) := by
          rintro (h | h) <;> subst h <;> exact absurd hdd (by decide)
        simp only [List.nil_append, List.cons_append, scanExponent, he, if_true, h1, if_false]
        rw [← List.cons_append, hsp]
        simp
      · have : s = [0x2B] := by rw [hs]; decide
        subst this
        simp only [List.cons_append, List.nil_append, scanExponent, he, if_true, true_or]
        rw [← List.cons_append, hsp]
        simp
      · have : s = [0x2D] := by rw [hs]; decide
        subst this
        simp only [List.cons_append, List.nil_append, scanExponent, he, if_true, or_true]
        rw [← List.cons_append, hsp]
        simp

theorem scanFraction_part (frac X : GoString)
    (h : frac = [] ∨ ∃ ds, frac = 0x2E :: ds ∧ ds ≠ [] ∧ digits ds = true)
    (hX : noDigit X) (hdot : frac = [] → ∀ c r, X = c :: r → c ≠ 0x2E) :
    scanFraction (frac ++ X) = some (frac, X) := by
  rcases h with h | ⟨ds, h, hne, hd⟩
  · have hd := hdot h
    subst h
    cases X with
    | nil => rfl
    | cons c r => simp only [List.nil_append, scanFraction, hd c r rfl, if_false]
  · subst h
    have hsp := spanDigits_digits ds X hd hX
    simp only [List.cons_append, scanFraction, if_true, hsp, hne, if_false]

theorem scanInt_part (int X : GoString)
    (h : int = lit "0" ∨ ∃ d ds, int = d :: ds ∧ (lit "123456789").contains d = true
        ∧ digits ds = true)
    (hX : noDigit X) : scanInt (int ++ X) = some (int, X) := by
  rcases h with h | ⟨d, ds, h, h1, hd⟩
  · have : int = [0x30] := by rw [h]; decide
    subst this
    rfl
  · subst h
    have e : lit "123456789" = [0x31, 0x32, 0x33, 0x34, 0x35, 0x36, 0x37, 0x38, 0x39] := by
      decide
    rw [e] at h1
    simp only [contains_iff, List.mem_cons, List.mem_singleton, List.not_mem_nil,
      or_false, decide_eq_true_eq] at h1
    have hd0 : ¬ d = 0x30 := by
      rcases h1 with h | h | h | h | h | h | h | h | h <;> subst h <;> decide
    have hdd : isDigit d = true := by
      rcases h1 with h | h | h | h | h | h | h | h | h <;> subst h <;> rfl
    simp only [List.cons_append, scanInt, hd0, if_false, hdd, if_true,
      spanDigits_digits ds X hd hX]

/-- The scanner reads every number of the grammar, up to where it ends. -/
theorem scanNumber_NumText {t : GoString} (h : NumText t) (rest : GoString)
    (hr : endsNumber rest = true) : scanNumber (t ++ rest) = .ok t rest := by
  obtain ⟨sign, int, frac, exp, ht, hs, hi, hf, he⟩ := h
  subst ht
  have h3 := scanExponent_part exp rest he hr
  have n2 : noDigit (exp ++ rest) := by
    rcases he with he | ⟨e, s, ds, he, hee, -⟩
    · subst he; exact endsNumber_noDigit hr
    · subst he
      intro c r hc
      simp only [List.cons_append, List.cons.injEq] at hc
      rw [← hc.1]
      rcases hee with h | h <;> subst h <;> rfl
  have d2 : frac = [] → ∀ c r, exp ++ rest = c :: r → c ≠ 0x2E := by
    intro _ c r hc
    rcases he with he | ⟨e, s, ds, he, hee, -⟩
    · subst he; exact (endsNumber_head hr c r hc).1
    · subst he
      simp only [List.cons_append, List.cons.injEq] at hc
      rw [← hc.1]
      rcases hee with h | h <;> subst h <;> decide
  have h2 := scanFraction_part frac (exp ++ rest) hf n2 d2
  have n1 : noDigit (frac ++ (exp ++ rest)) := by
    rcases hf with hf | ⟨ds, hf, -⟩
    · subst hf; exact n2
    · subst hf
      intro c r hc
      simp only [List.cons_append, List.cons.injEq] at hc
      rw [← hc.1]
      rfl
  have h1 := scanInt_part int (frac ++ (exp ++ rest)) hi n1
  have hint : ∃ d ds, int = d :: ds ∧ isDigit d = true := by
    rcases hi with hi | ⟨d, ds, hi, hd, -⟩
    · exact ⟨0x30, [], by rw [hi]; decide, rfl⟩
    · refine ⟨d, ds, hi, ?_⟩
      have e : lit "123456789" = [0x31, 0x32, 0x33, 0x34, 0x35, 0x36, 0x37, 0x38, 0x39] := by
        decide
      rw [e] at hd
      simp only [contains_iff, List.mem_cons, List.mem_singleton, List.not_mem_nil,
        or_false, decide_eq_true_eq] at hd
      rcases hd with h | h | h | h | h | h | h | h | h <;> subst h <;> rfl
  obtain ⟨d, ds, hint, hdd⟩ := hint
  have hd2 : ¬ d = 0x2D := fun h => by subst h; exact absurd hdd (by decide)
  unfold scanNumber
  rcases hs with hs | hs
  · subst hs
    have e : [] ++ int ++ frac ++ exp ++ rest = d :: (ds ++ (frac ++ (exp ++ rest))) := by
      rw [hint]; simp
    have e1 : d :: (ds ++ (frac ++ (exp ++ rest))) = int ++ (frac ++ (exp ++ rest)) := by
      rw [hint]; rfl
    rw [e]
    simp only [hd2, if_false]
    rw [e1, h1]
    simp only [h2, h3]
  · have : sign = [0x2D] := by rw [hs]; decide
    subst this
    have e : [0x2D] ++ int ++ frac ++ exp ++ rest = 0x2D :: (int ++ (frac ++ (exp ++ rest))) := by
      simp
    rw [e]
    simp only [if_true, h1, h2, h3]

theorem whiteSpace_isSpace {c : Byte} (h : (lit " \t\n\r").contains c = true) :
    isSpace c = true := by
  have e : lit " \t\n\r" = [0x20, 0x09, 0x0A, 0x0D] := by decide
  rw [contains_iff, e] at h
  simp only [List.mem_cons, List.mem_singleton, List.not_mem_nil, or_false] at h
  rcases h with h | h | h | h <;> subst h <;> rfl

theorem skipSpace_ws (a X : GoString) (ha : whiteSpace a = true) :
    skipSpace (a ++ X) = skipSpace X := by
  induction a with
  | nil => rfl
  | cons c a ih =>
    simp only [whiteSpace, List.all_cons, Bool.and_eq_true] at ha
    rw [List.cons_append, skipSpace, if_pos (whiteSpace_isSpace ha.1)]
    exact ih ha.2

theorem skipSpace_ws_cons (a X : GoString) (c : Byte) (ha : whiteSpace a = true)
    (hc : isSpace c = false) : skipSpace (a ++ c :: X) = c :: X := by
  rw [skipSpace_ws a _ ha, skipSpace_cons c X hc]

theorem skipSpace_idem (X : GoString) : skipSpace (skipSpace X) = skipSpace X := by
  induction X with
  | nil => rfl
  | cons c X ih =>
    by_cases h : isSpace c = true
    · rw [skipSpace, if_pos h]; exact ih
    · rw [skipSpace, if_neg h, skipSpace, if_neg h]

theorem scanValue_skip (fuel depth : Nat) (X : GoString) :
    scanValue fuel depth (skipSpace X) = scanValue fuel depth X := by
  cases fuel with
  | zero => simp only [scanValue]
  | succ f => rw [scanValue, scanValue, skipSpace_idem]

theorem scanValue_ws (fuel depth : Nat) (a X : GoString) (ha : whiteSpace a = true) :
    scanValue fuel depth (a ++ X) = scanValue fuel depth X := by
  rw [← scanValue_skip, skipSpace_ws a X ha, scanValue_skip]

theorem scanElements_skip (fuel depth : Nat) (X : GoString) :
    scanElements fuel depth (skipSpace X) = scanElements fuel depth X := by
  cases fuel with
  | zero => simp only [scanElements]
  | succ f => rw [scanElements, scanElements, scanValue_skip]

theorem scanMembers_skip (fuel depth : Nat) (X : GoString) :
    scanMembers fuel depth (skipSpace X) = scanMembers fuel depth X := by
  cases fuel with
  | zero => simp only [scanMembers]
  | succ f => rw [scanMembers, scanMembers, skipSpace_idem]

theorem endsNumber_after (b X : GoString) (c : Byte) (hb : whiteSpace b = true)
    (hc : c = 0x2C ∨ c = 0x5D ∨ c = 0x7D) : endsNumber (b ++ c :: X) = true := by
  have e : lit "0123456789.eE" = [0x30, 0x31, 0x32, 0x33, 0x34, 0x35, 0x36, 0x37, 0x38,
      0x39, 0x2E, 0x65, 0x45] := by decide
  have key : ∀ x : Byte, isSpace x = true ∨ x = 0x2C ∨ x = 0x5D ∨ x = 0x7D →
      (lit "0123456789.eE").contains x = false := by
    intro x hx
    cases hcx : (lit "0123456789.eE").contains x with
    | false => rfl
    | true =>
      rw [contains_iff, e] at hcx
      simp only [List.mem_cons, List.mem_singleton, List.not_mem_nil, or_false] at hcx
      rcases hcx with h | h | h | h | h | h | h | h | h | h | h | h | h <;> subst h <;>
        exact absurd hx (by decide)
  cases b with
  | nil => simp only [List.nil_append, endsNumber, key c (Or.inr hc), Bool.not_false]
  | cons s b =>
    simp only [whiteSpace, List.all_cons, Bool.and_eq_true] at hb
    simp only [List.cons_append, endsNumber, key s (Or.inl (whiteSpace_isSpace hb.1)),
      Bool.not_false]

theorem NumText_head {t : GoString} (h : NumText t) :
    ∃ c t0, t = c :: t0 ∧ (c = 0x2D ∨ isDigit c = true) := by
  obtain ⟨sign, int, frac, exp, ht, hs, hi, -, -⟩ := h
  subst ht
  rcases hs with hs | hs
  · subst hs
    rcases hi with hi | ⟨d, ds, hi, hd, -⟩
    · have : int = [0x30] := by rw [hi]; decide
      subst this
      exact ⟨0x30, _, rfl, Or.inr rfl⟩
    · subst hi
      refine ⟨d, _, rfl, Or.inr ?_⟩
      have e : lit "123456789" = [0x31, 0x32, 0x33, 0x34, 0x35, 0x36, 0x37, 0x38, 0x39] := by
        decide
      rw [contains_iff, e] at hd
      simp only [List.mem_cons, List.mem_singleton, List.not_mem_nil, or_false] at hd
      rcases hd with h | h | h | h | h | h | h | h | h <;> subst h <;> rfl
  · have : sign = [0x2D] := by rw [hs]; decide
    subst this
    exact ⟨0x2D, _, rfl, Or.inl rfl⟩

/-- A JSON text starts with the first character of a value. -/
theorem JSONText_head {n : Nat} {t : GoString} {v : JSON} (h : JSONText n t v) :
    ∃ c t0, t = c :: t0 ∧ isSpace c = false ∧ c ≠ 0x5D ∧ c ≠ 0x7D := by
  cases h with
  | litNull => exact ⟨0x6E, [0x75, 0x6C, 0x6C], by decide, by decide, by decide, by decide⟩
  | litTrue => exact ⟨0x74, [0x72, 0x75, 0x65], by decide, by decide, by decide, by decide⟩
  | litFalse =>
    exact ⟨0x66, [0x61, 0x6C, 0x73, 0x65], by decide, by decide, by decide, by decide⟩
  | num _ hn =>
    obtain ⟨c, t0, e, hc⟩ := NumText_head hn
    refine ⟨c, t0, e, ?_, ?_, ?_⟩
    · rcases hc with h | h
      · subst h; rfl
      · cases hs : isSpace c with
        | false => rfl
        | true =>
          simp only [isSpace, Bool.or_eq_true, decide_eq_true_eq] at hs
          rcases hs with ((e1 | e1) | e1) | e1 <;> subst e1 <;> exact absurd h (by decide)
    · rcases hc with h | h
      · subst h; decide
      · intro e; subst e; exact absurd h (by decide)
    · rcases hc with h | h
      · subst h; decide
      · intro e; subst e; exact absurd h (by decide)
  | str => exact ⟨0x22, _, rfl, by decide, by decide, by decide⟩
  | arrNil => exact ⟨0x5B, _, rfl, by decide, by decide, by decide⟩
  | arrOne => exact ⟨0x5B, _, rfl, by decide, by decide, by decide⟩
  | arrCons => exact ⟨0x5B, _, rfl, by decide, by decide, by decide⟩
  | objNil => exact ⟨0x7B, _, rfl, by decide, by decide, by decide⟩
  | objOne => exact ⟨0x7B, _, rfl, by decide, by decide, by decide⟩
  | objCons => exact ⟨0x7B, _, rfl, by decide, by decide, by decide⟩

theorem scanValue_arr (fuel depth : Nat) (X : GoString) (c1 : Byte) (r1 : GoString)
    (hd : depth < maxNestingDepth) (hs : skipSpace X = c1 :: r1) (hc : c1 ≠ 0x5D) :
    scanValue (fuel + 1) depth (0x5B :: X) = (scanElements fuel (depth + 1) X).map JSON.arr := by
  rw [scanValue, skipSpace_cons _ _ (by decide)]
  simp only [show ¬ ((0x5B : Byte) = 0x22) by decide, show ¬ ((0x5B : Byte) = 0x7B) by decide,
    if_false, if_true, hs, hc]
  rw [if_neg (by omega), ← hs, scanElements_skip]

theorem scanValue_obj2 (fuel depth : Nat) (X : GoString) (c1 : Byte) (r1 : GoString)
    (hd : depth < maxNestingDepth) (hs : skipSpace X = c1 :: r1) (hc : c1 ≠ 0x7D) :
    scanValue (fuel + 1) depth (0x7B :: X) = (scanMembers fuel (depth + 1) X).map JSON.obj := by
  rw [scanValue, skipSpace_cons _ _ (by decide)]
  simp only [show ¬ ((0x7B : Byte) = 0x22) by decide, if_false, if_true, hs, hc]
  rw [if_neg (by omega), ← hs, scanMembers_skip]

theorem elements_of_arr {fuel depth : Nat} {X rest : GoString} {w : JSON} {vs : List JSON}
    (h : scanValue (fuel + 1) depth (0x5B :: X) = .ok (.arr (w :: vs)) rest) :
    scanElements fuel (depth + 1) X = .ok (w :: vs) rest := by
  rw [scanValue, skipSpace_cons _ _ (by decide)] at h
  simp only [show ¬ ((0x5B : Byte) = 0x22) by decide, show ¬ ((0x5B : Byte) = 0x7B) by decide,
    if_false, if_true] at h
  by_cases h1 : maxNestingDepth ≤ depth
  · rw [if_pos h1] at h; cases h
  rw [if_neg h1] at h
  cases hs : skipSpace X with
  | nil => rw [hs] at h; cases h
  | cons c1 r1 =>
    rw [hs] at h
    dsimp only at h
    by_cases h2 : c1 = 0x5D
    · rw [if_pos h2] at h; cases h
    rw [if_neg h2] at h
    rw [← scanElements_skip, hs]
    cases hr : scanElements fuel (depth + 1) (c1 :: r1) with
    | ok x y =>
      rw [hr] at h
      simp only [Scan.map, Scan.ok.injEq, JSON.arr.injEq] at h
      rw [h.1, h.2]
    | bad => rw [hr] at h; cases h
    | fuel => rw [hr] at h; cases h

theorem members_of_obj {fuel depth : Nat} {X rest : GoString} {m : GoString × JSON}
    {ms : List (GoString × JSON)}
    (h : scanValue (fuel + 1) depth (0x7B :: X) = .ok (.obj (m :: ms)) rest) :
    scanMembers fuel (depth + 1) X = .ok (m :: ms) rest := by
  rw [scanValue, skipSpace_cons _ _ (by decide)] at h
  simp only [show ¬ ((0x7B : Byte) = 0x22) by decide, if_false, if_true] at h
  by_cases h1 : maxNestingDepth ≤ depth
  · rw [if_pos h1] at h; cases h
  rw [if_neg h1] at h
  cases hs : skipSpace X with
  | nil => rw [hs] at h; cases h
  | cons c1 r1 =>
    rw [hs] at h
    dsimp only at h
    by_cases h2 : c1 = 0x7D
    · rw [if_pos h2] at h; cases h
    rw [if_neg h2] at h
    rw [← scanMembers_skip, hs]
    cases hr : scanMembers fuel (depth + 1) (c1 :: r1) with
    | ok x y =>
      rw [hr] at h
      simp only [Scan.map, Scan.ok.injEq, JSON.obj.injEq] at h
      rw [h.1, h.2]
    | bad => rw [hr] at h; cases h
    | fuel => rw [hr] at h; cases h

theorem scanElements_step (fuel depth : Nat) (X Y Z : GoString) (v : JSON) (c : Byte)
    (hv : scanValue fuel depth X = .ok v Y) (hs : skipSpace Y = c :: Z) :
    scanElements (fuel + 1) depth X
      = if c = 0x5D then .ok [v] Z
        else if c = 0x2C then (scanElements fuel depth Z).map fun vs => v :: vs
        else .bad := by
  rw [scanElements, hv]
  dsimp only
  rw [hs]

theorem scanMembers_step (fuel depth : Nat) (X K Y Z W R : GoString) (k : GoString) (v : JSON)
    (c : Byte) (h1 : skipSpace X = 0x22 :: K) (h2 : scanString 0 K = .ok k Y)
    (h3 : skipSpace Y = 0x3A :: Z) (h4 : scanValue fuel depth Z = .ok v W)
    (h5 : skipSpace W = c :: R) :
    scanMembers (fuel + 1) depth X
      = if c = 0x7D then .ok [(k, v)] R
        else if c = 0x2C then (scanMembers fuel depth R).map fun ms => (k, v) :: ms
        else .bad := by
  rw [scanMembers, h1]
  dsimp only
  rw [if_pos rfl, h2]
  dsimp only
  rw [h3]
  dsimp only
  rw [if_pos rfl, h4]
  dsimp only
  rw [h5]

/-- The scanner is complete for the grammar: it reads every JSON text, at any depth the
nesting limit allows, as the value the text denotes, and leaves what follows it. -/
theorem scanValue_JSONText {n : Nat} {t : GoString} {v : JSON} (h : JSONText n t v) :
    ∀ (fuel depth : Nat) (rest : GoString), depth + n ≤ maxNestingDepth →
      2 * (t ++ rest).length + 1 ≤ fuel →
      (∀ x, v = JSON.num x → endsNumber rest = true) →
      scanValue fuel depth (t ++ rest) = .ok v rest := by
  induction h with
  | litNull n =>
    intro fuel depth rest _ hf _
    obtain ⟨f, rfl⟩ : ∃ f, fuel = f + 1 := ⟨fuel - 1, by omega⟩
    have e : lit "null" = [0x6E, 0x75, 0x6C, 0x6C] := by decide
    have e2 : lit "ull" = [0x75, 0x6C, 0x6C] := by decide
    rw [e]
    simp [scanValue, skipSpace, isSpace, e2, scanWord]
    rfl
  | litTrue n =>
    intro fuel depth rest _ hf _
    obtain ⟨f, rfl⟩ : ∃ f, fuel = f + 1 := ⟨fuel - 1, by omega⟩
    have e : lit "true" = [0x74, 0x72, 0x75, 0x65] := by decide
    have e2 : lit "rue" = [0x72, 0x75, 0x65] := by decide
    rw [e]
    simp [scanValue, skipSpace, isSpace, e2, scanWord]
    rfl
  | litFalse n =>
    intro fuel depth rest _ hf _
    obtain ⟨f, rfl⟩ : ∃ f, fuel = f + 1 := ⟨fuel - 1, by omega⟩
    have e : lit "false" = [0x66, 0x61, 0x6C, 0x73, 0x65] := by decide
    have e2 : lit "alse" = [0x61, 0x6C, 0x73, 0x65] := by decide
    rw [e]
    simp [scanValue, skipSpace, isSpace, e2, scanWord]
    rfl
  | @num n t hn =>
    intro fuel depth rest _ hf hend
    obtain ⟨f, rfl⟩ : ∃ f, fuel = f + 1 := ⟨fuel - 1, by omega⟩
    obtain ⟨c, t0, e, hsp, h5d, h7d⟩ := JSONText_head (JSONText.num n hn)
    obtain ⟨c', t0', e', hc⟩ := NumText_head hn
    have hcc : c' = c := by rw [e] at e'; simp only [List.cons.injEq] at e'; exact e'.1.symm
    subst hcc
    have hnum := scanNumber_NumText hn rest (hend t rfl)
    rw [e] at hnum ⊢
    rw [List.cons_append] at hnum ⊢
    rw [scanValue, skipSpace_cons _ _ hsp]
    have n1 : ¬ c' = 0x22 := by
      rcases hc with h | h <;> intro e0 <;> subst e0
      · exact absurd h (by decide)
      · exact absurd h (by decide)
    have n2 : ¬ c' = 0x7B := by
      rcases hc with h | h <;> intro e0 <;> subst e0
      · exact absurd h (by decide)
      · exact absurd h (by decide)
    have n3 : ¬ c' = 0x5B := by
      rcases hc with h | h <;> intro e0 <;> subst e0
      · exact absurd h (by decide)
      · exact absurd h (by decide)
    have n4 : ¬ c' = 0x74 := by
      rcases hc with h | h <;> intro e0 <;> subst e0
      · exact absurd h (by decide)
      · exact absurd h (by decide)
    have n5 : ¬ c' = 0x66 := by
      rcases hc with h | h <;> intro e0 <;> subst e0
      · exact absurd h (by decide)
      · exact absurd h (by decide)
    have n6 : ¬ c' = 0x6E := by
      rcases hc with h | h <;> intro e0 <;> subst e0
      · exact absurd h (by decide)
      · exact absurd h (by decide)
    simp only [n1, n2, n3, n4, n5, n6, if_false]
    rw [if_pos hc, hnum]
    rfl
  | @str n t s hs =>
    intro fuel depth rest _ hf _
    obtain ⟨f, rfl⟩ : ∃ f, fuel = f + 1 := ⟨fuel - 1, by omega⟩
    rw [List.cons_append, List.append_assoc, List.singleton_append, scanValue,
      skipSpace_cons _ _ (by decide)]
    simp only [if_true]
    rw [scanString_StrBody hs]
    rfl
  | arrNil n a ha =>
    intro fuel depth rest hd hf _
    obtain ⟨f, rfl⟩ : ∃ f, fuel = f + 1 := ⟨fuel - 1, by omega⟩
    rw [List.cons_append, List.append_assoc, List.singleton_append, scanValue,
      skipSpace_cons _ _ (by decide)]
    simp only [show ¬ ((0x5B : Byte) = 0x22) by decide, show ¬ ((0x5B : Byte) = 0x7B) by decide,
      if_false, if_true]
    rw [if_neg (by omega), skipSpace_ws_cons a rest 0x5D ha (by decide)]
    simp only [if_true]
  | @arrOne n a b t v ha hb ht ih =>
    intro fuel depth rest hd hf _
    obtain ⟨c, t0, e, hsp, h5d, h7d⟩ := JSONText_head ht
    simp only [List.cons_append, List.append_assoc, List.singleton_append, List.length_cons,
      List.length_append, List.nil_append, List.length_nil] at hf ⊢
    obtain ⟨f, rfl⟩ : ∃ f, fuel = f + 1 + 1 := ⟨fuel - 2, by omega⟩
    have hs : skipSpace (a ++ (t ++ (b ++ 0x5D :: rest))) = c :: (t0 ++ (b ++ 0x5D :: rest)) := by
      rw [e, List.cons_append]; exact skipSpace_ws_cons a _ c ha hsp
    rw [scanValue_arr (f + 1) depth _ c _ (by omega) hs h5d]
    have hv : scanValue f (depth + 1) (a ++ (t ++ (b ++ 0x5D :: rest)))
        = .ok v (b ++ 0x5D :: rest) := by
      rw [scanValue_ws _ _ a _ ha]
      exact ih f (depth + 1) _ (by omega)
        (by simp only [List.length_append, List.length_cons]; omega)
        (fun _ _ => endsNumber_after b rest 0x5D hb (Or.inr (Or.inl rfl)))
    rw [scanElements_step f (depth + 1) _ _ rest v 0x5D hv
      (skipSpace_ws_cons b rest 0x5D hb (by decide))]
    rfl
  | @arrCons n a b t more v w vs ha hb ht _ ih ih2 =>
    intro fuel depth rest hd hf _
    obtain ⟨c, t0, e, hsp, h5d, h7d⟩ := JSONText_head ht
    simp only [List.cons_append, List.append_assoc, List.length_cons,
      List.length_append] at hf ⊢
    obtain ⟨f, rfl⟩ : ∃ f, fuel = f + 1 + 1 := ⟨fuel - 2, by omega⟩
    have hs : skipSpace (a ++ (t ++ (b ++ 0x2C :: (more ++ rest))))
        = c :: (t0 ++ (b ++ 0x2C :: (more ++ rest))) := by
      rw [e, List.cons_append]; exact skipSpace_ws_cons a _ c ha hsp
    rw [scanValue_arr (f + 1) depth _ c _ (by omega) hs h5d]
    have hv : scanValue f (depth + 1) (a ++ (t ++ (b ++ 0x2C :: (more ++ rest))))
        = .ok v (b ++ 0x2C :: (more ++ rest)) := by
      rw [scanValue_ws _ _ a _ ha]
      exact ih f (depth + 1) _ (by omega)
        (by simp only [List.length_append, List.length_cons]; omega)
        (fun _ _ => endsNumber_after b _ 0x2C hb (Or.inl rfl))
    rw [scanElements_step f (depth + 1) _ _ (more ++ rest) v 0x2C hv
      (skipSpace_ws_cons b _ 0x2C hb (by decide))]
    have h2 : scanElements f (depth + 1) (more ++ rest) = .ok (w :: vs) rest :=
      elements_of_arr (ih2 (f + 1) depth rest hd
      (by simp only [List.cons_append, List.length_append, List.length_cons]; omega)
      (fun _ hx => by cases hx))
    simp only [show ¬ ((0x2C : Byte) = 0x5D) by decide, if_false, if_true]
    rw [h2]
    rfl
  | objNil n a ha =>
    intro fuel depth rest hd hf _
    obtain ⟨f, rfl⟩ : ∃ f, fuel = f + 1 := ⟨fuel - 1, by omega⟩
    rw [List.cons_append, List.append_assoc, List.singleton_append, scanValue,
      skipSpace_cons _ _ (by decide)]
    simp only [show ¬ ((0x7B : Byte) = 0x22) by decide, if_false, if_true]
    rw [if_neg (by omega), skipSpace_ws_cons a rest 0x7D ha (by decide)]
    simp only [if_true]
  | @objOne n a b c d kt k t v ha hb hc hd' hk ht ih =>
    intro fuel depth rest hd hf _
    simp only [List.cons_append, List.append_assoc, List.singleton_append, List.length_cons,
      List.length_append, List.nil_append, List.length_nil] at hf ⊢
    obtain ⟨f, rfl⟩ : ∃ f, fuel = f + 1 + 1 := ⟨fuel - 2, by omega⟩
    have hs := skipSpace_ws_cons a (kt ++ 0x22 :: (b ++ 0x3A :: (c ++ (t ++ (d ++ 0x7D :: rest)))))
      0x22 ha (by decide)
    rw [scanValue_obj2 (f + 1) depth _ 0x22 _ (by omega) hs (by decide)]
    have hv : scanValue f (depth + 1) (c ++ (t ++ (d ++ 0x7D :: rest)))
        = .ok v (d ++ 0x7D :: rest) := by
      rw [scanValue_ws _ _ c _ hc]
      exact ih f (depth + 1) _ (by omega)
        (by simp only [List.length_append, List.length_cons]; omega)
        (fun _ _ => endsNumber_after d rest 0x7D hd' (Or.inr (Or.inr rfl)))
    rw [scanMembers_step f (depth + 1) _ _ _ _ _ rest k v 0x7D hs (scanString_StrBody hk _)
      (skipSpace_ws_cons b _ 0x3A hb (by decide)) hv
      (skipSpace_ws_cons d rest 0x7D hd' (by decide))]
    rfl
  | @objCons n a b c d kt k t more v m ms ha hb hc hd' hk ht _ ih ih2 =>
    intro fuel depth rest hd hf _
    simp only [List.cons_append, List.append_assoc, List.length_cons,
      List.length_append] at hf ⊢
    obtain ⟨f, rfl⟩ : ∃ f, fuel = f + 1 + 1 := ⟨fuel - 2, by omega⟩
    have hs := skipSpace_ws_cons a
      (kt ++ 0x22 :: (b ++ 0x3A :: (c ++ (t ++ (d ++ 0x2C :: (more ++ rest)))))) 0x22 ha
      (by decide)
    rw [scanValue_obj2 (f + 1) depth _ 0x22 _ (by omega) hs (by decide)]
    have hv : scanValue f (depth + 1) (c ++ (t ++ (d ++ 0x2C :: (more ++ rest))))
        = .ok v (d ++ 0x2C :: (more ++ rest)) := by
      rw [scanValue_ws _ _ c _ hc]
      exact ih f (depth + 1) _ (by omega)
        (by simp only [List.length_append, List.length_cons]; omega)
        (fun _ _ => endsNumber_after d _ 0x2C hd' (Or.inl rfl))
    rw [scanMembers_step f (depth + 1) _ _ _ _ _ (more ++ rest) k v 0x2C hs
      (scanString_StrBody hk _) (skipSpace_ws_cons b _ 0x3A hb (by decide)) hv
      (skipSpace_ws_cons d _ 0x2C hd' (by decide))]
    have h2 : scanMembers f (depth + 1) (more ++ rest) = .ok (m :: ms) rest :=
      members_of_obj (ih2 (f + 1) depth rest hd
      (by simp only [List.cons_append, List.length_append, List.length_cons]; omega)
      (fun _ hx => by cases hx))
    simp only [show ¬ ((0x2C : Byte) = 0x7D) by decide, if_false, if_true]
    rw [h2]
    rfl

/-- A body that is a JSON text, after white space and before anything at all, is read by the
decoder as the value the text denotes. -/
theorem readValue_JSONText {n : Nat} {t : GoString} {v : JSON} (h : JSONText n t v)
    (a rest : GoString) (ha : whiteSpace a = true) (hn : n ≤ maxNestingDepth)
    (hend : ∀ x, v = JSON.num x → endsNumber rest = true) :
    readValue (a ++ (t ++ rest)) = .ok v rest := by
  unfold readValue
  rw [scanValue_ws _ _ a _ ha]
  exact scanValue_JSONText h _ 0 rest (by omega)
    (by simp only [List.length_append]; omega) hend

/-- A rune that `DecodeRune` reads from a valid multi-byte sequence is a scalar value outside
ASCII. -/
theorem DecodeRune_scalar (b : Byte) (tl : GoString) (hb : 0x80 ≤ b.val)
    (hv : ¬((DecodeRune (b :: tl)).1 = RuneError ∧ (DecodeRune (b :: tl)).2 = 1)) :
    0x80 ≤ (DecodeRune (b :: tl)).1 ∧ (DecodeRune (b :: tl)).1 ≤ MaxRune
      ∧ isSurrogate (DecodeRune (b :: tl)).1 = false := by
  simp only [MaxRune, isSurrogate, Bool.and_eq_false_iff, decide_eq_false_iff_not]
  rcases DecodeRune_inv_aux b tl hb _ rfl with h | h | h | h
  · exact absurd (by rw [h]; exact ⟨rfl, rfl⟩) hv
  · obtain ⟨lo, hi, b1, tl1, hl, htl, h1, h2, hd⟩ := h
    have hc := leadInfo_cases hl
    rw [hd]
    dsimp only
    omega
  · obtain ⟨lo, hi, b1, b2, tl2, hl, htl, h1, h2, h3, h4, hd⟩ := h
    have hc := leadInfo_cases hl
    rw [hd]
    dsimp only
    omega
  · obtain ⟨lo, hi, b1, b2, b3, tl3, hl, htl, h1, h2, h3, h4, h5, h6, hd⟩ := h
    have hc := leadInfo_cases hl
    rw [hd]
    dsimp only
    omega

theorem hexDigitValue_hexDigit (v : Nat) (h : v < 16) :
    hexDigitValue (hexDigit v) = some v := by
  have : ∀ i : Fin 16, hexDigitValue (hexDigit i.val) = some i.val := by decide
  exact this ⟨v, h⟩

/-- What the encoder writes for an ASCII byte is in the grammar and denotes the byte. -/
theorem StrBody_ascii (b : Byte) (hb : b.val < 0x80) {t s : GoString} (h : StrBody t s) :
    StrBody ((if htmlSafeSet b.val then [b] else escapeByte b) ++ t) (b :: s) := by
  by_cases hs : htmlSafeSet b.val = true
  · rw [if_pos hs]
    simp only [htmlSafeSet, Bool.and_eq_true, decide_eq_true_eq, bne_iff_ne, ne_eq] at hs
    have h22 : b ≠ 0x22 := fun e => hs.1.1.1.1.2 (by rw [e]; rfl)
    have h5c : b ≠ 0x5C := fun e => hs.1.1.1.2 (by rw [e]; rfl)
    exact StrBody.ascii b hs.1.1.1.1.1.1 hb h22 h5c h
  · rw [if_neg hs]
    unfold escapeByte
    by_cases h1 : b = 0x5C ∨ b = 0x22
    · rw [if_pos h1]
      rcases h1 with h1 | h1 <;> subst h1
      · exact StrBody.escape 0x5C 0x5C (by decide) h
      · exact StrBody.escape 0x22 0x22 (by decide) h
    rw [if_neg h1]
    by_cases h2 : b = 0x08
    · subst h2; exact StrBody.escape 0x62 0x08 (by decide) h
    rw [if_neg h2]
    by_cases h3 : b = 0x0C
    · subst h3; exact StrBody.escape 0x66 0x0C (by decide) h
    rw [if_neg h3]
    by_cases h4 : b = 0x0A
    · subst h4; exact StrBody.escape 0x6E 0x0A (by decide) h
    rw [if_neg h4]
    by_cases h5 : b = 0x0D
    · subst h5; exact StrBody.escape 0x72 0x0D (by decide) h
    rw [if_neg h5]
    by_cases h6 : b = 0x09
    · subst h6; exact StrBody.escape 0x74 0x09 (by decide) h
    rw [if_neg h6]
    have hl : lit "\\u00" = [0x5C, 0x75, 0x30, 0x30] := by decide
    have hx1 := hexDigitValue_hexDigit (b.val / 16) (by omega)
    have hx2 := hexDigitValue_hexDigit (b.val % 16) (by omega)
    have hx0 : hexDigitValue 0x30 = some 0 := by decide
    have hcu : codeUnit 0x30 0x30 (hexDigit (b.val / 16)) (hexDigit (b.val % 16))
        = some b.val := by
      simp only [codeUnit, hx0, hx1, hx2, Option.some.injEq]
      omega
    have hsur : isSurrogate b.val = false := by simp [isSurrogate]; omega
    have henc : EncodeRune b.val = [b] := by
      unfold EncodeRune
      rw [if_pos hb, Fin_ofNat_val]
    have := StrBody.unicode 0x30 0x30 (hexDigit (b.val / 16)) (hexDigit (b.val % 16)) b.val
      hcu hsur h
    rw [henc] at this
    rw [hl]
    exact this

/-- What the encoder writes between the quotes for a valid UTF-8 string is in the grammar and
denotes that string. -/
theorem StrBody_appendStringFrom (n : Nat) : ∀ (s : GoString), s.length ≤ n →
    validFrom 0 s = true → StrBody (appendStringFrom 0 true s) s := by
  induction n with
  | zero =>
    intro s hs _
    have : s = [] := List.length_eq_zero.1 (by omega)
    subst this
    simp only [appendStringFrom]
    exact StrBody.nil
  | succ n ih =>
    intro s hs hv
    cases s with
    | nil => simp only [appendStringFrom]; exact StrBody.nil
    | cons b tl =>
      have hlen : tl.length ≤ n := by simpa using hs
      by_cases hb : b.val < 0x80
      · have hd : DecodeRune (b :: tl) = (b.val, 1) := by
          unfold DecodeRune; dsimp only; rw [if_pos hb]
        have hv' : validFrom 0 tl = true := by
          rw [validFrom] at hv
          simp only [hd] at hv
          rw [if_neg (by simp [RuneError]; omega)] at hv
          simpa using hv
        rw [appendStringFrom]
        simp only [hb, if_true]
        exact StrBody_ascii b hb (ih tl hlen hv')
      · have hb' : 0x80 ≤ b.val := by omega
        rw [validFrom] at hv
        by_cases he : (DecodeRune (b :: tl)).1 = RuneError ∧ (DecodeRune (b :: tl)).2 = 1
        · rw [if_pos he] at hv; exact absurd hv (by simp)
        rw [if_neg he] at hv
        obtain ⟨chunk, rest', htl, hsz, henc, hpre⟩ := DecodeRune_valid b tl hb' he
        obtain ⟨r1, r2, r3⟩ := DecodeRune_scalar b tl hb' he
        subst htl
        have hsz' : (DecodeRune (b :: (chunk ++ rest'))).2 - 1 = chunk.length := by omega
        rw [hsz', validFrom_skip] at hv
        have hlen' : rest'.length ≤ n := by
          simp at hlen; omega
        have ih' := ih rest' hlen' hv
        rw [appendStringFrom]
        simp only [hb, if_false, he]
        generalize hdd : DecodeRune (b :: (chunk ++ rest')) = d at *
        by_cases hls : d.1 = 0x2028 ∨ d.1 = 0x2029
        · rw [if_pos hls, hsz', appendStringFrom_drop]
          have hl : lit "\\u202" = [0x5C, 0x75, 0x32, 0x30, 0x32] := by decide
          have hcu : codeUnit 0x32 0x30 0x32 (hexDigit (d.1 % 16)) = some d.1 := by
            rcases hls with h | h <;> rw [h] <;> decide
          have := StrBody.unicode 0x32 0x30 0x32 (hexDigit (d.1 % 16)) d.1 hcu r3 ih'
          rw [henc] at this
          rw [hl]
          exact this
        · rw [if_neg hls, hsz', appendStringFrom_copy]
          have := StrBody.rune d.1 r1 r2 r3 ih'
          rw [henc] at this
          exact this

theorem StrBody_appendString (s : GoString) (hv : utf8Valid s = true) :
    StrBody (appendStringFrom 0 true s) s :=
  StrBody_appendStringFrom s.length s (le_refl _) hv

/-- The string literal the encoder writes for a valid UTF-8 string denotes that string. -/
theorem JSONText_appendString (n : Nat) (s : GoString) (hv : utf8Valid s = true) :
    JSONText n (appendString s) (JSON.str s) := by
  have := JSONText.str n (StrBody_appendString s hv)
  simpa [appendString] using this

/-- Printable ASCII without quotes and backslashes denotes itself. -/
theorem StrBody_plain (s : GoString)
    (h : ∀ c ∈ s, 0x20 ≤ c.val ∧ c.val < 0x80 ∧ c ≠ 0x22 ∧ c ≠ 0x5C) : StrBody s s := by
  induction s with
  | nil => exact StrBody.nil
  | cons c s ih =>
    obtain ⟨h1, h2, h3, h4⟩ := h c (List.mem_cons_self _ _)
    exact StrBody.ascii c h1 h2 h3 h4 (ih fun x hx => h x (List.mem_cons_of_mem _ hx))

set_option maxRecDepth 100000 in
/-- What `json.Marshal` writes for a payload of valid UTF-8 strings is the JSON text of the
object with exactly the members `project` and `bom`, in this order. -/
theorem JSONText_marshalPayload (p q : GoString) (hp : utf8Valid p = true)
    (hq : utf8Valid q = true) :
    JSONText 1 (marshalPayload ⟨p, q⟩)
      (JSON.obj [(lit "project", JSON.str p), (lit "bom", JSON.str q)]) := by
  have l1 : lit "\x7b\"project\":" = 0x7B :: 0x22 :: (lit "project" ++ [0x22, 0x3A]) := by
    decide
  have l2 : lit ",\"bom\":" = 0x2C :: 0x22 :: (lit "bom" ++ [0x22, 0x3A]) := by decide
  have l3 : lit "\x7d" = [0x7D] := by decide
  have k1 : StrBody (lit "project") (lit "project") := StrBody_plain _ (by decide)
  have k2 : StrBody (lit "bom") (lit "bom") := StrBody_plain _ (by decide)
  have h2 := JSONText.objOne 0 [] [] [] [] rfl rfl rfl rfl k2 (JSONText_appendString 0 q hq)
  have h1 := JSONText.objCons 0 [] [] [] [] rfl rfl rfl rfl k1 (JSONText_appendString 0 p hp) h2
  convert h1 using 1
  unfold marshalPayload
  rw [l1, l2, l3]
  simp only [List.nil_append, List.cons_append, List.append_assoc, List.singleton_append]

/-! ## The upload body (C3) -/

theorem EncodeToString_all (P : Byte → Prop) (h64 : ∀ i : Nat, i < 64 → P (b64Char i))
    (hpad : P StdPadding) (b : List Byte) : ∀ c ∈ EncodeToString b, P c := by
  intro c hc'
  induction b using EncodeToString.induct with
  | case1 b0 b1 b2 rest ih =>
    simp only [EncodeToString, List.mem_cons] at hc'
    rcases hc' with h | h | h | h | h
    · subst h; exact h64 _ (by omega)
    · subst h; exact h64 _ (by omega)
    · subst h; exact h64 _ (by omega)
    · subst h; exact h64 _ (by omega)
    · exact ih h
  | case2 b0 b1 =>
    simp only [EncodeToString, List.mem_cons, List.mem_singleton] at hc'
    rcases hc' with h | h | h | h | h
    · subst h; exact h64 _ (by omega)
    · subst h; exact h64 _ (by omega)
    · subst h; exact h64 _ (by omega)
    · subst h; exact hpad
    · simp at h
  | case3 b0 =>
    simp only [EncodeToString, List.mem_cons, List.mem_singleton] at hc'
    rcases hc' with h | h | h | h | h
    · subst h; exact h64 _ (by omega)
    · subst h; exact h64 _ (by omega)
    · subst h; exact hpad
    · subst h; exact hpad
    · simp at h
  | case4 => simp [EncodeToString] at hc'

/-- The base64 text has four characters for every three bytes, the last group padded. -/
theorem EncodeToString_length (b : List Byte) :
    (EncodeToString b).length = 4 * ((b.length + 2) / 3) := by
  induction b using EncodeToString.induct with
  | case1 b0 b1 b2 rest ih =>
    simp only [EncodeToString, List.length_cons, ih]
    omega
  | case2 b0 b1 => simp [EncodeToString]
  | case3 b0 => simp [EncodeToString]
  | case4 => rfl

/-- A string of bytes of `htmlSafeSet` is written as it is. -/
theorem appendStringFrom_safe (s : GoString) (h : ∀ c ∈ s, htmlSafeSet c.val = true) :
    appendStringFrom 0 true s = s := by
  induction s with
  | nil => simp only [appendStringFrom]
  | cons c s ih =>
    have hc := h c (List.mem_cons_self _ _)
    have hlt : c.val < 0x80 := by
      simp only [htmlSafeSet, Bool.and_eq_true, decide_eq_true_eq] at hc
      exact hc.1.1.1.1.1.2
    rw [appendStringFrom]
    simp only [hlt, if_true, hc, List.singleton_append,
      ih fun x hx => h x (List.mem_cons_of_mem _ hx)]

/-- The base64 text needs no escaping: the encoder writes it between quotes as it is. -/
theorem appendString_EncodeToString (b : List Byte) :
    appendString (EncodeToString b) = 0x22 :: (EncodeToString b ++ [0x22]) := by
  have h64 : ∀ i : Nat, i < 64 → htmlSafeSet (b64Char i).val = true := by
    intro i hi
    have : ∀ i : Fin 64, htmlSafeSet (b64Char i.val).val = true := by decide
    exact this ⟨i, hi⟩
  unfold appendString
  rw [appendStringFrom_safe _
    (EncodeToString_all (fun c => htmlSafeSet c.val = true) h64 (by decide) b)]
  rfl

/-- C3 (as amended): for a readable file with bytes `b` and a project id `p` that is valid
UTF-8, the body of the request `Upload` sends is the JSON text of an object with exactly the
two members `project` and `bom`, in this order and with nothing after it: `project` holds
the string `p` and `bom` the padded standard base64 text of `b`, which base64-decodes to
exactly `b`. The decoder reads the body as that object, and decoding it into a `Payload`
gives back `p` and the base64 text with a `nil` error. -/
theorem upload_body_roundtrip (w : World) (c : ApiClient) (f p : GoString) (b : List Byte)
    (req : Request) (hp : utf8Valid p = true) (hb : w.readFile f = .ok b)
    (hs : Event.send req ∈ (Upload w c f p).trace) :
    ∃ body payload, req.Body = some body
      ∧ Decode storePayload body ⟨[], []⟩ = (payload, none)
      ∧ payload.Project = p ∧ payload.Bom = EncodeToString b
      ∧ DecodeString payload.Bom = some b
      ∧ JSONText 1 body
          (JSON.obj [(lit "project", JSON.str p), (lit "bom", JSON.str (EncodeToString b))])
      ∧ readValue body
          = .ok (JSON.obj [(lit "project", JSON.str p), (lit "bom", JSON.str (EncodeToString b))])
              []
      ∧ body = lit "\x7b\"project\":" ++ appendString p ++ lit ",\"bom\":\""
          ++ EncodeToString b ++ lit "\"\x7d"
      ∧ (EncodeToString b).length = 4 * ((b.length + 2) / 3) := by
  obtain ⟨b', hb', -, hreq⟩ := Upload_send hs
  rw [hb] at hb'
  cases hb'
  subst hreq
  have hq := utf8Valid_of_ascii _ (EncodeToString_ascii b)
  have hv := readValue_marshalPayload p _ hp hq
  refine ⟨_, ⟨p, EncodeToString b⟩, rfl, ?_, rfl, rfl, DecodeString_EncodeToString b,
    JSONText_marshalPayload p _ hp hq, hv, ?_, EncodeToString_length b⟩
  · unfold Decode
    rw [hv]
    exact storePayload_obj p _
  · have l2 : lit ",\"bom\":\"" = lit ",\"bom\":" ++ [0x22] := by decide
    have l3 : lit "\"\x7d" = 0x22 :: lit "\x7d" := by decide
    unfold marshalPayload
    rw [appendString_EncodeToString, l2, l3]
    simp only [List.append_assoc, List.cons_append, List.singleton_append, List.nil_append]

theorem upload_body_roundtrip_witness :
    ∃ body payload,
      (some (marshalPayload ⟨lit "proj-é<1>", EncodeToString (lit "<bom/>")⟩) : Option GoString)
          = some body
      ∧ Decode storePayload body ⟨[], []⟩ = (payload, none)
      ∧ payload.Project = lit "proj-é<1>" ∧ payload.Bom = EncodeToString (lit "<bom/>")
      ∧ DecodeString payload.Bom = some (lit "<bom/>")
      ∧ JSONText 1 body
          (JSON.obj [(lit "project", JSON.str (lit "proj-é<1>")),
            (lit "bom", JSON.str (EncodeToString (lit "<bom/>")))])
      ∧ readValue body
          = .ok (JSON.obj [(lit "project", JSON.str (lit "proj-é<1>")),
              (lit "bom", JSON.str (EncodeToString (lit "<bom/>")))]) []
      ∧ body = lit "\x7b\"project\":" ++ appendString (lit "proj-é<1>") ++ lit ",\"bom\":\""
          ++ EncodeToString (lit "<bom/>") ++ lit "\"\x7d"
      ∧ (EncodeToString (lit "<bom/>")).length = 4 * (((lit "<bom/>").length + 2) / 3) :=
  upload_body_roundtrip (stubWorld (lit "<bom/>") (.ok ⟨200, lit "\x7b\x7d"⟩))
    ⟨lit "k", lit "http://x"⟩ (lit "bom.xml") (lit "proj-é<1>") (lit "<bom/>")
    { Method := lit "PUT", URL := lit "http://x/api/v1/bom",
      Header := [(lit "X-Api-Key", lit "k"), (lit "Content-Type", lit "application/json")],
      Body := some (marshalPayload ⟨lit "proj-é<1>", EncodeToString (lit "<bom/>")⟩) }
    (by decide) rfl (by decide)

set_option maxRecDepth 100000 in
/-- C3 (as stated, refuted): with the project id `"\xff"`, which is not valid UTF-8, the body
`Upload` sends is `{"project":"\ufffd","bom":"PGJvbS8+"}`; decoded as JSON its `project` is
U+FFFD (bytes `EF BF BD`), not the id given. -/
theorem upload_project_not_verbatim :
    Event.send
        { Method := lit "PUT", URL := lit "http://x/api/v1/bom",
          Header := [(lit "X-Api-Key", lit "k"), (lit "Content-Type", lit "application/json")],
          Body := some (lit "\x7b\"project\":\"\\ufffd\",\"bom\":\"PGJvbS8+\"\x7d") }
      ∈ (Upload (stubWorld (lit "<bom/>") (.ok ⟨200, lit "\x7b\"token\":\"abc\"\x7d"⟩))
          ⟨lit "k", lit "http://x"⟩ (lit "bom.xml") [0xFF]).trace
    ∧ Decode storePayload (lit "\x7b\"project\":\"\\ufffd\",\"bom\":\"PGJvbS8+\"\x7d") ⟨[], []⟩
        = (⟨[0xEF, 0xBF, 0xBD], lit "PGJvbS8+"⟩, none)
    ∧ (Decode storePayload (lit "\x7b\"project\":\"\\ufffd\",\"bom\":\"PGJvbS8+\"\x7d")
        ⟨[], []⟩).1.Project ≠ [0xFF]
    ∧ ¬ ∀ (w : World) (c : ApiClient) (f p : GoString) (b : List Byte) (req : Request),
        w.readFile f = .ok b → Event.send req ∈ (Upload w c f p).trace →
        ∃ body payload, req.Body = some body
          ∧ Decode storePayload body ⟨[], []⟩ = (payload, none)
          ∧ payload.Project = p ∧ payload.Bom = EncodeToString b
          ∧ DecodeString payload.Bom = some b := by
  refine ⟨by decide, by decide, by decide, fun h => ?_⟩
  obtain ⟨body, payload, hbody, hdec, hproj, -, -⟩ :=
    h (stubWorld (lit "<bom/>") (.ok ⟨200, lit "\x7b\"token\":\"abc\"\x7d"⟩))
      ⟨lit "k", lit "http://x"⟩ (lit "bom.xml") [0xFF] (lit "<bom/>")
      { Method := lit "PUT", URL := lit "http://x/api/v1/bom",
        Header := [(lit "X-Api-Key", lit "k"), (lit "Content-Type", lit "application/json")],
        Body := some (lit "\x7b\"project\":\"\\ufffd\",\"bom\":\"PGJvbS8+\"\x7d") }
      rfl (by decide)
  have hb : body = lit "\x7b\"project\":\"\\ufffd\",\"bom\":\"PGJvbS8+\"\x7d" :=
    (Option.some.inj hbody).symm
  subst hb
  have hd : Decode storePayload (lit "\x7b\"project\":\"\\ufffd\",\"bom\":\"PGJvbS8+\"\x7d")
      ⟨[], []⟩ = (⟨[0xEF, 0xBF, 0xBD], lit "PGJvbS8+"⟩, none) := by decide
  rw [hd] at hdec
  have hp : payload = ⟨[0xEF, 0xBF, 0xBD], lit "PGJvbS8+"⟩ := (Prod.mk.inj hdec).1.symm
  rw [hp] at hproj
  exact absurd hproj (by decide)

/-! ## The upload response (C7) -/

/-- The token object as a compact JSON text is read back. -/
theorem readValue_token (t : GoString) (ht : utf8Valid t = true) :
    readValue (lit "\x7b\"token\":" ++ appendString t ++ lit "\x7d")
      = .ok (.obj [(lit "token", .str t)]) [] := by
  have h1 : lit "\x7b\"token\":" = 0x7B :: (appendString (lit "token") ++ [0x3A]) := by decide
  have h3 : lit "\x7d" = [0x7D] := by decide
  have hk1 : utf8Valid (lit "token") = true := by decide
  have hbody : lit "\x7b\"token\":" ++ appendString t ++ lit "\x7d"
      = 0x7B :: (appendString (lit "token") ++ 0x3A :: (appendString t ++ 0x7D :: [])) := by
    rw [h1, h3]
    simp only [List.cons_append, List.append_assoc, List.singleton_append, List.nil_append]
  unfold readValue
  rw [hbody]
  obtain ⟨f, hf⟩ : ∃ f, 2 * (0x7B :: (appendString (lit "token") ++ 0x3A :: (appendString t
      ++ 0x7D :: []))).length + 1 = f + 3 := by
    refine ⟨2 * (0x7B :: (appendString (lit "token") ++ 0x3A :: (appendString t
      ++ 0x7D :: []))).length - 2, ?_⟩
    simp only [List.length_cons, List.length_append, appendString]
    omega
  rw [hf, scanValue_obj (f + 2) 0 _ _ (by decide), scanMembers_last f 1 _ _ _ hk1 ht]
  rfl

theorem storeUploadResult_token (t : GoString) :
    storeUploadResult (.obj [(lit "token", .str t)]) {} none = ({ Token := t }, none) := by
  rfl

/-- C7: when the file is readable and the server answers the upload with status 200 and a
JSON body that is the object `{"token": t}`, `Upload` returns `UploadResult{Token: t}` and a
`nil` error: for every body the decoder reads as that object, in particular for the compact
text of the object for any valid UTF-8 `t`, and for `{"token":"abc"}`, which gives the token
`abc`. -/
theorem upload_returns_token (w : World) (c : ApiClient) (f p t body rest : GoString)
    (req : Request) (hs : Event.send req ∈ (Upload w c f p).trace) :
    (w.roundTrip req = .ok ⟨200, body⟩ →
        readValue body = .ok (.obj [(lit "token", .str t)]) rest →
        (Upload w c f p).outcome = .returned { Token := t } none)
    ∧ (utf8Valid t = true →
        w.roundTrip req = .ok ⟨200, lit "\x7b\"token\":" ++ appendString t ++ lit "\x7d"⟩ →
        (Upload w c f p).outcome = .returned { Token := t } none)
    ∧ (w.roundTrip req = .ok ⟨200, lit "\x7b\"token\":\"abc\"\x7d"⟩ →
        (Upload w c f p).outcome = .returned { Token := lit "abc" } none) := by
  obtain ⟨pre, -, hrun⟩ := Upload_of_send hs
  have h200 : checkRespStatusCode 200 = none := checkRespStatusCode_eq_none (by decide)
  have key : ∀ body', w.roundTrip req = .ok ⟨200, body'⟩ →
      ∀ t' rest', readValue body' = .ok (.obj [(lit "token", .str t')]) rest' →
      (Upload w c f p).outcome = .returned { Token := t' } none := by
    intro body' hr t' rest' hv
    rw [hrun, hr]
    simp only [h200]
    unfold Decode
    rw [hv]
    simp only [storeUploadResult_token]
  refine ⟨fun hr hv => key body hr t rest hv, fun ht hr => key _ hr t [] (readValue_token t ht),
    fun hr => ?_⟩
  have habc : lit "\x7b\"token\":\"abc\"\x7d"
      = lit "\x7b\"token\":" ++ appendString (lit "abc") ++ lit "\x7d" := by decide
  rw [habc] at hr
  exact key _ hr (lit "abc") [] (readValue_token _ (by decide))

theorem upload_returns_token_witness :
    (Upload (stubWorld (lit "<bom/>") (.ok ⟨200, lit " \x7b \"token\" : \"a\\u00e9\" \x7d\n"⟩))
        ⟨lit "k", lit "http://x"⟩ (lit "bom.xml") (lit "p")).outcome
      = .returned { Token := lit "aé" } none :=
  (upload_returns_token (stubWorld (lit "<bom/>") (.ok ⟨200, lit " \x7b \"token\" : \"a\\u00e9\" \x7d\n"⟩))
    ⟨lit "k", lit "http://x"⟩ (lit "bom.xml") (lit "p") (lit "aé")
    (lit " \x7b \"token\" : \"a\\u00e9\" \x7d\n") (lit "\n")
    { Method := lit "PUT", URL := lit "http://x/api/v1/bom",
      Header := [(lit "X-Api-Key", lit "k"), (lit "Content-Type", lit "application/json")],
      Body := some (marshalPayload ⟨lit "p", EncodeToString (lit "<bom/>")⟩) }
    (by decide)).1 rfl rfl

/-! ## Storing a findings response (C8) -/

/-- With plain keys the field of a key is the field of exactly that name. -/
theorem findField_plain {α : Type} (fields : List (Field α)) (k : GoString)
    (h : (fields.map (·.name)).contains k = true
      ∨ ∀ n ∈ fields.map (·.name), foldName n ≠ foldName k) :
    findField fields k = fields.find? fun f => f.name = k := by
  unfold findField
  cases hf : fields.find? (fun f => decide (f.name = k)) with
  | some f => rfl
  | none =>
    dsimp only
    rw [List.find?_eq_none] at hf
    have hk : ∀ n ∈ fields.map (·.name), foldName n ≠ foldName k := by
      rcases h with h | h
      · rw [List.contains_iff_exists_mem_beq] at h
        obtain ⟨n, hn, hnk⟩ := h
        obtain ⟨f, hfm, hfn⟩ := List.mem_map.1 hn
        have := hf f hfm
        simp at hnk this
        exact absurd (hfn.trans hnk.symm) this
      · exact h
    rw [List.find?_eq_none]
    intro f hfm
    have := hk f.name (List.mem_map.2 ⟨f, hfm, rfl⟩)
    simpa using this

/-- The step of `storeStruct` on one member. -/
theorem storeStruct_obj {α : Type} (typeName : GoString) (fields : List (Field α))
    (ms : List (GoString × JSON)) (t : α) (sv : Option GoError) :
    storeStruct typeName fields (.obj ms) t sv
      = ms.foldl (fun acc m =>
          match findField fields m.1 with
          | some f => f.store m.2 acc.1 acc.2
          | none => acc) (t, sv) := rfl

/-- Plain keys, spelled out. -/
theorem plainKeys_cons {names : List GoString} {k : GoString} {v : JSON}
    {ms : List (GoString × JSON)} (h : plainKeys names ((k, v) :: ms) = true) :
    k ∉ ms.map Prod.fst ∧ plainKeys names ms = true
      ∧ (names.contains k = true ∨ ∀ n ∈ names, foldName n ≠ foldName k) := by
  simp only [plainKeys, List.map_cons, List.nodup_cons, Bool.and_eq_true, decide_eq_true_eq,
    List.all_cons, Bool.or_eq_true, List.all_eq_true, bne_iff_ne, ne_eq] at h
  refine ⟨h.1.1, ?_, h.2.1⟩
  simp only [plainKeys, Bool.and_eq_true, decide_eq_true_eq, List.all_eq_true, Bool.or_eq_true,
    bne_iff_ne, ne_eq]
  exact ⟨h.1.2, h.2.2⟩

theorem lookup_of_not_mem (k : GoString) (ms : List (GoString × JSON))
    (h : k ∉ ms.map Prod.fst) : ms.lookup k = none := by
  induction ms with
  | nil => rfl
  | cons m tl ih =>
    obtain ⟨k', v⟩ := m
    simp only [List.map_cons, List.mem_cons, not_or] at h
    have : (k == k') = false := by simpa using h.1
    simp [List.lookup, this, ih h.2]

/-- The value of one field after `storeStruct` has stored an object of plain keys: what the
field's own store makes of the member under the field's name, if there is one. -/
theorem storeStruct_get {α β : Type} (fields : List (Field α)) (name : GoString)
    (get : α → β) (st : Store β)
    (hname : (fields.map (·.name)).contains name = true)
    (hget : ∀ f ∈ fields, ∀ v t sv,
      (f.name = name → get (f.store v t sv).1 = (st v (get t) none).1)
      ∧ (f.name ≠ name → get (f.store v t sv).1 = get t))
    (ms : List (GoString × JSON)) :
    plainKeys (fields.map (·.name)) ms = true → ∀ (t : α) (sv : Option GoError),
    get (ms.foldl (fun acc m =>
          match findField fields m.1 with
          | some f => f.store m.2 acc.1 acc.2
          | none => acc) (t, sv)).1
      = match ms.lookup name with
        | some v => (st v (get t) none).1
        | none => get t := by
  induction ms with
  | nil => intro _ t sv; rfl
  | cons m tl ih =>
    obtain ⟨k, v⟩ := m
    intro hp t sv
    obtain ⟨hk, hp', hplain⟩ := plainKeys_cons hp
    rw [List.foldl_cons]
    dsimp only
    rw [findField_plain fields k hplain]
    cases hf : fields.find? (fun f => decide (f.name = k)) with
    | none =>
      dsimp only
      rw [ih hp' t sv]
      have hne : (name == k) = false := by
        rw [List.find?_eq_none] at hf
        rw [List.contains_iff_exists_mem_beq] at hname
        obtain ⟨n, hn, hnk⟩ := hname
        obtain ⟨f, hfm, hfn⟩ := List.mem_map.1 hn
        have := hf f hfm
        simp at hnk this
        simp
        intro e
        exact this (by rw [hfn, ← hnk, e])
      simp [List.lookup, hne]
    | some f =>
      dsimp only
      have hfm : f ∈ fields := List.mem_of_find?_eq_some hf
      have hfk : f.name = k := by simpa using List.find?_some hf
      rw [ih hp' (f.store v t sv).1 (f.store v t sv).2]
      by_cases e : name = k
      · subst e
        rw [lookup_of_not_mem _ tl hk]
        simp [List.lookup, (hget f hfm v t sv).1 hfk]
      · have hne : (name == k) = false := by simpa using e
        have hfn : f.name ≠ name := fun h => e (h.symm.trans hfk)
        simp only [List.lookup, hne]
        rw [(hget f hfm v t sv).2 hfn]

theorem storeString_indep (v : JSON) (t : GoString) (sv : Option GoError) :
    (storeString v t sv).1 = (storeString v t none).1 := by
  cases v <;> rfl

theorem storeString_zero (v : JSON) :
    (storeString v [] none).1 = (match v with | .str s => s | _ => []) := by
  cases v <;> rfl

theorem storeString_saved (v : JSON) (t : GoString) (sv : Option GoError)
    (h : isStringOrNull v = true) : (storeString v t sv).2 = sv := by
  cases v <;> first | rfl | simp [isStringOrNull] at h

/-- The saved error is untouched when every member that names a field is stored without
error. -/
theorem storeStruct_saved {α : Type} (fields : List (Field α)) (ms : List (GoString × JSON))
    (h : ∀ m ∈ ms, ∀ f, findField fields m.1 = some f → ∀ t sv, (f.store m.2 t sv).2 = sv) :
    ∀ (t : α) (sv : Option GoError),
    (ms.foldl (fun acc m =>
          match findField fields m.1 with
          | some f => f.store m.2 acc.1 acc.2
          | none => acc) (t, sv)).2 = sv := by
  induction ms with
  | nil => intro t sv; rfl
  | cons m tl ih =>
    intro t sv
    rw [List.foldl_cons]
    cases hf : findField fields m.1 with
    | none =>
      dsimp only
      exact ih (fun m' hm' => h m' (List.mem_cons_of_mem _ hm')) t sv
    | some f =>
      dsimp only
      rw [ih (fun m' hm' => h m' (List.mem_cons_of_mem _ hm'))]
      exact h m (List.mem_cons_self _ _) f hf t sv

theorem findField_name {α : Type} {fields : List (Field α)} {k : GoString} {f : Field α}
    (hplain : (fields.map (·.name)).contains k = true
      ∨ ∀ n ∈ fields.map (·.name), foldName n ≠ foldName k)
    (h : findField fields k = some f) : f ∈ fields ∧ f.name = k := by
  rw [findField_plain fields k hplain] at h
  exact ⟨List.mem_of_find?_eq_some h, by simpa using List.find?_some h⟩

theorem plainKeys_mem {names : List GoString} {ms : List (GoString × JSON)}
    (h : plainKeys names ms = true) {m : GoString × JSON} (hm : m ∈ ms) :
    names.contains m.1 = true ∨ ∀ n ∈ names, foldName n ≠ foldName m.1 := by
  simp only [plainKeys, Bool.and_eq_true, decide_eq_true_eq, List.all_eq_true, Bool.or_eq_true,
    bne_iff_ne, ne_eq] at h
  exact h.2 m hm

/-- A struct of string fields: objects of plain keys with strings under the names are stored
without error. -/
theorem stringMembers_saved {α : Type} (fields : List (Field α)) (ms : List (GoString × JSON))
    (hfields : ∀ f ∈ fields, ∀ v t sv, isStringOrNull v = true → (f.store v t sv).2 = sv)
    (h : stringMembers (fields.map (·.name)) ms = true) (t : α) (sv : Option GoError) :
    (ms.foldl (fun acc m =>
          match findField fields m.1 with
          | some f => f.store m.2 acc.1 acc.2
          | none => acc) (t, sv)).2 = sv := by
  simp only [stringMembers, Bool.and_eq_true, List.all_eq_true, Bool.or_eq_true,
    Bool.not_eq_true'] at h
  apply storeStruct_saved
  intro m hm f hf t sv
  obtain ⟨hfm, hfn⟩ := findField_name (plainKeys_mem h.1 hm) hf
  have hc : (fields.map (·.name)).contains m.1 = true := by
    rw [List.contains_iff_exists_mem_beq]
    exact ⟨f.name, List.mem_map.2 ⟨f, hfm, rfl⟩, by simp [hfn]⟩
  rcases h.2 m hm with h' | h'
  · rw [hc] at h'; exact absurd h' (by simp)
  · exact hfields f hfm m.2 t sv h'

theorem stringAt_eq (cs : List (GoString × JSON)) (key : GoString) :
    (match cs.lookup key with
      | some v => (storeString v [] none).1
      | none => []) = stringAt cs key := by
  unfold stringAt
  cases cs.lookup key with
  | none => rfl
  | some v => cases v <;> rfl

theorem storeComponent_obj (cs : List (GoString × JSON))
    (h : stringMembers componentNames cs = true) :
    storeStruct (lit "dtrack.Component") componentFields (.obj cs) {} none
      = ({ Uuid := stringAt cs (lit "uuid"), Name := stringAt cs (lit "name"), Version := stringAt cs (lit "version") }, none) := by
  have hn : componentFields.map (·.name) = componentNames := by decide
  have hp : plainKeys (componentFields.map (·.name)) cs = true := by
    rw [hn]; simp only [stringMembers, Bool.and_eq_true] at h; exact h.1
  rw [storeStruct_obj]
  refine Prod.ext ?_ ?_
  · have h1 := storeStruct_get componentFields (lit "uuid") (·.Uuid) storeString
      (by decide)
      (by
        intro f hf v t sv
        simp only [componentFields, List.mem_cons, List.mem_singleton, List.not_mem_nil,
          or_false] at hf
        rcases hf with rfl | rfl | rfl <;> refine ⟨fun hh => ?_, fun hh => ?_⟩ <;>
          first
          | exact storeString_indep _ _ _
          | rfl
          | exact absurd hh (by decide)) cs hp {} none
    have h2 := storeStruct_get componentFields (lit "name") (·.Name) storeString
      (by decide)
      (by
        intro f hf v t sv
        simp only [componentFields, List.mem_cons, List.mem_singleton, List.not_mem_nil,
          or_false] at hf
        rcases hf with rfl | rfl | rfl <;> refine ⟨fun hh => ?_, fun hh => ?_⟩ <;>
          first
          | exact storeString_indep _ _ _
          | rfl
          | exact absurd hh (by decide)) cs hp {} none
    have h3 := storeStruct_get componentFields (lit "version") (·.Version) storeString
      (by decide)
      (by
        intro f hf v t sv
        simp only [componentFields, List.mem_cons, List.mem_singleton, List.not_mem_nil,
          or_false] at hf
        rcases hf with rfl | rfl | rfl <;> refine ⟨fun hh => ?_, fun hh => ?_⟩ <;>
          first
          | exact storeString_indep _ _ _
          | rfl
          | exact absurd hh (by decide)) cs hp {} none
    rw [stringAt_eq] at h1 h2 h3
    generalize List.foldl _ _ cs = r at h1 h2 h3 ⊢
    obtain ⟨⟨x1, x2, x3⟩, e⟩ := r
    simp only at h1 h2 h3
    simp only [h1, h2, h3]
  · apply stringMembers_saved componentFields cs _ (by rw [hn]; exact h)
    intro f hf v t sv hv
    simp only [componentFields, List.mem_cons, List.mem_singleton, List.not_mem_nil,
      or_false] at hf
    rcases hf with rfl | rfl | rfl <;> exact storeString_saved _ _ _ hv

theorem storeVulnerability_obj (cs : List (GoString × JSON))
    (h : stringMembers vulnerabilityNames cs = true) :
    storeStruct (lit "dtrack.Vulnerability") vulnerabilityFields (.obj cs) {} none
      = ({ Uuid := stringAt cs (lit "uuid"), VulnId := stringAt cs (lit "vulnId"), Source := stringAt cs (lit "source"), Title := stringAt cs (lit "title"), Description := stringAt cs (lit "description"), Severity := stringAt cs (lit "severity"), Recommendation := stringAt cs (lit "recommendation") }, none) := by
  have hn : vulnerabilityFields.map (·.name) = vulnerabilityNames := by decide
  have hp : plainKeys (vulnerabilityFields.map (·.name)) cs = true := by
    rw [hn]; simp only [stringMembers, Bool.and_eq_true] at h; exact h.1
  rw [storeStruct_obj]
  refine Prod.ext ?_ ?_
  · have h1 := storeStruct_get vulnerabilityFields (lit "uuid") (·.Uuid) storeString
      (by decide)
      (by
        intro f hf v t sv
        simp only [vulnerabilityFields, List.mem_cons, List.mem_singleton, List.not_mem_nil,
          or_false] at hf
        rcases hf with rfl | rfl | rfl | rfl | rfl | rfl | rfl <;> refine ⟨fun hh => ?_, fun hh => ?_⟩ <;>
          first
          | exact storeString_indep _ _ _
          | rfl
          | exact absurd hh (by decide)) cs hp {} none
    have h2 := storeStruct_get vulnerabilityFields (lit "vulnId") (·.VulnId) storeString
      (by decide)
      (by
        intro f hf v t sv
        simp only [vulnerabilityFields, List.mem_cons, List.mem_singleton, List.not_mem_nil,
          or_false] at hf
        rcases hf with rfl | rfl | rfl | rfl | rfl | rfl | rfl <;> refine ⟨fun hh => ?_, fun hh => ?_⟩ <;>
          first
          | exact storeString_indep _ _ _
          | rfl
          | exact absurd hh (by decide)) cs hp {} none
    have h3 := storeStruct_get vulnerabilityFields (lit "source") (·.Source) storeString
      (by decide)
      (by
        intro f hf v t sv
        simp only [vulnerabilityFields, List.mem_cons, List.mem_singleton, List.not_mem_nil,
          or_false] at hf
        rcases hf with rfl | rfl | rfl | rfl | rfl | rfl | rfl <;> refine ⟨fun hh => ?_, fun hh => ?_⟩ <;>
          first
          | exact storeString_indep _ _ _
          | rfl
          | exact absurd hh (by decide)) cs hp {} none
    have h4 := storeStruct_get vulnerabilityFields (lit "title") (·.Title) storeString
      (by decide)
      (by
        intro f hf v t sv
        simp only [vulnerabilityFields, List.mem_cons, List.mem_singleton, List.not_mem_nil,
          or_false] at hf
        rcases hf with rfl | rfl | rfl | rfl | rfl | rfl | rfl <;> refine ⟨fun hh => ?_, fun hh => ?_⟩ <;>
          first
          | exact storeString_indep _ _ _
          | rfl
          | exact absurd hh (by decide)) cs hp {} none
    have h5 := storeStruct_get vulnerabilityFields (lit "description") (·.Description) storeString
      (by decide)
      (by
        intro f hf v t sv
        simp only [vulnerabilityFields, List.mem_cons, List.mem_singleton, List.not_mem_nil,
          or_false] at hf
        rcases hf with rfl | rfl | rfl | rfl | rfl | rfl | rfl <;> refine ⟨fun hh => ?_, fun hh => ?_⟩ <;>
          first
          | exact storeString_indep _ _ _
          | rfl
          | exact absurd hh (by decide)) cs hp {} none
    have h6 := storeStruct_get vulnerabilityFields (lit "severity") (·.Severity) storeString
      (by decide)
      (by
        intro f hf v t sv
        simp only [vulnerabilityFields, List.mem_cons, List.mem_singleton, List.not_mem_nil,
          or_false] at hf
        rcases hf with rfl | rfl | rfl | rfl | rfl | rfl | rfl <;> refine ⟨fun hh => ?_, fun hh => ?_⟩ <;>
          first
          | exact storeString_indep _ _ _
          | rfl
          | exact absurd hh (by decide)) cs hp {} none
    have h7 := storeStruct_get vulnerabilityFields (lit "recommendation") (·.Recommendation) storeString
      (by decide)
      (by
        intro f hf v t sv
        simp only [vulnerabilityFields, List.mem_cons, List.mem_singleton, List.not_mem_nil,
          or_false] at hf
        rcases hf with rfl | rfl | rfl | rfl | rfl | rfl | rfl <;> refine ⟨fun hh => ?_, fun hh => ?_⟩ <;>
          first
          | exact storeString_indep _ _ _
          | rfl
          | exact absurd hh (by decide)) cs hp {} none
    rw [stringAt_eq] at h1 h2 h3 h4 h5 h6 h7
    generalize List.foldl _ _ cs = r at h1 h2 h3 h4 h5 h6 h7 ⊢
    obtain ⟨⟨x1, x2, x3, x4, x5, x6, x7⟩, e⟩ := r
    simp only at h1 h2 h3 h4 h5 h6 h7
    simp only [h1, h2, h3, h4, h5, h6, h7]
  · apply stringMembers_saved vulnerabilityFields cs _ (by rw [hn]; exact h)
    intro f hf v t sv hv
    simp only [vulnerabilityFields, List.mem_cons, List.mem_singleton, List.not_mem_nil,
      or_false] at hf
    rcases hf with rfl | rfl | rfl | rfl | rfl | rfl | rfl <;> exact storeString_saved _ _ _ hv

theorem storeAnalysis_obj (cs : List (GoString × JSON))
    (h : stringMembers analysisNames cs = true) :
    storeStruct (lit "dtrack.Analysis") analysisFields (.obj cs) {} none
      = ({ AnalysisState := stringAt cs (lit "analysisState") }, none) := by
  have hn : analysisFields.map (·.name) = analysisNames := by decide
  have hp : plainKeys (analysisFields.map (·.name)) cs = true := by
    rw [hn]; simp only [stringMembers, Bool.and_eq_true] at h; exact h.1
  rw [storeStruct_obj]
  refine Prod.ext ?_ ?_
  · have h1 := storeStruct_get analysisFields (lit "analysisState") (·.AnalysisState) storeString
      (by decide)
      (by
        intro f hf v t sv
        simp only [analysisFields, List.mem_cons, List.mem_singleton, List.not_mem_nil,
          or_false] at hf
        rcases hf with rfl
        refine ⟨fun hh => ?_, fun hh => ?_⟩ <;>
          first
          | exact storeString_indep _ _ _
          | rfl
          | exact absurd hh (by decide)) cs hp {} none
    rw [stringAt_eq] at h1
    generalize List.foldl _ _ cs = r at h1 ⊢
    obtain ⟨⟨x1⟩, e⟩ := r
    simp only at h1
    simp only [h1]
  · apply stringMembers_saved analysisFields cs _ (by rw [hn]; exact h)
    intro f hf v t sv hv
    simp only [analysisFields, List.mem_cons, List.mem_singleton, List.not_mem_nil,
      or_false] at hf
    rcases hf with rfl
    exact storeString_saved _ _ _ hv

theorem storeFields_indep {α : Type} (fields : List (Field α))
    (hf : ∀ f ∈ fields, ∀ v t sv, (f.store v t sv).1 = (f.store v t none).1)
    (ms : List (GoString × JSON)) : ∀ (t : α) (sv sv' : Option GoError),
    (ms.foldl (fun acc m =>
          match findField fields m.1 with
          | some f => f.store m.2 acc.1 acc.2
          | none => acc) (t, sv)).1
      = (ms.foldl (fun acc m =>
          match findField fields m.1 with
          | some f => f.store m.2 acc.1 acc.2
          | none => acc) (t, sv')).1 := by
  induction ms with
  | nil => intro t sv sv'; rfl
  | cons m tl ih =>
    intro t sv sv'
    rw [List.foldl_cons, List.foldl_cons]
    cases hfm : findField fields m.1 with
    | none => exact ih t sv sv'
    | some f =>
      dsimp only
      have hmem : f ∈ fields := by
        unfold findField at hfm
        cases h1 : fields.find? (fun f => decide (f.name = m.1)) with
        | some g =>
          rw [h1] at hfm
          cases hfm
          exact List.mem_of_find?_eq_some h1
        | none =>
          rw [h1] at hfm
          exact List.mem_of_find?_eq_some hfm
      have e : (f.store m.2 t sv).1 = (f.store m.2 t sv').1 := by
        rw [hf f hmem m.2 t sv, hf f hmem m.2 t sv']
      have := ih (f.store m.2 t sv).1 (f.store m.2 t sv).2 (f.store m.2 t sv').2
      rw [this]
      congr 2
      exact Prod.ext e rfl

theorem storeStruct_indep {α : Type} (typeName : GoString) (fields : List (Field α))
    (hf : ∀ f ∈ fields, ∀ v t sv, (f.store v t sv).1 = (f.store v t none).1)
    (v : JSON) (t : α) (sv : Option GoError) :
    (storeStruct typeName fields v t sv).1 = (storeStruct typeName fields v t none).1 := by
  cases v with
  | obj ms => exact storeFields_indep fields hf ms t sv none
  | _ => rfl

theorem stringFields_indep {α : Type} (fields : List (Field α))
    (h : ∀ f ∈ fields, ∃ name, ∃ get : α → GoString, ∃ set,
      f = Field.of name get set storeString) :
    ∀ f ∈ fields, ∀ v t sv, (f.store v t sv).1 = (f.store v t none).1 := by
  intro f hf v t sv
  obtain ⟨name, get, set, rfl⟩ := h f hf
  simp only [Field.of, storeString_indep v (get t) sv]

theorem componentFields_indep :
    ∀ f ∈ componentFields, ∀ v t sv, (f.store v t sv).1 = (f.store v t none).1 := by
  apply stringFields_indep
  intro f hf
  simp only [componentFields, List.mem_cons, List.mem_singleton, List.not_mem_nil,
    or_false] at hf
  rcases hf with rfl | rfl | rfl <;> exact ⟨_, _, _, rfl⟩

theorem vulnerabilityFields_indep :
    ∀ f ∈ vulnerabilityFields, ∀ v t sv, (f.store v t sv).1 = (f.store v t none).1 := by
  apply stringFields_indep
  intro f hf
  simp only [vulnerabilityFields, List.mem_cons, List.mem_singleton, List.not_mem_nil,
    or_false] at hf
  rcases hf with rfl | rfl | rfl | rfl | rfl | rfl | rfl <;> exact ⟨_, _, _, rfl⟩

theorem analysisFields_indep :
    ∀ f ∈ analysisFields, ∀ v t sv, (f.store v t sv).1 = (f.store v t none).1 := by
  apply stringFields_indep
  intro f hf
  simp only [analysisFields, List.mem_cons, List.mem_singleton, List.not_mem_nil,
    or_false] at hf
  rcases hf with rfl
  exact ⟨_, _, _, rfl⟩

/-- A struct of string fields stores an object of plain keys, or `null`, without error. -/
theorem stringStruct_saved {α : Type} (typeName : GoString) (fields : List (Field α))
    (names : List GoString) (hn : fields.map (·.name) = names)
    (hfields : ∀ f ∈ fields, ∀ v t sv, isStringOrNull v = true → (f.store v t sv).2 = sv)
    (v : JSON) (h : objectOrNull (stringMembers names) v = true) (t : α)
    (sv : Option GoError) : (storeStruct typeName fields v t sv).2 = sv := by
  cases v with
  | obj ms =>
    rw [storeStruct_obj]
    exact stringMembers_saved fields ms hfields (by rw [hn]; exact h) t sv
  | null => rfl
  | _ => simp [objectOrNull] at h

theorem lookup_mem {k : GoString} {v : JSON} {ms : List (GoString × JSON)}
    (h : ms.lookup k = some v) : (k, v) ∈ ms := by
  induction ms with
  | nil => simp [List.lookup] at h
  | cons m tl ih =>
    obtain ⟨k', v'⟩ := m
    by_cases e : k = k'
    · subst e
      simp [List.lookup] at h
      subst h
      exact List.mem_cons_self _ _
    · have hne : (k == k') = false := by simpa using e
      simp only [List.lookup, hne] at h
      exact List.mem_cons_of_mem _ (ih h)

theorem wellFormedFinding_obj {ms : List (GoString × JSON)}
    (h : wellFormedFinding (.obj ms) = true) :
    plainKeys findingNames ms = true
    ∧ (∀ v, (lit "component", v) ∈ ms → objectOrNull (stringMembers componentNames) v = true)
    ∧ (∀ v, (lit "vulnerability", v) ∈ ms →
        objectOrNull (stringMembers vulnerabilityNames) v = true)
    ∧ (∀ v, (lit "analysis", v) ∈ ms → objectOrNull (stringMembers analysisNames) v = true)
    ∧ (∀ v, (lit "matrix", v) ∈ ms → isStringOrNull v = true) := by
  simp only [wellFormedFinding, Bool.and_eq_true, List.all_eq_true] at h
  refine ⟨h.1, fun v hv => ?_, fun v hv => ?_, fun v hv => ?_, fun v hv => ?_⟩
  · have := h.2 _ hv
    simpa using this
  · have := h.2 _ hv
    dsimp only at this
    rw [if_neg (show ¬ lit "vulnerability" = lit "component" by decide), if_pos rfl] at this
    exact this
  · have := h.2 _ hv
    dsimp only at this
    rw [if_neg (show ¬ lit "analysis" = lit "component" by decide),
      if_neg (show ¬ lit "analysis" = lit "vulnerability" by decide), if_pos rfl] at this
    exact this
  · have := h.2 _ hv
    dsimp only at this
    rw [if_neg (show ¬ lit "matrix" = lit "component" by decide),
      if_neg (show ¬ lit "matrix" = lit "vulnerability" by decide),
      if_neg (show ¬ lit "matrix" = lit "analysis" by decide), if_pos rfl] at this
    exact this

theorem component_of_lookup (ms : List (GoString × JSON))
    (h : ∀ v, (lit "component", v) ∈ ms → objectOrNull (stringMembers componentNames) v = true) :
    (match ms.lookup (lit "component") with
      | some v => (storeStruct (lit "dtrack.Component") componentFields v {} none).1
      | none => {})
      = (specFinding (.obj ms)).Comp := by
  simp only [specFinding, membersAt]
  cases hl : ms.lookup (lit "component") with
  | none => rfl
  | some v =>
    have hv := h v (lookup_mem hl)
    cases v with
    | obj cs => simp only [storeComponent_obj cs hv]
    | null => rfl
    | _ => simp [objectOrNull] at hv

theorem vulnerability_of_lookup (ms : List (GoString × JSON))
    (h : ∀ v, (lit "vulnerability", v) ∈ ms →
      objectOrNull (stringMembers vulnerabilityNames) v = true) :
    (match ms.lookup (lit "vulnerability") with
      | some v => (storeStruct (lit "dtrack.Vulnerability") vulnerabilityFields v {} none).1
      | none => {})
      = (specFinding (.obj ms)).Vuln := by
  simp only [specFinding, membersAt]
  cases hl : ms.lookup (lit "vulnerability") with
  | none => rfl
  | some v =>
    have hv := h v (lookup_mem hl)
    cases v with
    | obj cs => simp only [storeVulnerability_obj cs hv]
    | null => rfl
    | _ => simp [objectOrNull] at hv

theorem analysis_of_lookup (ms : List (GoString × JSON))
    (h : ∀ v, (lit "analysis", v) ∈ ms → objectOrNull (stringMembers analysisNames) v = true) :
    (match ms.lookup (lit "analysis") with
      | some v => (storeStruct (lit "dtrack.Analysis") analysisFields v {} none).1
      | none => {})
      = (specFinding (.obj ms)).An := by
  simp only [specFinding, membersAt]
  cases hl : ms.lookup (lit "analysis") with
  | none => rfl
  | some v =>
    have hv := h v (lookup_mem hl)
    cases v with
    | obj cs => simp only [storeAnalysis_obj cs hv]
    | null => rfl
    | _ => simp [objectOrNull] at hv

/-- An element of the response that is as the specification describes it is stored, without
error, as the finding the specification reads off it. -/
theorem storeFinding_wellFormed (v : JSON) (h : wellFormedFinding v = true)
    (sv : Option GoError) : storeFinding v {} sv = (specFinding v, sv) := by
  cases v with
  | obj ms =>
    obtain ⟨hp, hc, hv, ha, hm⟩ := wellFormedFinding_obj h
    have hn : findingFields.map (·.name) = findingNames := by decide
    have hp' : plainKeys (findingFields.map (·.name)) ms = true := by rw [hn]; exact hp
    unfold storeFinding
    rw [storeStruct_obj]
    refine Prod.ext ?_ ?_
    · have h1 := storeStruct_get findingFields (lit "component") (·.Comp)
        (storeStruct (lit "dtrack.Component") componentFields) (by decide)
        (by
          intro f hf v t sv
          simp only [findingFields, List.mem_cons, List.mem_singleton, List.not_mem_nil,
            or_false] at hf
          rcases hf with rfl | rfl | rfl | rfl <;> refine ⟨fun hh => ?_, fun hh => ?_⟩ <;>
            first
            | exact storeStruct_indep _ _ componentFields_indep _ _ _
            | rfl
            | exact absurd hh (by decide)) ms hp' {} sv
      have h2 := storeStruct_get findingFields (lit "vulnerability") (·.Vuln)
        (storeStruct (lit "dtrack.Vulnerability") vulnerabilityFields) (by decide)
        (by
          intro f hf v t sv
          simp only [findingFields, List.mem_cons, List.mem_singleton, List.not_mem_nil,
            or_false] at hf
          rcases hf with rfl | rfl | rfl | rfl <;> refine ⟨fun hh => ?_, fun hh => ?_⟩ <;>
            first
            | exact storeStruct_indep _ _ vulnerabilityFields_indep _ _ _
            | rfl
            | exact absurd hh (by decide)) ms hp' {} sv
      have h3 := storeStruct_get findingFields (lit "analysis") (·.An)
        (storeStruct (lit "dtrack.Analysis") analysisFields) (by decide)
        (by
          intro f hf v t sv
          simp only [findingFields, List.mem_cons, List.mem_singleton, List.not_mem_nil,
            or_false] at hf
          rcases hf with rfl | rfl | rfl | rfl <;> refine ⟨fun hh => ?_, fun hh => ?_⟩ <;>
            first
            | exact storeStruct_indep _ _ analysisFields_indep _ _ _
            | rfl
            | exact absurd hh (by decide)) ms hp' {} sv
      have h4 := storeStruct_get findingFields (lit "matrix") (·.Matrix) storeString
        (by decide)
        (by
          intro f hf v t sv
          simp only [findingFields, List.mem_cons, List.mem_singleton, List.not_mem_nil,
            or_false] at hf
          rcases hf with rfl | rfl | rfl | rfl <;> refine ⟨fun hh => ?_, fun hh => ?_⟩ <;>
            first
            | exact storeString_indep _ _ _
            | rfl
            | exact absurd hh (by decide)) ms hp' {} sv
      rw [show (({} : Finding).Comp) = {} from rfl, component_of_lookup ms hc] at h1
      rw [show (({} : Finding).Vuln) = {} from rfl, vulnerability_of_lookup ms hv] at h2
      rw [show (({} : Finding).An) = {} from rfl, analysis_of_lookup ms ha] at h3
      rw [show (({} : Finding).Matrix) = [] from rfl, stringAt_eq] at h4
      generalize List.foldl _ _ ms = r at h1 h2 h3 h4 ⊢
      obtain ⟨⟨x1, x2, x3, x4⟩, e⟩ := r
      simp only at h1 h2 h3 h4
      simp only [h1, h2, h3, h4]
      rfl
    · apply storeStruct_saved
      intro m hmem f hf t sv
      obtain ⟨hfm, hfn⟩ := findField_name (plainKeys_mem hp' hmem) hf
      obtain ⟨k, v⟩ := m
      simp only at hfn
      simp only [findingFields, List.mem_cons, List.mem_singleton, List.not_mem_nil,
        or_false] at hfm
      rcases hfm with rfl | rfl | rfl | rfl
      · have hk : k = lit "component" := hfn.symm
        subst hk
        exact stringStruct_saved _ componentFields componentNames (by decide)
          (fun f hf v t sv hv => by
            simp only [componentFields, List.mem_cons, List.mem_singleton, List.not_mem_nil,
              or_false] at hf
            rcases hf with rfl | rfl | rfl <;> exact storeString_saved _ _ _ hv)
          v (hc v hmem) _ sv
      · have hk : k = lit "vulnerability" := hfn.symm
        subst hk
        exact stringStruct_saved _ vulnerabilityFields vulnerabilityNames (by decide)
          (fun f hf v t sv hv => by
            simp only [vulnerabilityFields, List.mem_cons, List.mem_singleton,
              List.not_mem_nil, or_false] at hf
            rcases hf with rfl | rfl | rfl | rfl | rfl | rfl | rfl <;>
              exact storeString_saved _ _ _ hv)
          v (hv v hmem) _ sv
      · have hk : k = lit "analysis" := hfn.symm
        subst hk
        exact stringStruct_saved _ analysisFields analysisNames (by decide)
          (fun f hf v t sv hv => by
            simp only [analysisFields, List.mem_cons, List.mem_singleton, List.not_mem_nil,
              or_false] at hf
            rcases hf with rfl
            exact storeString_saved _ _ _ hv)
          v (ha v hmem) _ sv
      · have hk : k = lit "matrix" := hfn.symm
        subst hk
        exact storeString_saved _ _ _ (hm v hmem)
  | _ => simp [wellFormedFinding] at h

theorem storeFindings_fold (items : List JSON)
    (h : ∀ v ∈ items, wellFormedFinding v = true) : ∀ (acc : List Finding),
    items.foldl
        (fun acc v =>
          let r := storeFinding v {} acc.2
          (acc.1 ++ [r.1], r.2))
        (acc, none)
      = (acc ++ items.map specFinding, none) := by
  induction items with
  | nil => intro acc; simp
  | cons v tl ih =>
    intro acc
    rw [List.foldl_cons]
    dsimp only
    rw [storeFinding_wellFormed v (h v (List.mem_cons_self _ _)) none]
    dsimp only
    rw [ih (fun v' hv' => h v' (List.mem_cons_of_mem _ hv'))]
    simp

theorem storeFindings_arr (items : List JSON)
    (h : ∀ v ∈ items, wellFormedFinding v = true) :
    storeFindings (.arr items) [] none = (items.map specFinding, none) := by
  have e : storeFindings (.arr items) [] none
      = items.foldl
          (fun acc v =>
            let r := storeFinding v {} acc.2
            (acc.1 ++ [r.1], r.2))
          ([], none) := rfl
  rw [e, storeFindings_fold items h []]
  simp

theorem findingFields_indep :
    ∀ f ∈ findingFields, ∀ v t sv, (f.store v t sv).1 = (f.store v t none).1 := by
  intro f hf v t sv
  simp only [findingFields, List.mem_cons, List.mem_singleton, List.not_mem_nil,
    or_false] at hf
  rcases hf with rfl | rfl | rfl | rfl
  · simp only [Field.of, storeStruct_indep _ componentFields componentFields_indep v _ sv]
  · simp only [Field.of, storeStruct_indep _ vulnerabilityFields vulnerabilityFields_indep v _ sv]
  · simp only [Field.of, storeStruct_indep _ analysisFields analysisFields_indep v _ sv]
  · simp only [Field.of, storeString_indep v _ sv]

theorem storeFinding_indep (v : JSON) (t : Finding) (sv : Option GoError) :
    (storeFinding v t sv).1 = (storeFinding v t none).1 :=
  storeStruct_indep _ findingFields findingFields_indep v t sv

/-- Each element of the array is stored on its own, into a new zero `Finding`, in order. -/
theorem storeFindings_map (items : List JSON) (sv : Option GoError) :
    (storeFindings (.arr items) [] sv).1 = items.map fun v => (storeFinding v {} none).1 := by
  have e : storeFindings (.arr items) [] sv
      = items.foldl
          (fun acc v =>
            let r := storeFinding v {} acc.2
            (acc.1 ++ [r.1], r.2))
          ([], sv) := rfl
  have key : ∀ (l : List JSON) (acc : List Finding × Option GoError),
      (l.foldl
          (fun acc v =>
            let r := storeFinding v {} acc.2
            (acc.1 ++ [r.1], r.2))
          acc).1 = acc.1 ++ l.map fun v => (storeFinding v {} none).1 := by
    intro l
    induction l with
    | nil => intro acc; simp
    | cons v tl ih =>
      intro acc
      rw [List.foldl_cons, ih]
      dsimp only
      rw [storeFinding_indep v {} acc.2]
      simp
  rw [e, key]
  simp

theorem storeFindings_length (items : List JSON) (sv : Option GoError) :
    (storeFindings (.arr items) [] sv).1.length = items.length := by
  have e : storeFindings (.arr items) [] sv
      = items.foldl
          (fun acc v =>
            let r := storeFinding v {} acc.2
            (acc.1 ++ [r.1], r.2))
          ([], sv) := rfl
  have key : ∀ (l : List JSON) (acc : List Finding × Option GoError),
      (l.foldl
          (fun acc v =>
            let r := storeFinding v {} acc.2
            (acc.1 ++ [r.1], r.2))
          acc).1.length = acc.1.length + l.length := by
    intro l
    induction l with
    | nil => intro acc; simp
    | cons v tl ih =>
      intro acc
      rw [List.foldl_cons, ih]
      simp only [List.length_append, List.length_cons, List.length_nil]
      omega
  rw [e, key]
  simp

set_option maxRecDepth 100000 in
/-- C8 (as amended): when the response to `GetFindings` is not rejected and its body is,
after optional white space, the JSON text of an array (whatever follows it), `GetFindings`
returns one finding per element of the array, in the order of the array, each being what its
element alone is decoded to; and when every element is an object as the
specification describes it, with each key spelled exactly as named and at most once and
strings under the named keys, it returns with a `nil` error the findings read off the
elements, in the order of the array: each field is the string under its key and an absent
key leaves the field empty. The same holds for every body the decoder reads as such an
array. In particular the body of the specification's example gives exactly one finding with
component `{u1, lib, 1.0}`, vulnerability id `CVE-1` and analysis state `EXPLOITABLE`. -/
theorem findings_decoded (w : World) (c : ApiClient) (p body rest : GoString) (req : Request)
    (status : Int) (items : List JSON) (n : Nat) (pad text : GoString)
    (hs : Event.send req ∈ (GetFindings w c p).trace) :
    (w.roundTrip req = .ok ⟨status, pad ++ (text ++ rest)⟩ → status ≠ 404 → status ≠ 401 →
        whiteSpace pad = true → JSONText n text (JSON.arr items) → n ≤ maxNestingDepth →
        (∃ fs err, (GetFindings w c p).outcome = .returned fs err ∧ fs.length = items.length
            ∧ fs = items.map fun v => (storeFinding v {} none).1)
        ∧ ((∀ v ∈ items, wellFormedFinding v = true) →
            (GetFindings w c p).outcome = .returned (items.map specFinding) none
              ∧ (items.map specFinding).length = items.length))
    ∧ (w.roundTrip req = .ok ⟨status, body⟩ → status ≠ 404 → status ≠ 401 →
        readValue body = .ok (.arr items) rest →
        (∀ v ∈ items, wellFormedFinding v = true) →
        (GetFindings w c p).outcome = .returned (items.map specFinding) none
          ∧ (items.map specFinding).length = items.length)
    ∧ (w.roundTrip req = .ok ⟨200, lit "[\x7b\"component\":\x7b\"uuid\":\"u1\",\"name\":\"lib\",\"version\":\"1.0\"\x7d,\"vulnerability\":\x7b\"vulnId\":\"CVE-1\"\x7d,\"analysis\":\x7b\"analysisState\":\"EXPLOITABLE\"\x7d\x7d]"⟩ →
        (GetFindings w c p).outcome
          = .returned
              [{ Comp := { Uuid := lit "u1", Name := lit "lib", Version := lit "1.0" }
                 Vuln := { VulnId := lit "CVE-1" }
                 An := { AnalysisState := lit "EXPLOITABLE" } }]
              none) := by
  obtain ⟨pre, -, hrun⟩ := GetFindings_of_send hs
  have key : ∀ body' rest', w.roundTrip req = .ok ⟨status, body'⟩ → status ≠ 404 →
      status ≠ 401 → readValue body' = .ok (.arr items) rest' →
      (GetFindings w c p).outcome
        = .returned (storeFindings (.arr items) [] none).1
            (storeFindings (.arr items) [] none).2 := by
    intro body' rest' hr h404 h401 hv
    have hc : checkRespStatusCode status = none :=
      checkRespStatusCode_eq_none (by rintro (h | h) <;> contradiction)
    rw [hrun, hr]
    simp only [hc]
    unfold Decode
    rw [hv]
  refine ⟨?_, ?_, ?_⟩
  · intro hr h404 h401 hpad ht hn
    have hv := readValue_JSONText ht pad rest hpad hn (fun _ hx => by cases hx)
    have ho := key _ _ hr h404 h401 hv
    refine ⟨⟨_, _, ho, storeFindings_length items none, storeFindings_map items none⟩,
      fun hwf => ⟨?_, by simp⟩⟩
    rw [ho, storeFindings_arr items hwf]
  · intro hr h404 h401 hv hwf
    refine ⟨?_, by simp⟩
    rw [key _ _ hr h404 h401 hv, storeFindings_arr items hwf]
  · intro hr
    have hc : checkRespStatusCode 200 = none := checkRespStatusCode_eq_none (by decide)
    rw [hrun, hr]
    simp only [hc]
    have hd : Decode storeFindings (lit "[\x7b\"component\":\x7b\"uuid\":\"u1\",\"name\":\"lib\",\"version\":\"1.0\"\x7d,\"vulnerability\":\x7b\"vulnId\":\"CVE-1\"\x7d,\"analysis\":\x7b\"analysisState\":\"EXPLOITABLE\"\x7d\x7d]") []
        = ([{ Comp := { Uuid := lit "u1", Name := lit "lib", Version := lit "1.0" }
              Vuln := { VulnId := lit "CVE-1" }
              An := { AnalysisState := lit "EXPLOITABLE" } }], none) := by decide
    rw [hd]

set_option maxRecDepth 100000 in
theorem findings_decoded_witness :
    (GetFindings (stubWorld [] (.ok ⟨200, lit " [ \x7b\"matrix\":\"m\",\"cvss\":7.5,\"component\":\x7b\"name\":\"lib\"\x7d\x7d , \x7b\x7d ]\n"⟩))
        ⟨lit "k", lit "http://x"⟩ (lit "p")).outcome
      = .returned
          ([JSON.obj [(lit "matrix", .str (lit "m")), (lit "cvss", .num (lit "7.5")),
              (lit "component", .obj [(lit "name", .str (lit "lib"))])],
            JSON.obj []].map specFinding) none
    ∧ ([JSON.obj [(lit "matrix", .str (lit "m")), (lit "cvss", .num (lit "7.5")),
              (lit "component", .obj [(lit "name", .str (lit "lib"))])],
            JSON.obj []].map specFinding).length = 2 :=
  ((findings_decoded (stubWorld [] (.ok ⟨200, lit " [ \x7b\"matrix\":\"m\",\"cvss\":7.5,\"component\":\x7b\"name\":\"lib\"\x7d\x7d , \x7b\x7d ]\n"⟩))
    ⟨lit "k", lit "http://x"⟩ (lit "p") [] (lit "\n")
    { Method := lit "GET", URL := lit "http://x/api/v1/finding/project/p",
      Header := [(lit "X-Api-Key", lit "k"), (lit "Content-Type", lit "application/json")],
      Body := none }
    200
    [JSON.obj [(lit "matrix", .str (lit "m")), (lit "cvss", .num (lit "7.5")),
        (lit "component", .obj [(lit "name", .str (lit "lib"))])], JSON.obj []]
    3 (lit " ") _
    (by decide)).1 (by rfl) (by decide) (by decide) rfl
    (JSONText.arrCons 2 (lit " ") (lit " ") rfl rfl
      (JSONText.objCons 1 [] [] [] [] rfl rfl rfl rfl (StrBody_plain (lit "matrix") (by decide))
        (JSONText.str 1 (StrBody_plain (lit "m") (by decide)))
        (JSONText.objCons 1 [] [] [] [] rfl rfl rfl rfl (StrBody_plain (lit "cvss") (by decide))
          (JSONText.num 1 ⟨[], lit "7", lit ".5", [], rfl, Or.inl rfl,
            Or.inr ⟨0x37, [], rfl, rfl, rfl⟩, Or.inr ⟨lit "5", rfl, by decide, rfl⟩, Or.inl rfl⟩)
          (JSONText.objOne 1 [] [] [] [] rfl rfl rfl rfl
            (StrBody_plain (lit "component") (by decide))
            (JSONText.objOne 0 [] [] [] [] rfl rfl rfl rfl
              (StrBody_plain (lit "name") (by decide))
              (JSONText.str 0 (StrBody_plain (lit "lib") (by decide)))))))
      (JSONText.arrOne 2 (lit " ") (lit " ") rfl rfl (JSONText.objNil 1 [] rfl)))
    (by decide)).2 (by decide)

set_option maxRecDepth 100000 in
/-- C8 (as stated, refuted): the decoder also stores a member whose key matches a field name
only up to letter case, and it stores every member of a repeated key. The body
`[{"Matrix":"m","COMPONENT":{"NAME":"lib"}}]` has none of the keys `matrix`, `component` and
`name`, so the reading of the specification leaves every field empty, yet `GetFindings`
returns a finding with `Matrix` `m` and component name `lib`; and on
`[{"component":{"uuid":"u"},"component":{"name":"n"}}]` the component holds both `u` and
`n`, the content of neither member alone. -/
theorem findings_keys_up_to_case :
    readValue (lit "[\x7b\"Matrix\":\"m\",\"COMPONENT\":\x7b\"NAME\":\"lib\"\x7d\x7d]")
        = .ok (.arr [.obj [(lit "Matrix", .str (lit "m")),
            (lit "COMPONENT", .obj [(lit "NAME", .str (lit "lib"))])]]) []
    ∧ (GetFindings (stubWorld [] (.ok ⟨200, lit "[\x7b\"Matrix\":\"m\",\"COMPONENT\":\x7b\"NAME\":\"lib\"\x7d\x7d]"⟩))
          ⟨lit "k", lit "http://x"⟩ (lit "p")).outcome
        = .returned [{ Comp := { Name := lit "lib" }, Matrix := lit "m" }] none
    ∧ [JSON.obj [(lit "Matrix", .str (lit "m")),
          (lit "COMPONENT", .obj [(lit "NAME", .str (lit "lib"))])]].map specFinding = [{}]
    ∧ (GetFindings (stubWorld [] (.ok ⟨200, lit "[\x7b\"component\":\x7b\"uuid\":\"u\"\x7d,\"component\":\x7b\"name\":\"n\"\x7d\x7d]"⟩))
          ⟨lit "k", lit "http://x"⟩ (lit "p")).outcome
        = .returned [{ Comp := { Uuid := lit "u", Name := lit "n" } }] none
    ∧ ¬ ∀ (w : World) (c : ApiClient) (p body rest : GoString) (req : Request) (status : Int)
        (items : List JSON), Event.send req ∈ (GetFindings w c p).trace →
        w.roundTrip req = .ok ⟨status, body⟩ → status ≠ 404 → status ≠ 401 →
        readValue body = .ok (.arr items) rest →
        (GetFindings w c p).outcome = .returned (items.map specFinding) none := by
  refine ⟨rfl, by decide, by decide, by decide, fun h => ?_⟩
  have h1 := h (stubWorld [] (.ok ⟨200, lit "[\x7b\"Matrix\":\"m\",\"COMPONENT\":\x7b\"NAME\":\"lib\"\x7d\x7d]"⟩))
    ⟨lit "k", lit "http://x"⟩ (lit "p")
    (lit "[\x7b\"Matrix\":\"m\",\"COMPONENT\":\x7b\"NAME\":\"lib\"\x7d\x7d]") []
    { Method := lit "GET", URL := lit "http://x/api/v1/finding/project/p",
      Header := [(lit "X-Api-Key", lit "k"), (lit "Content-Type", lit "application/json")],
      Body := none }
    200
    [.obj [(lit "Matrix", .str (lit "m")),
      (lit "COMPONENT", .obj [(lit "NAME", .str (lit "lib"))])]]
    (by decide) rfl (by decide) (by decide) rfl
  have h2 : (GetFindings (stubWorld [] (.ok ⟨200, lit "[\x7b\"Matrix\":\"m\",\"COMPONENT\":\x7b\"NAME\":\"lib\"\x7d\x7d]"⟩))
      ⟨lit "k", lit "http://x"⟩ (lit "p")).outcome
      = .returned [{ Comp := { Name := lit "lib" }, Matrix := lit "m" }] none := by decide
  rw [h2] at h1
  exact absurd h1 (by decide)

/-! ## The scanner never runs out of budget -/

theorem Scan.within_map {α β : Type} (f : α → β) (r : Scan α) (n : Nat) :
    (r.map f).within n ↔ r.within n := by
  cases r <;> rfl

theorem Scan.within_mono {α : Type} {r : Scan α} {n m : Nat} (h : r.within n) (hnm : n ≤ m) :
    r.within m := by
  cases r with
  | ok v rest => exact Nat.lt_of_lt_of_le h hnm
  | bad => trivial
  | fuel => exact h

theorem skipSpace_length (bs : GoString) : (skipSpace bs).length ≤ bs.length := by
  induction bs with
  | nil => simp [skipSpace]
  | cons c tl ih =>
    unfold skipSpace
    split
    · exact Nat.le_succ_of_le ih
    · exact le_refl _

theorem skipSpace_eq_cons {bs : GoString} {c : Byte} {rest : GoString}
    (h : skipSpace bs = c :: rest) : rest.length < bs.length := by
  have := skipSpace_length bs
  rw [h] at this
  simpa using this

theorem scanString_within (bs : GoString) : ∀ k, (scanString k bs).within bs.length := by
  induction bs with
  | nil => intro k; cases k <;> trivial
  | cons c tl ih =>
    intro k
    have step : ∀ k' xs, ((scanString k' tl).prepend xs).within (c :: tl).length := by
      intro k' xs
      unfold Scan.prepend
      rw [Scan.within_map]
      exact Scan.within_mono (ih k') (Nat.le_succ _)
    cases k with
    | succ k =>
      rw [scanString]
      exact Scan.within_mono (ih k) (Nat.le_succ _)
    | zero =>
      simp only [scanString]
      split
      · simp [Scan.within]
      split
      · split
        · trivial
        · split
          · split
            · trivial
            · split
              · split
                · exact step _ _
                · exact step _ _
              · exact step _ _
          · split
            · trivial
            · exact step _ _
      split
      · trivial
      split
      · exact step _ _
      · exact step _ _

theorem spanDigits_length (bs : GoString) : (spanDigits bs).2.length ≤ bs.length := by
  induction bs with
  | nil => simp [spanDigits]
  | cons c tl ih =>
    unfold spanDigits
    split
    · exact Nat.le_succ_of_le ih
    · exact le_refl _

theorem scanInt_length {bs i r : GoString} (h : scanInt bs = some (i, r)) :
    r.length < bs.length := by
  unfold scanInt at h
  split at h
  · split at h
    · cases h; simp
    · split at h
      · cases h
        exact Nat.lt_succ_of_le (spanDigits_length _)
      · cases h
  · cases h

theorem scanFraction_length {bs f r : GoString} (h : scanFraction bs = some (f, r)) :
    r.length ≤ bs.length := by
  unfold scanFraction at h
  split at h
  · split at h
    · dsimp only at h
      split at h
      · cases h
      · cases h
        exact Nat.le_succ_of_le (spanDigits_length _)
    · cases h; exact le_refl _
  · cases h; exact le_refl _

theorem scanExponent_length {bs e r : GoString} (h : scanExponent bs = some (e, r)) :
    r.length ≤ bs.length := by
  unfold scanExponent at h
  split at h
  · split at h
    · split at h
      · split at h
        · dsimp only at h
          split at h
          · cases h
          · cases h
            exact Nat.le_succ_of_le (Nat.le_succ_of_le (spanDigits_length _))
        · dsimp only at h
          split at h
          · cases h
          · cases h
            exact Nat.le_succ_of_le (spanDigits_length _)
      · cases h
    · cases h; exact le_refl _
  · cases h; exact le_refl _

theorem scanNumber_tail (sgn src : GoString) :
    (match scanInt src with
      | none => Scan.bad
      | some (i, r1) =>
        match scanFraction r1 with
        | none => Scan.bad
        | some (f, r2) =>
          match scanExponent r2 with
          | none => Scan.bad
          | some (e, r3) => Scan.ok (sgn ++ i ++ f ++ e) r3 : Scan GoString).within
      src.length := by
  cases h1 : scanInt src with
  | none => trivial
  | some ir =>
    obtain ⟨i, r1⟩ := ir
    have l1 := scanInt_length h1
    dsimp only
    cases h2 : scanFraction r1 with
    | none => trivial
    | some fr =>
      obtain ⟨f, r2⟩ := fr
      have l2 := scanFraction_length h2
      dsimp only
      cases h3 : scanExponent r2 with
      | none => trivial
      | some er =>
        obtain ⟨e, r3⟩ := er
        have l3 := scanExponent_length h3
        show r3.length < src.length
        omega

theorem scanNumber_within (bs : GoString) : (scanNumber bs).within (bs.length + 1) := by
  unfold scanNumber
  cases bs with
  | nil => exact Scan.within_mono (scanNumber_tail [] []) (Nat.le_succ _)
  | cons c rest =>
    by_cases h : c = 0x2D
    · simp only [h, if_true]
      exact Scan.within_mono (scanNumber_tail _ rest) (by simp only [List.length_cons]; omega)
    · simp only [h, if_false]
      exact Scan.within_mono (scanNumber_tail _ (c :: rest)) (Nat.le_succ _)

theorem scanWord_length (w : GoString) : ∀ (bs r : GoString), scanWord w bs = some r →
    r.length ≤ bs.length := by
  induction w with
  | nil => intro bs r h; simp [scanWord] at h; rw [h]
  | cons x xs ih =>
    intro bs r h
    cases bs with
    | nil => simp [scanWord] at h
    | cons c tl =>
      unfold scanWord at h
      split at h
      · exact Nat.le_succ_of_le (ih tl r h)
      · cases h

/-- With a budget of twice the length of the input and one more, the scan of a value never
runs out; the lists of elements and members need one more still. A value read leaves less
input than there was. -/
theorem scan_within (fuel : Nat) :
    (∀ depth bs, 2 * bs.length + 1 ≤ fuel → (scanValue fuel depth bs).within (bs.length + 1))
    ∧ (∀ depth bs, 2 * bs.length + 2 ≤ fuel →
        (scanElements fuel depth bs).within (bs.length + 1))
    ∧ (∀ depth bs, 2 * bs.length + 2 ≤ fuel →
        (scanMembers fuel depth bs).within (bs.length + 1)) := by
  induction fuel with
  | zero =>
    refine ⟨fun d bs h => ?_, fun d bs h => ?_, fun d bs h => ?_⟩ <;> omega
  | succ fuel ih =>
    obtain ⟨ihV, ihE, ihM⟩ := ih
    refine ⟨fun depth bs h => ?_, fun depth bs h => ?_, fun depth bs h => ?_⟩
    · rw [scanValue]
      have hsk := skipSpace_length bs
      split
      · trivial
      · rename_i c rest hs
        have hl : rest.length < bs.length := skipSpace_eq_cons hs
        split
        · rw [Scan.within_map]
          exact Scan.within_mono (scanString_within rest 0) (by omega)
        split
        · split
          · trivial
          · split
            · trivial
            · rename_i c1 rest1 hs1
              have hl1 : rest1.length < rest.length := skipSpace_eq_cons hs1
              split
              · show rest1.length < bs.length + 1
                omega
              · rw [Scan.within_map]
                exact Scan.within_mono (ihM (depth + 1) (c1 :: rest1)
                  (by simp only [List.length_cons]; omega))
                  (by simp only [List.length_cons]; omega)
        split
        · split
          · trivial
          · split
            · trivial
            · rename_i c1 rest1 hs1
              have hl1 : rest1.length < rest.length := skipSpace_eq_cons hs1
              split
              · show rest1.length < bs.length + 1
                omega
              · rw [Scan.within_map]
                exact Scan.within_mono (ihE (depth + 1) (c1 :: rest1)
                  (by simp only [List.length_cons]; omega))
                  (by simp only [List.length_cons]; omega)
        split
        · split
          · rename_i r hw
            have := scanWord_length _ _ _ hw
            show r.length < bs.length + 1
            omega
          · trivial
        split
        · split
          · rename_i r hw
            have := scanWord_length _ _ _ hw
            show r.length < bs.length + 1
            omega
          · trivial
        split
        · split
          · rename_i r hw
            have := scanWord_length _ _ _ hw
            show r.length < bs.length + 1
            omega
          · trivial
        split
        · rw [Scan.within_map]
          exact Scan.within_mono (scanNumber_within (c :: rest))
            (by simp only [List.length_cons]; omega)
        · trivial
    · rw [scanElements]
      have hv := ihV depth bs (by omega)
      split
      · trivial
      · rename_i hf; rw [hf] at hv; exact hv
      · rename_i v rest hok
        rw [hok] at hv
        have hv' : rest.length < bs.length + 1 := hv
        split
        · trivial
        · rename_i c rest1 hs
          have hl : rest1.length < rest.length := skipSpace_eq_cons hs
          split
          · show rest1.length < bs.length + 1
            omega
          split
          · rw [Scan.within_map]
            exact Scan.within_mono (ihE depth rest1 (by omega)) (by omega)
          · trivial
    · rw [scanMembers]
      split
      · trivial
      · rename_i q rest hs
        have hl : rest.length < bs.length := skipSpace_eq_cons hs
        split
        swap
        · trivial
        have hstr := scanString_within rest 0
        split
        · trivial
        · rename_i hf; rw [hf] at hstr; exact hstr
        · rename_i key rest1 hok
          rw [hok] at hstr
          have hl1 : rest1.length < rest.length := hstr
          split
          · trivial
          · rename_i colon rest2 hs2
            have hl2 : rest2.length < rest1.length := skipSpace_eq_cons hs2
            split
            swap
            · trivial
            have hv := ihV depth rest2 (by omega)
            split
            · trivial
            · rename_i hf; rw [hf] at hv; exact hv
            · rename_i v rest3 hok3
              rw [hok3] at hv
              have hl3 : rest3.length < rest2.length + 1 := hv
              split
              · trivial
              · rename_i c rest4 hs4
                have hl4 : rest4.length < rest3.length := skipSpace_eq_cons hs4
                split
                · show rest4.length < bs.length + 1
                  omega
                split
                · rw [Scan.within_map]
                  exact Scan.within_mono (ihM depth rest4 (by omega)) (by omega)
                · trivial

/-- Reading the first value of a body never runs out of budget. -/
theorem readValue_ne_fuel (body : GoString) : readValue body ≠ .fuel := by
  intro h
  have := (scan_within (2 * body.length + 1)).1 0 body (le_refl _)
  unfold readValue at h
  rw [h] at this
  exact this

end Dtrack
